import Mathlib

/-!
# seastar: a shallow embedding of `seastar.c`

The C translation unit keeps four globals (`ADJACENCY_LIST`, `MAP_HEIGHT`, `MAP_WIDTH`,
`LAYER_DISTANCE`) and exports `init_astar`, `astar`, `reset_obstacles`, `set_layer_distance`
and `reset_layer_distance`.

Conventions of the embedding.

* A `long` that is used arithmetically (coordinates, cell indices, distances, estimates) is an
  `Int`; the development assumes these stay far below `2^63`, so no wrap-around is modelled for
  them. `/` and `%` of C are `Int.tdiv` and `Int.tmod`.
* A `long` that is used as a bit field (an obstacle entry, the blocking mask, a layer key) is the
  `Nat` below `2^64` holding its two's complement bit pattern; `~` is `lnot64` and `<<= 1`
  is `shl1`, both on 64 bits.
* `std::vector` is a `List`; an index outside the vector is undefined behaviour in C and is the
  outcome `fault` here.
* `std::map<long,long>` is a function with the default the map's `operator[]` inserts
  (`0` for `LAYER_DISTANCE`), or a function into `Option` where the code asks `count`.
* `std::set<long>` is a list, used through membership only.
* `std::priority_queue<OpenPt>` is a `std::vector<OpenPt>` with a `push` and a `pop`
  operation; the operations are a parameter (`HeapOps`), and `stdHeap` is the binary heap
  of GNU libstdc++.
* The flat coordinate arrays `startv` / `endv` are lists of pairs; the flat result array is a
  `List Int` that includes the final `-1`.
* Loops whose termination is not syntactically evident take fuel; running out of fuel is the
  outcome `diverge`.
-/

namespace Seastar

/-! ## Machine words used as bit fields -/

/-- The C expression `~x` on a 64-bit `long`, on bit patterns. -/
def lnot64 (x : Nat) : Nat := (2 ^ 64 - 1) ^^^ x

/-- The C statement `i <<= 1` on a 64-bit `long`, on bit patterns. -/
def shl1 (i : Nat) : Nat := (i <<< 1) % 2 ^ 64

/-- The values `i` takes in `for(long i=1; i != 0; i<<=1)`, in order. -/
def layer_loop : Nat → Nat → List Nat
  | 0, _ => []
  | fuel + 1, i => if i = 0 then [] else i :: layer_loop fuel (shl1 i)

/-- The 64 single-bit layers visited by `for(long i=1; i != 0; i<<=1)`; the fuel `65` is not
reached, the loop ends on `i = 0`. -/
def LAYER_BITS : List Nat := layer_loop 65 1

/-! ## Vectors -/

/-- Read `v[i]`; `none` when `i` is outside the vector. -/
def rd {α : Type} (v : List α) (i : Int) : Option α :=
  if 0 ≤ i then v[i.toNat]? else none

/-- Write `v[i] = x`; `none` when `i` is outside the vector. -/
def wr {α : Type} (v : List α) (i : Int) (x : α) : Option (List α) :=
  if 0 ≤ i ∧ i.toNat < v.length then some (v.set i.toNat x) else none

/-- The call `v.resize(n)` with default value `d`. -/
def resize {α : Type} (v : List α) (n : Nat) (d : α) : List α :=
  v.take n ++ List.replicate (n - v.length) d

/-! ## Globals and helpers -/

/-- The global state of the translation unit. -/
structure Globals where
  ADJACENCY_LIST : List (List Int)
  MAP_HEIGHT : Int
  MAP_WIDTH : Int
  LAYER_DISTANCE : Nat → Int

/-- The state before any call: empty table, zero sizes, empty map. -/
def Globals.initial : Globals :=
  { ADJACENCY_LIST := [], MAP_HEIGHT := 0, MAP_WIDTH := 0, LAYER_DISTANCE := fun _ => 0 }

def position_to_index (MAP_WIDTH : Int) (x y : Int) : Int :=
  x + y * MAP_WIDTH

/-- Check to see if a coordinate is valid (`b4` compares `x`, as the source does). -/
def check_coord (x y max_x max_y : Int) : Bool :=
  let b1 := decide (x ≥ 0)
  let b2 := decide (x < max_x)
  let b3 := decide (y ≥ 0)
  let b4 := decide (x < max_y)
  b1 && b2 && b3 && b4

def distance (x1 y1 x2 y2 : Int) : Int :=
  ((x1 - x2).natAbs : Int) + ((y1 - y2).natAbs : Int)

def indextox (MAP_WIDTH : Int) (p : Int) : Int :=
  Int.tmod p MAP_WIDTH

def indextoy (MAP_WIDTH : Int) (p : Int) : Int :=
  Int.tdiv p MAP_WIDTH

def indexdistance (MAP_WIDTH : Int) (p1 p2 : Int) : Int :=
  distance (indextox MAP_WIDTH p1) (indextoy MAP_WIDTH p1)
    (indextox MAP_WIDTH p2) (indextoy MAP_WIDTH p2)

/-! ## `init_astar` -/

/-- One conditional `push_back` of `init_astar`: the neighbour `(tmpx, tmpy)` of a cell. -/
def push_if_valid (map_width map_height : Int) (tmpx tmpy : Int) (l : List Int) : List Int :=
  let tmp := position_to_index map_width tmpx tmpy
  if check_coord tmpx tmpy map_width map_height then l ++ [tmp] else l

/-- The list built for the cell `(x, y)` by the body of the double loop of `init_astar`:
right, left, up, down. -/
def adjacent_cells (map_width map_height : Int) (x y : Int) : List Int :=
  let l : List Int := []
  let l := push_if_valid map_width map_height (x + 1) y l
  let l := push_if_valid map_width map_height (x - 1) y l
  let l := push_if_valid map_width map_height x (y + 1) l
  let l := push_if_valid map_width map_height x (y - 1) l
  l

/-- The body of the double loop: `ADJACENCY_LIST[pos]` is replaced by the list of the cell.
`pos` is inside the table for every `(x, y)` the loops produce. -/
def init_cell (map_width map_height : Int) (adj : List (List Int)) (x y : Int) :
    List (List Int) :=
  let pos := x + y * map_width
  adj.set pos.toNat (adjacent_cells map_width map_height x y)

/-- The double loop `for x < map_width, for y < map_height`. -/
def init_table (map_width map_height : Int) (adj : List (List Int)) : List (List Int) :=
  (List.range map_width.toNat).foldl
    (fun (adj : List (List Int)) (x : Nat) => (List.range map_height.toNat).foldl
      (fun (adj : List (List Int)) (y : Nat) =>
        init_cell map_width map_height adj (x : Int) (y : Int)) adj) adj

/-- The last loop of `init_astar`: every single-bit layer gets the range `width * height`. -/
def init_layers (ld : Nat → Int) (v : Int) : Nat → Int :=
  LAYER_BITS.foldl (fun ld i => Function.update ld i v) ld

/-- Create the adjacency list. -/
def init_astar (g : Globals) (map_width map_height : Int) : Globals :=
  { ADJACENCY_LIST :=
      init_table map_width map_height (resize g.ADJACENCY_LIST (map_height * map_width).toNat [])
    MAP_WIDTH := map_width
    MAP_HEIGHT := map_height
    LAYER_DISTANCE := init_layers g.LAYER_DISTANCE (map_width * map_height) }

def set_layer_distance (g : Globals) (layer : Nat) (distance : Int) : Globals :=
  { g with LAYER_DISTANCE := Function.update g.LAYER_DISTANCE layer distance }

def reset_layer_distance (g : Globals) (layer : Nat) : Globals :=
  { g with LAYER_DISTANCE := Function.update g.LAYER_DISTANCE layer (g.MAP_WIDTH * g.MAP_HEIGHT) }

/-! ## `reset_obstacles` -/

/-- The loop of `reset_obstacles` from index `i` on, `n` iterations left. -/
def reset_obstacles_loop (layer : Nat) : Nat → Nat → List Nat → Option (List Nat)
  | 0, _, map => some map
  | n + 1, i, map =>
    match map[i]? with
    | none => none
    | some v => reset_obstacles_loop layer n (i + 1) (map.set i (v &&& lnot64 layer))

/-- The function `reset_obstacles(map, len, layer)`; `none` when `len` runs past the array. -/
def reset_obstacles (map : List Nat) (len : Int) (layer : Nat) : Option (List Nat) :=
  reset_obstacles_loop layer len.toNat 0 map

/-! ## The open set -/

structure OpenPt where
  est : Int
  sofar : Int
  index : Int
deriving DecidableEq, Repr

/-- The comparison `operator<` on `OpenPt`. -/
def OpenPt.lt (lhs rhs : OpenPt) : Bool :=
  decide (lhs.est + lhs.sofar ≥ rhs.est + rhs.sofar)

/-- The two operations `astar` uses on `std::priority_queue<OpenPt>`, over the underlying
vector: `push`, and `top` followed by `pop` (`none` when `size() == 0`). -/
structure HeapOps where
  push : List OpenPt → OpenPt → List OpenPt
  pop : List OpenPt → Option (OpenPt × List OpenPt)

/-- The contract of a priority queue under `operator<`, for the vectors `inv` singles out
(the heaps): the empty vector is one, `push` adds its argument, `pop` fails on the empty queue
only and otherwise removes an entry whose `est + sofar` is least. Which one among equals is
left to the implementation. -/
structure HeapLaws (h : HeapOps) (inv : List OpenPt → Prop) : Prop where
  empty : inv []
  push : ∀ q x, inv q → inv (h.push q x) ∧ (h.push q x).Perm (x :: q)
  pop_none : ∀ q, inv q → h.pop q = none → q = []
  pop_some : ∀ q x r, inv q → h.pop q = some (x, r) →
    inv r ∧ q.Perm (x :: r) ∧ ∀ y ∈ q, x.est + x.sofar ≤ y.est + y.sofar

/-- The operations behave as a priority queue under `operator<`. -/
def HeapOps.Lawful (h : HeapOps) : Prop :=
  ∃ inv : List OpenPt → Prop, HeapLaws h inv

/-- The loop of `std::__push_heap` of libstdc++: the hole moves up while the parent compares
less than `value`. -/
def push_heap_loop (comp : OpenPt → OpenPt → Bool) (value : OpenPt) (topIndex : Nat) :
    Nat → List OpenPt → Nat → List OpenPt
  | 0, vec, holeIndex => vec.set holeIndex value
  | fuel + 1, vec, holeIndex =>
    let parent := (holeIndex - 1) / 2
    match vec[parent]? with
    | none => vec.set holeIndex value
    | some p =>
      if holeIndex > topIndex ∧ comp p value = true then
        push_heap_loop comp value topIndex fuel (vec.set holeIndex p) parent
      else vec.set holeIndex value

/-- The function `std::__push_heap(first, holeIndex, topIndex, value, comp)`. -/
def push_heap_at (comp : OpenPt → OpenPt → Bool) (vec : List OpenPt) (holeIndex topIndex : Nat)
    (value : OpenPt) : List OpenPt :=
  push_heap_loop comp value topIndex (holeIndex + 1) vec holeIndex

/-- The first loop of `std::__adjust_heap`: the hole moves down to the larger child. -/
def adjust_heap_loop (comp : OpenPt → OpenPt → Bool) (len : Nat) :
    Nat → List OpenPt → Nat → Nat → List OpenPt × Nat × Nat
  | 0, vec, holeIndex, secondChild => (vec, holeIndex, secondChild)
  | fuel + 1, vec, holeIndex, secondChild =>
    if secondChild < (len - 1) / 2 then
      let secondChild := 2 * (secondChild + 1)
      match vec[secondChild]?, vec[secondChild - 1]? with
      | some r, some l =>
        let secondChild := if comp r l = true then secondChild - 1 else secondChild
        match vec[secondChild]? with
        | some e => adjust_heap_loop comp len fuel (vec.set holeIndex e) secondChild secondChild
        | none => (vec, holeIndex, secondChild)
      | _, _ => (vec, holeIndex, secondChild)
    else (vec, holeIndex, secondChild)

/-- The function `std::__adjust_heap(first, holeIndex, len, value, comp)` for `len ≥ 1`. -/
def adjust_heap (comp : OpenPt → OpenPt → Bool) (vec : List OpenPt) (holeIndex len : Nat)
    (value : OpenPt) : List OpenPt :=
  let topIndex := holeIndex
  match adjust_heap_loop comp len len vec holeIndex holeIndex with
  | (vec, holeIndex, secondChild) =>
    if len % 2 = 0 ∧ secondChild = (len - 2) / 2 then
      let secondChild := 2 * (secondChild + 1)
      match vec[secondChild - 1]? with
      | some e => push_heap_at comp (vec.set holeIndex e) (secondChild - 1) topIndex value
      | none => push_heap_at comp vec holeIndex topIndex value
    else push_heap_at comp vec holeIndex topIndex value

/-- The call `openset.push(x)`: `c.push_back(x); std::push_heap(c.begin(), c.end(), comp)`. -/
def std_push (vec : List OpenPt) (x : OpenPt) : List OpenPt :=
  push_heap_at OpenPt.lt (vec ++ [x]) vec.length 0 x

/-- The calls `openset.top()` and `openset.pop()`: the front of the vector, then
`std::pop_heap(c.begin(), c.end(), comp); c.pop_back()`. -/
def std_pop (vec : List OpenPt) : Option (OpenPt × List OpenPt) :=
  match vec with
  | [] => none
  | top :: _ =>
    if vec.length > 1 then
      match vec.getLast? with
      | some value => some (top, adjust_heap OpenPt.lt vec.dropLast 0 (vec.length - 1) value)
      | none => none
    else some (top, [])

/-- The binary heap of libstdc++ under `operator<`. -/
def stdHeap : HeapOps := { push := std_push, pop := std_pop }

/-! ## `astar` -/

/-- Why `astar` returned `NULL`. -/
inductive NullReason where
  /-- The branch "Start point is in ends set". -/
  | startInEnds
  /-- The open set ran empty: "There wasn't a path to any endpoints". -/
  | noPath
  /-- The branch "PATHING BUG: Could not trace follow path to start". -/
  | pathingBug
deriving DecidableEq, Repr

/-- What a call of `astar` does. -/
inductive Outcome where
  /-- A non-null result: the flat array, `-1` included. -/
  | path (result : List Int)
  /-- The call returns `NULL`. -/
  | null (why : NullReason)
  /-- An array is indexed outside its bounds: undefined behaviour. -/
  | fault
  /-- A loop does not terminate. -/
  | diverge
deriving DecidableEq, Repr

/-- The per-call working state of `astar`. -/
structure Search where
  openset : List OpenPt
  closedset : List Bool
  follow : Int → Option Int
  best_est : List Int

/-- The assignment `follow[k] = v`. -/
def follow_set (follow : Int → Option Int) (k v : Int) : Int → Option Int :=
  fun i => if i = k then some v else follow i

/-- The loop `min = obstaclec; for each end: tmp = distance(x, y, end); if(tmp < min) min = tmp`. -/
def estimate (obstaclec : Int) (x y : Int) (endv : List (Int × Int)) : Int :=
  endv.foldl (fun min e =>
    let tmp := distance x y e.1 e.2
    if tmp < min then tmp else min) obstaclec

/-- The seeding loop from start `i` on: `Except.error` is an early exit of `astar`. -/
def seed (h : HeapOps) (MAP_WIDTH : Int) (obstaclec : Int) (endv : List (Int × Int)) :
    List (Int × Int) → Search → Except Outcome Search
  | [], s => .ok s
  | st :: rest, s =>
    if endv.any (fun e => decide (st.1 = e.1 ∧ st.2 = e.2)) then
      .error (.null .startInEnds)
    else
      let min := estimate obstaclec st.1 st.2 endv
      let first : OpenPt := { est := min, sofar := 0, index := position_to_index MAP_WIDTH st.1 st.2 }
      match wr s.best_est first.index min with
      | none => .error .fault
      | some best_est =>
        seed h MAP_WIDTH obstaclec endv rest
          { s with best_est := best_est, openset := h.push s.openset first }

/-- The loop `while(follow.count(start) > 0) start = follow[start]`. -/
def trace_start (follow : Int → Option Int) : Nat → Int → Option Int
  | 0, _ => none
  | fuel + 1, start =>
    match follow start with
    | none => some start
    | some p => trace_start follow fuel p

/-- The loop over the layers that clears the bits of `blocked` whose range is exceeded. -/
def relief (g : Globals) (start n : Int) (blocked : Nat) : Nat :=
  LAYER_BITS.foldl (fun blocked i =>
    if g.LAYER_DISTANCE i ≠ g.MAP_WIDTH * g.MAP_HEIGHT ∧
        indexdistance g.MAP_WIDTH start n > g.LAYER_DISTANCE i then
      blocked &&& lnot64 i
    else blocked) blocked

/-- The test of the layer loop for the layer key `i`: the range of `i` is not the unlimited
one and the distance from `start` to `n` exceeds it. -/
def expired (g : Globals) (start n : Int) (i : Nat) : Bool :=
  decide (g.LAYER_DISTANCE i ≠ g.MAP_WIDTH * g.MAP_HEIGHT ∧
    indexdistance g.MAP_WIDTH start n > g.LAYER_DISTANCE i)

/-- The statements from `long blocked = (obstaclev[*it] & blocking)` to the end of
`if(blocked) ...`, for the entry `o = obstaclev[*it]`: the value of `blocked` afterwards, or
`none` when the trace to the originating start does not end. -/
def range_relief (g : Globals) (follow : Int → Option Int) (obstaclec : Nat) (blocking : Nat)
    (current it : Int) (o : Nat) : Option Nat :=
  let blocked := o &&& blocking
  if blocked ≠ 0 then
    match trace_start follow (obstaclec + 1) current with
    | none => none
    | some start => some (relief g start it blocked)
  else some blocked

/-- How the loop over the neighbours of `current` ends. -/
inductive Step where
  /-- The list is exhausted, `endpoint` is false. -/
  | next (s : Search)
  /-- The `break`: an end point was struck. -/
  | found (selectedend : Int) (s : Search)
  | fault
  | diverge

/-- The body of `if(blocked == 0)`: the estimate of the neighbour `it` and the update of
`follow`, `best_est` and the open set; `none` is an index outside the vectors. -/
def relax (g : Globals) (h : HeapOps) (endv : List (Int × Int)) (obstaclec : Nat)
    (current traveled it : Int) (s : Search) : Option Search :=
  let min := estimate obstaclec (indextox g.MAP_WIDTH it) (indextoy g.MAP_WIDTH it) endv
  let next : OpenPt := { est := min, sofar := traveled, index := it }
  let tmp := next.est + next.sofar
  match rd s.closedset it, rd s.best_est it with
  | some closed, some best =>
    if closed = true ∧ tmp ≥ best then some s
    else if tmp < best then
      match wr s.best_est it (next.est + next.sofar) with
      | none => none
      | some best_est =>
        some { s with follow := follow_set s.follow it current
                      best_est := best_est
                      openset := h.push s.openset next }
    else some s
  | _, _ => none

/-- The loop `for(it = ADJACENCY_LIST[current].begin(); ...)` from the neighbour `it` on. -/
def expand (g : Globals) (h : HeapOps) (endv : List (Int × Int)) (ends : List Int)
    (obstaclev : List Nat) (blocking : Nat) (current traveled : Int) :
    List Int → Search → Step
  | [], s => .next s
  | it :: rest, s =>
    if it ∈ ends then
      .found it { s with follow := follow_set s.follow it current }
    else
      match rd obstaclev it with
      | none => .fault
      | some o =>
        match range_relief g s.follow obstaclev.length blocking current it o with
        | none => .diverge
        | some blocked =>
          if blocked = 0 then
            match relax g h endv obstaclev.length current traveled it s with
            | none => .fault
            | some s => expand g h endv ends obstaclev blocking current traveled rest s
          else expand g h endv ends obstaclev blocking current traveled rest s

/-- The loop `while(starts.count(fp) == 0 && follow.count(fp) > 0)` of the reconstruction;
gives the last `fp` and the `path` vector. -/
def trace_path (starts : List Int) (follow : Int → Option Int) :
    Nat → Int → List Int → Option (Int × List Int)
  | 0, _, _ => none
  | fuel + 1, fp, path =>
    if fp ∈ starts then some (fp, path)
    else
      match follow fp with
      | none => some (fp, path)
      | some p => trace_path starts follow fuel p (path ++ [p])

/-- The reversed copy of `path` into the result array, and the final `-1`. -/
def pack (MAP_WIDTH : Int) (path : List Int) : List Int :=
  (path.reverse.map (fun p => [indextox MAP_WIDTH p, indextoy MAP_WIDTH p])).flatten ++ [-1]

/-- The code of `astar` after the main loop, for `endpoint == true`. -/
def reconstruct (g : Globals) (starts : List Int) (obstaclec : Nat) (selectedend : Int)
    (s : Search) : Outcome :=
  match trace_path starts s.follow (obstaclec + 2) selectedend [selectedend] with
  | none => .diverge
  | some (fp, path) =>
    let path := path ++ [fp]
    if fp ∈ starts then .path (pack g.MAP_WIDTH path)
    else .null .pathingBug

/-- The main loop `while(openset.size() > 0 && endpoint == false)` followed by the rest of
`astar`. -/
def search (g : Globals) (h : HeapOps) (endv : List (Int × Int)) (starts ends : List Int)
    (obstaclev : List Nat) (blocking : Nat) : Nat → Search → Outcome
  | 0, _ => .diverge
  | fuel + 1, s =>
    match h.pop s.openset with
    | none => .null .noPath
    | some (consider, openset) =>
      let current := consider.index
      let traveled := consider.sofar + 1
      match rd s.closedset current with
      | none => .fault
      | some true => search g h endv starts ends obstaclev blocking fuel { s with openset := openset }
      | some false =>
        match wr s.closedset current true, rd g.ADJACENCY_LIST current with
        | some closedset, some adj =>
          match expand g h endv ends obstaclev blocking current traveled adj
              { s with openset := openset, closedset := closedset } with
          | .next s => search g h endv starts ends obstaclev blocking fuel s
          | .found selectedend s => reconstruct g starts obstaclev.length selectedend s
          | .fault => .fault
          | .diverge => .diverge
        | _, _ => .fault

/-- The number of iterations the main loop is given: one more than the number of pushes
the `best_est` test allows. -/
def search_fuel (startv : List (Int × Int)) (obstaclec : Nat) : Nat :=
  startv.length + obstaclec * obstaclec + 1

/-- The function `astar(startv, startc, endv, endc, obstaclev, obstaclec, blocking)` with
`obstaclec` the length of `obstaclev`. -/
def astar (g : Globals) (h : HeapOps) (startv endv : List (Int × Int)) (obstaclev : List Nat)
    (blocking : Nat) : Outcome :=
  let obstaclec := obstaclev.length
  let best_est : List Int := List.replicate obstaclec (obstaclec : Int)
  let closedset : List Bool := List.replicate obstaclec false
  let starts := startv.map (fun p => position_to_index g.MAP_WIDTH p.1 p.2)
  let ends := endv.map (fun p => position_to_index g.MAP_WIDTH p.1 p.2)
  match seed h g.MAP_WIDTH obstaclec endv startv
      { openset := [], closedset := closedset, follow := fun _ => none, best_est := best_est } with
  | .error o => o
  | .ok s => search g h endv starts ends obstaclev blocking (search_fuel startv obstaclec) s

/-! ## Routes on the grid, and the flat result read as cells -/

/-- The coordinate pair `p` is a cell of the `W` by `H` grid. -/
def in_grid (W H : Int) (p : Int × Int) : Prop :=
  0 ≤ p.1 ∧ p.1 < W ∧ 0 ≤ p.2 ∧ p.2 < H

instance (W H : Int) (p : Int × Int) : Decidable (in_grid W H p) :=
  inferInstanceAs (Decidable (0 ≤ p.1 ∧ p.1 < W ∧ 0 ≤ p.2 ∧ p.2 < H))

/-- Two cells are 4-adjacent: their Manhattan distance is 1. -/
def adjacent4 (p q : Int × Int) : Prop :=
  distance p.1 p.2 q.1 q.2 = 1

instance (p q : Int × Int) : Decidable (adjacent4 p q) :=
  inferInstanceAs (Decidable (distance p.1 p.2 q.1 q.2 = 1))

/-- The obstacle bits of the cell `p` that the blocking mask selects (`0` for a cell without
an entry in the bitmap). -/
def obstacle_bits (MAP_WIDTH : Int) (obstaclev : List Nat) (blocking : Nat) (p : Int × Int) :
    Nat :=
  ((rd obstaclev (position_to_index MAP_WIDTH p.1 p.2)).getD 0) &&& blocking

/-- A 4-connected route inside the grid that begins at a provided start and ends at a provided
goal. -/
def is_route (W H : Int) (startv endv : List (Int × Int)) (r : List (Int × Int)) : Prop :=
  (∀ p ∈ r, in_grid W H p) ∧ List.Chain' adjacent4 r ∧
    (∃ a ∈ startv, r.head? = some a) ∧ (∃ b ∈ endv, r.getLast? = some b)

/-- The cells of a route strictly between its two ends. -/
def inner_cells (r : List (Int × Int)) : List (Int × Int) :=
  r.tail.dropLast

/-- The coordinate pairs of a flat result array, the terminator left out. -/
def pairs : List Int → List (Int × Int)
  | x :: y :: rest => (x, y) :: pairs rest
  | _ => []

/-- Every single-bit layer has the range `MAP_WIDTH * MAP_HEIGHT`, which the layer loop treats as
unlimited. -/
def unlimited (g : Globals) : Prop :=
  ∀ i ∈ LAYER_BITS, g.LAYER_DISTANCE i = g.MAP_WIDTH * g.MAP_HEIGHT

/-! ## The invariant of the main loop -/

/-- The inputs of one call of `astar`, with the globals and the queue operations. -/
structure Call where
  g : Globals
  h : HeapOps
  startv : List (Int × Int)
  endv : List (Int × Int)
  obstaclev : List Nat
  blocking : Nat

/-- The set `starts` of `astar`. -/
def Call.starts (c : Call) : List Int :=
  c.startv.map (fun p => position_to_index c.g.MAP_WIDTH p.1 p.2)

/-- The set `ends` of `astar`. -/
def Call.ends (c : Call) : List Int :=
  c.endv.map (fun p => position_to_index c.g.MAP_WIDTH p.1 p.2)

/-- The value `obstaclec`. -/
def Call.len (c : Call) : Nat := c.obstaclev.length

/-- The estimate `astar` computes for the cell of index `n`. -/
def Call.heur (c : Call) (n : Int) : Int :=
  estimate c.len (indextox c.g.MAP_WIDTH n) (indextoy c.g.MAP_WIDTH n) c.endv

/-- The call happens on the square grid of side `N`, the table is the one `init_astar` builds,
the bitmap has one entry per cell and starts and goals are cells of the grid. -/
structure Call.Square (c : Call) (N : Int) : Prop where
  side : 1 ≤ N
  width : c.g.MAP_WIDTH = N
  table : ∀ x y : Int, 0 ≤ x → x < N → 0 ≤ y → y < N →
    rd c.g.ADJACENCY_LIST (position_to_index N x y) = some (adjacent_cells N N x y)
  bitmap : (c.obstaclev.length : Int) = N * N
  starts_in : ∀ p ∈ c.startv, in_grid N N p
  ends_in : ∀ p ∈ c.endv, in_grid N N p

/-- The predicate `Pass` tells which cells the blocked test lets through, whatever start the
predecessor trace ends in. -/
structure Call.PassRule (c : Call) (Pass : Int → Prop) : Prop where
  relieved : ∀ st ∈ c.starts, ∀ n o, rd c.obstaclev n = some o →
    (relief c.g st n (o &&& c.blocking) = 0 ↔ Pass n)
  free : ∀ n o, rd c.obstaclev n = some o → o &&& c.blocking = 0 → Pass n

/-- What holds of an entry `e` of the open set: `F` is the `est + sofar` of the last entry
popped. -/
structure QEntry (c : Call) (F : Int) (s : Search) (e : OpenPt) : Prop where
  lo : 0 ≤ e.index
  hi : e.index < c.len
  est_eq : e.est = c.heur e.index
  sofar_nonneg : 0 ≤ e.sofar
  best_le : ∃ b, rd s.best_est e.index = some b ∧ b ≤ e.est + e.sofar
  rooted : e.index ∈ c.starts ∨ (s.follow e.index).isSome
  not_end : e.index ∉ c.ends
  small : (e.sofar = 0 ∧ e.index ∈ c.starts) ∨ e.est + e.sofar < c.len
  after : F ≤ e.est + e.sofar

/-- What holds of a predecessor link `follow[n] = p`. -/
structure Link (c : Call) (Pass : Int → Prop) (s : Search) (n p : Int) : Prop where
  not_end : n ∉ c.ends
  not_start : n ∉ c.starts
  lo : 0 ≤ n
  hi : n < c.len
  closed : rd s.closedset p = some true
  adjacent : ∃ adj, rd c.g.ADJACENCY_LIST p = some adj ∧ n ∈ adj
  pass : Pass n
  depth : ∃ bn bp, rd s.best_est n = some bn ∧ rd s.best_est p = some bp ∧
    bp - c.heur p + 1 ≤ bn - c.heur n

/-- What holds of a closed cell `n`: during the expansion of `cur` only the neighbours of
`cur` in `done` have been examined. -/
structure Closed (c : Call) (Pass : Int → Prop) (F : Int) (cur : Int) (done : Int → Prop)
    (s : Search) (n : Int) : Prop where
  lo : 0 ≤ n
  hi : n < c.len
  rooted : n ∈ c.starts ∨ (s.follow n).isSome
  not_end : n ∉ c.ends
  nbrs : ∃ b adj, rd s.best_est n = some b ∧ b ≤ F ∧ rd c.g.ADJACENCY_LIST n = some adj ∧
    ∀ m ∈ adj, (n = cur → done m) →
      m ∉ c.ends ∧ (∃ o, rd c.obstaclev m = some o) ∧
      (Pass m → ∃ bm, rd s.best_est m = some bm ∧ bm ≤ b - c.heur n + 1 + c.heur m)

/-- The invariant of the main loop of `astar`. -/
structure Inv (c : Call) (Pass : Int → Prop) (inv : List OpenPt → Prop) (F : Int) (cur : Int)
    (done : Int → Prop) (s : Search) : Prop where
  heap : inv s.openset
  len_closed : s.closedset.length = c.len
  len_best : s.best_est.length = c.len
  best_bounds : ∀ n b, rd s.best_est n = some b → c.heur n ≤ b ∧ b ≤ c.len
  start_best : ∀ st ∈ c.starts, rd s.best_est st = some (c.heur st)
  entries : ∀ e ∈ s.openset, QEntry c F s e
  links : ∀ n p, s.follow n = some p → Link c Pass s n p
  closed : ∀ n, rd s.closedset n = some true → Closed c Pass F cur done s n
  opened : ∀ n b, rd s.closedset n = some false → rd s.best_est n = some b → b < c.len →
    ∃ e ∈ s.openset, e.index = n ∧ e.est + e.sofar = b

/-- The state during the expansion of the cell `cur`, popped with cost `sofar`: `adj` is its
neighbour list and `done` the neighbours examined so far. -/
structure Expanding (c : Call) (Pass : Int → Prop) (inv : List OpenPt → Prop) (sofar : Int)
    (cur : Int) (adj : List Int) (done : Int → Prop) (s : Search) : Prop where
  inv : Inv c Pass inv (c.heur cur + sofar) cur done s
  sofar_nonneg : 0 ≤ sofar
  is_closed : rd s.closedset cur = some true
  best_cur : rd s.best_est cur = some (c.heur cur + sofar)
  table : rd c.g.ADJACENCY_LIST cur = some adj

/-- The state when the loop over the neighbours strikes the end point `sel`. -/
def struck (s0 : Search) (sel cur : Int) : Search :=
  { s0 with follow := follow_set s0.follow sel cur }

/-- The invariant at the head of the main loop: every closed cell is fully examined. -/
def Head (c : Call) (Pass : Int → Prop) (inv : List OpenPt → Prop) (F : Int) (s : Search) :
    Prop :=
  Inv c Pass inv F 0 (fun _ => True) s

/-- The main loop ended by striking the end point `sel` while it expanded the entry `e`, popped
from the state `s1`. -/
def Struck (c : Call) (Pass : Int → Prop) (inv : List OpenPt → Prop) (o : Outcome) : Prop :=
  ∃ (F : Int) (s1 : Search) (e : OpenPt) (q : List OpenPt) (adj : List Int)
    (done : Int → Prop) (s0 : Search) (sel : Int),
    Head c Pass inv F s1 ∧ c.h.pop s1.openset = some (e, q) ∧
    Expanding c Pass inv e.sofar e.index adj done s0 ∧ sel ∈ c.ends ∧ sel ∈ adj ∧
    o = reconstruct c.g c.starts c.len sel (struck s0 sel e.index)

/-- The state of the seeding loop after the starts `pre`. -/
structure Seeded (c : Call) (inv : List OpenPt → Prop) (pre : List (Int × Int)) (s : Search) :
    Prop where
  heap : inv s.openset
  closedset : s.closedset = List.replicate c.len false
  follow : ∀ n, s.follow n = none
  len_best : s.best_est.length = c.len
  best : ∀ n b, rd s.best_est n = some b →
    b = c.len ∨ (n ∈ pre.map (fun p => position_to_index c.g.MAP_WIDTH p.1 p.2) ∧ b = c.heur n)
  entries : ∀ e ∈ s.openset,
    e.index ∈ pre.map (fun p => position_to_index c.g.MAP_WIDTH p.1 p.2) ∧ e.sofar = 0 ∧
      e.est = c.heur e.index
  starts : ∀ p ∈ pre, p ∉ c.endv ∧
    rd s.best_est (position_to_index c.g.MAP_WIDTH p.1 p.2)
      = some (c.heur (position_to_index c.g.MAP_WIDTH p.1 p.2)) ∧
    ∃ e ∈ s.openset, e.index = position_to_index c.g.MAP_WIDTH p.1 p.2 ∧
      e.est = c.heur (position_to_index c.g.MAP_WIDTH p.1 p.2) ∧ e.sofar = 0

/-- The call of `astar` on the inputs `c`. -/
def Call.run (c : Call) : Outcome :=
  astar c.g c.h c.startv c.endv c.obstaclev c.blocking

/-- The coordinate pair of the cell of index `n`. -/
def cell_at (MAP_WIDTH : Int) (n : Int) : Int × Int :=
  (indextox MAP_WIDTH n, indextoy MAP_WIDTH n)

/-! ## The binary heap -/

/-- The priority of an entry: `est + sofar`. -/
def OpenPt.key (e : OpenPt) : Int := e.est + e.sofar

/-- The vector is a heap: no entry has a smaller key than its parent. -/
def heap_ordered (v : List OpenPt) : Prop :=
  ∀ (i : Nat) (a b : OpenPt), 0 < i → v[i]? = some a → v[(i - 1) / 2]? = some b → b.key ≤ a.key

/-- The vector is a heap apart from the position `h`, whose content is to be written: the
order holds between positions other than `h`, and the children of `h` are not below the
parent of `h`. -/
def holed (v : List OpenPt) (h : Nat) : Prop :=
  (∀ (i : Nat) (a b : OpenPt), 0 < i → i ≠ h → (i - 1) / 2 ≠ h → v[i]? = some a →
    v[(i - 1) / 2]? = some b → b.key ≤ a.key) ∧
  (∀ (i : Nat) (a b : OpenPt), 0 < i → 0 < h → (i - 1) / 2 = h → v[i]? = some a →
    v[(h - 1) / 2]? = some b → b.key ≤ a.key)

/-! ## Termination measure -/

/-- The bound on the iterations the main loop has left: the size of the open set plus the sum
of the best estimates. -/
def potential (s : Search) : Int := (s.openset.length : Int) + s.best_est.sum

/-! ## The bookkeeping of the search, whatever the layer ranges -/

/-- What holds of a predecessor link `follow[n] = p` under any layer ranges: `n` was listed
as a neighbour of the closed cell `p`, passed the blocked test for some origin `st`, and lies
deeper than `p`. -/
structure TrailLink (c : Call) (s : Search) (n p : Int) : Prop where
  not_end : n ∉ c.ends
  closed : rd s.closedset p = some true
  listed : ∃ adj, rd c.g.ADJACENCY_LIST p = some adj ∧ n ∈ adj
  pass : ∃ (o : Nat) (st : Int), rd c.obstaclev n = some o ∧
    relief c.g st n (o &&& c.blocking) = 0
  depth : ∃ bn bp, rd s.best_est n = some bn ∧ rd s.best_est p = some bp ∧
    bp - c.heur p + 1 ≤ bn - c.heur n

/-- What holds of an entry of the open set under any layer ranges. -/
structure TrailEntry (c : Call) (s : Search) (e : OpenPt) : Prop where
  est_eq : e.est = c.heur e.index
  sofar_nonneg : 0 ≤ e.sofar
  best_le : ∃ b, rd s.best_est e.index = some b ∧ b ≤ e.est + e.sofar
  rooted : e.index ∈ c.starts ∨ (s.follow e.index).isSome
  not_end : e.index ∉ c.ends

/-- The part of the loop invariant that does not depend on the layer ranges nor on the shape
of the table. -/
structure Trail (c : Call) (inv : List OpenPt → Prop) (s : Search) : Prop where
  heap : inv s.openset
  len_closed : s.closedset.length = c.len
  len_best : s.best_est.length = c.len
  best_bounds : ∀ n b, rd s.best_est n = some b → c.heur n ≤ b ∧ b ≤ c.len
  entries : ∀ e ∈ s.openset, TrailEntry c s e
  links : ∀ n p, s.follow n = some p → TrailLink c s n p
  closed : ∀ n, rd s.closedset n = some true →
    (n ∈ c.starts ∨ (s.follow n).isSome) ∧ n ∉ c.ends

/-- The state during the expansion of the cell `cur`, popped with cost `sofar`. -/
structure TrailExp (c : Call) (inv : List OpenPt → Prop) (sofar cur : Int) (adj : List Int)
    (s : Search) : Prop where
  trail : Trail c inv s
  sofar_nonneg : 0 ≤ sofar
  is_closed : rd s.closedset cur = some true
  best_cur : ∃ b, rd s.best_est cur = some b ∧ b ≤ c.heur cur + sofar
  table : rd c.g.ADJACENCY_LIST cur = some adj

/-! ## Bit fields -/

theorem testBit_lnot64 (x k : Nat) (hk : k < 64) : (lnot64 x).testBit k = !x.testBit k := by
  unfold lnot64
  rw [Nat.testBit_xor, Nat.testBit_two_pow_sub_one]
  simp [hk]

theorem land_lnot64_idem (v L : Nat) : (v &&& lnot64 L) &&& lnot64 L = v &&& lnot64 L := by
  apply Nat.eq_of_testBit_eq
  intro i
  simp [Nat.testBit_and]

theorem testBit_ge_of_lt (b j : Nat) (hb : b < 2 ^ 64) (hj : 64 ≤ j) : b.testBit j = false := by
  apply Nat.testBit_lt_two_pow
  calc b < 2 ^ 64 := hb
    _ ≤ 2 ^ j := Nat.pow_le_pow_right (by norm_num) hj

theorem LAYER_BITS_eq : LAYER_BITS = (List.range 64).map (fun k => 2 ^ k) := by decide

/-! ## `reset_obstacles` -/

theorem reset_obstacles_loop_spec (layer : Nat) :
    ∀ (n i : Nat) (map : List Nat), i + n ≤ map.length →
      ∃ m, reset_obstacles_loop layer n i map = some m ∧ m.length = map.length ∧
        ∀ j, m[j]? = if i ≤ j ∧ j < i + n then (map[j]?).map (fun v => v &&& lnot64 layer)
          else map[j]? := by
  intro n
  induction n with
  | zero =>
    intro i map _
    refine ⟨map, rfl, rfl, fun j => ?_⟩
    have : ¬ (i ≤ j ∧ j < i + 0) := by omega
    rw [if_neg this]
  | succ n ih =>
    intro i map hlen
    have hi : i < map.length := by omega
    obtain ⟨m, hm, hmlen, hmget⟩ := ih (i + 1) (map.set i (map[i] &&& lnot64 layer))
      (by simp; omega)
    refine ⟨m, ?_, ?_, fun j => ?_⟩
    · simp [reset_obstacles_loop, List.getElem?_eq_getElem hi, hm]
    · simpa using hmlen
    · rw [hmget j, List.getElem?_set]
      by_cases hij : i = j
      · subst hij
        have h1 : ¬ (i + 1 ≤ i ∧ i < i + 1 + n) := by omega
        have h2 : (i ≤ i ∧ i < i + (n + 1)) := by omega
        simp [h1, h2, hi, List.getElem?_eq_getElem hi]
      · by_cases hr : i + 1 ≤ j ∧ j < i + 1 + n
        · have h2 : (i ≤ j ∧ j < i + (n + 1)) := by omega
          simp [hr, h2, hij]
        · have h2 : ¬ (i ≤ j ∧ j < i + (n + 1)) := by omega
          simp [hr, h2, hij]

/-- C9. Layer clearing: for `len` within the bitmap, `reset_obstacles(m, len, L)` replaces every
entry `i < len` by `m[i] & ~L`, so that on each of the 64 bits the new entry has the old bit
where `L` has none and no bit where `L` has one; entries from `len` on are unchanged, and a
second application changes nothing. -/
theorem reset_obstacles_clears_layer (m : List Nat) (len : Int) (L : Nat)
    (hlen : len ≤ (m.length : Int)) :
    ∃ r, reset_obstacles m len L = some r ∧ r.length = m.length ∧
      (∀ i : Nat, (i : Int) < len → r[i]? = (m[i]?).map (fun v => v &&& lnot64 L)) ∧
      (∀ (i : Nat) (v w : Nat), (i : Int) < len → m[i]? = some v → r[i]? = some w →
        ∀ k, k < 64 → w.testBit k = (v.testBit k && !L.testBit k)) ∧
      (∀ i : Nat, len ≤ (i : Int) → r[i]? = m[i]?) ∧
      reset_obstacles r len L = some r := by
  obtain ⟨r, hr, hrlen, hrget⟩ := reset_obstacles_loop_spec L len.toNat 0 m (by omega)
  have hin : ∀ i : Nat, (i : Int) < len →
      r[i]? = (m[i]?).map (fun v => v &&& lnot64 L) := by
    intro i hi
    have : 0 ≤ i ∧ i < 0 + len.toNat := by omega
    rw [hrget i, if_pos this]
  have hout : ∀ i : Nat, len ≤ (i : Int) → r[i]? = m[i]? := by
    intro i hi
    have : ¬ (0 ≤ i ∧ i < 0 + len.toNat) := by omega
    rw [hrget i, if_neg this]
  refine ⟨r, hr, hrlen, hin, ?_, hout, ?_⟩
  · intro i v w hi hv hw k hk
    rw [hin i hi, hv] at hw
    simp at hw
    rw [← hw, Nat.testBit_and, testBit_lnot64 _ _ hk]
  · obtain ⟨r2, hr2, hr2len, hr2get⟩ := reset_obstacles_loop_spec L len.toNat 0 r (by omega)
    unfold reset_obstacles
    rw [hr2]
    congr 1
    apply List.ext_getElem?
    intro j
    rw [hr2get j, hrget j]
    by_cases hj : 0 ≤ j ∧ j < 0 + len.toNat
    · rw [if_pos hj, if_pos hj]
      cases m[j]? with
      | none => rfl
      | some v => simp [land_lnot64_idem]
    · rw [if_neg hj, if_neg hj]

theorem reset_obstacles_clears_layer_witness :
    ∃ r, reset_obstacles [7, 5, 3] 2 1 = some r ∧ r.length = [7, 5, 3].length ∧
      (∀ i : Nat, (i : Int) < 2 → r[i]? = (([7, 5, 3] : List Nat)[i]?).map
        (fun v => v &&& lnot64 1)) ∧
      (∀ (i : Nat) (v w : Nat), (i : Int) < 2 → ([7, 5, 3] : List Nat)[i]? = some v →
        r[i]? = some w → ∀ k, k < 64 → w.testBit k = (v.testBit k && !(1 : Nat).testBit k)) ∧
      (∀ i : Nat, (2 : Int) ≤ (i : Int) → r[i]? = ([7, 5, 3] : List Nat)[i]?) ∧
      reset_obstacles r 2 1 = some r :=
  reset_obstacles_clears_layer [7, 5, 3] 2 1 (by decide)

/-! ## The layer loop -/

theorem relief_fold_testBit (g : Globals) (start n : Int) (ks : List Nat) :
    ∀ (b j : Nat), j < 64 →
      ((ks.map (fun k => 2 ^ k)).foldl (fun blocked i =>
        if g.LAYER_DISTANCE i ≠ g.MAP_WIDTH * g.MAP_HEIGHT ∧
            indexdistance g.MAP_WIDTH start n > g.LAYER_DISTANCE i then
          blocked &&& lnot64 i
        else blocked) b).testBit j
      = (b.testBit j && !(decide (j ∈ ks) && expired g start n (2 ^ j))) := by
  induction ks with
  | nil => intro b j _; simp
  | cons k ks ih =>
    intro b j hj
    rw [List.map_cons, List.foldl_cons, ih _ j hj]
    by_cases hkj : k = j
    · subst hkj
      by_cases hc : g.LAYER_DISTANCE (2 ^ k) ≠ g.MAP_WIDTH * g.MAP_HEIGHT ∧
          indexdistance g.MAP_WIDTH start n > g.LAYER_DISTANCE (2 ^ k)
      · have he : expired g start n (2 ^ k) = true := by simp [expired, hc]
        rw [if_pos hc, Nat.testBit_and, testBit_lnot64 _ _ hj, he]
        simp
      · have he : expired g start n (2 ^ k) = false := by simp only [expired, hc, decide_False]
        rw [if_neg hc, he]
        simp
    · have hne : (2 ^ k : Nat).testBit j = false := by
        rw [Nat.testBit_two_pow]; simp [hkj]
      have hmem : decide (j ∈ k :: ks) = decide (j ∈ ks) := by
        simp [List.mem_cons, Ne.symm hkj]
      rw [hmem]
      by_cases hc : g.LAYER_DISTANCE (2 ^ k) ≠ g.MAP_WIDTH * g.MAP_HEIGHT ∧
          indexdistance g.MAP_WIDTH start n > g.LAYER_DISTANCE (2 ^ k)
      · rw [if_pos hc, Nat.testBit_and, testBit_lnot64 _ _ hj, hne]
        simp
      · rw [if_neg hc]

theorem relief_testBit (g : Globals) (start n : Int) (b j : Nat) (hj : j < 64) :
    (relief g start n b).testBit j = (b.testBit j && !expired g start n (2 ^ j)) := by
  unfold relief
  rw [LAYER_BITS_eq, relief_fold_testBit g start n _ b j hj]
  simp [hj]

theorem relief_fold_le (g : Globals) (start n : Int) (l : List Nat) :
    ∀ b : Nat, l.foldl (fun blocked i =>
        if g.LAYER_DISTANCE i ≠ g.MAP_WIDTH * g.MAP_HEIGHT ∧
            indexdistance g.MAP_WIDTH start n > g.LAYER_DISTANCE i then
          blocked &&& lnot64 i
        else blocked) b ≤ b := by
  induction l with
  | nil => intro b; exact Nat.le_refl b
  | cons i l ih =>
    intro b
    rw [List.foldl_cons]
    refine Nat.le_trans (ih _) ?_
    split
    · exact Nat.and_le_left
    · exact Nat.le_refl b

theorem relief_le (g : Globals) (start n : Int) (b : Nat) : relief g start n b ≤ b :=
  relief_fold_le g start n LAYER_BITS b

theorem ne_zero_iff_testBit (b : Nat) (hb : b < 2 ^ 64) :
    b ≠ 0 ↔ ∃ k, k < 64 ∧ b.testBit k = true := by
  constructor
  · intro h0
    obtain ⟨k, hk⟩ := Nat.ne_zero_implies_bit_true h0
    refine ⟨k, ?_, hk⟩
    by_contra hge
    rw [testBit_ge_of_lt b k hb (by omega)] at hk
    exact Bool.noConfusion hk
  · rintro ⟨k, _, hk⟩ h0
    rw [h0, Nat.zero_testBit] at hk
    exact Bool.noConfusion hk

/-- C8. Range-relief rule: when `astar` examines a neighbour `it` that is not an end point,
with `o` its obstacle entry and `start` the cell the predecessor trace from `current` ends
in, the value `blocked` after the layer loop keeps bit `k` of `o & blocking` exactly when
the range of layer `2^k` is the unlimited one or is not exceeded by the distance from `start`
to `it`; so `it` is skipped (`blocked ≠ 0`) if and only if some layer set in `o & blocking`
has the unlimited range or a range at least that distance, and otherwise the neighbour is
relaxed. A range `r` given by `set_layer_distance` is the one the rule reads. -/
theorem range_relief_rule (g : Globals) (h : HeapOps) (endv : List (Int × Int))
    (ends : List Int) (obstaclev : List Nat) (blocking : Nat) (current traveled it : Int)
    (rest : List Int) (s : Search) (o : Nat) (start : Int)
    (hmask : blocking < 2 ^ 64) (hgoal : it ∉ ends) (hobs : rd obstaclev it = some o)
    (htrace : trace_start s.follow (obstaclev.length + 1) current = some start) :
    ∃ blocked, range_relief g s.follow obstaclev.length blocking current it o = some blocked ∧
      (∀ k, k < 64 → blocked.testBit k = ((o &&& blocking).testBit k &&
        !(decide (g.LAYER_DISTANCE (2 ^ k) ≠ g.MAP_WIDTH * g.MAP_HEIGHT) &&
          decide (indexdistance g.MAP_WIDTH start it > g.LAYER_DISTANCE (2 ^ k))))) ∧
      (blocked ≠ 0 ↔ ∃ k, k < 64 ∧ (o &&& blocking).testBit k = true ∧
        (g.LAYER_DISTANCE (2 ^ k) = g.MAP_WIDTH * g.MAP_HEIGHT ∨
          indexdistance g.MAP_WIDTH start it ≤ g.LAYER_DISTANCE (2 ^ k))) ∧
      (blocked ≠ 0 → expand g h endv ends obstaclev blocking current traveled (it :: rest) s
        = expand g h endv ends obstaclev blocking current traveled rest s) ∧
      (blocked = 0 → expand g h endv ends obstaclev blocking current traveled (it :: rest) s
        = match relax g h endv obstaclev.length current traveled it s with
          | none => Step.fault
          | some s => expand g h endv ends obstaclev blocking current traveled rest s) ∧
      (∀ (k : Nat) (r : Int), (set_layer_distance g (2 ^ k) r).LAYER_DISTANCE (2 ^ k) = r ∧
        (set_layer_distance g (2 ^ k) r).MAP_WIDTH = g.MAP_WIDTH ∧
        (set_layer_distance g (2 ^ k) r).MAP_HEIGHT = g.MAP_HEIGHT) := by
  have hb : o &&& blocking < 2 ^ 64 := Nat.lt_of_le_of_lt Nat.and_le_right hmask
  have hbit : ∀ k, k < 64 → (relief g start it (o &&& blocking)).testBit k =
      ((o &&& blocking).testBit k &&
        !(decide (g.LAYER_DISTANCE (2 ^ k) ≠ g.MAP_WIDTH * g.MAP_HEIGHT) &&
          decide (indexdistance g.MAP_WIDTH start it > g.LAYER_DISTANCE (2 ^ k)))) := by
    intro k hk
    rw [relief_testBit g start it _ k hk, expired, Bool.decide_and]
  have hiff : ∀ blocked : Nat, blocked < 2 ^ 64 →
      (∀ k, k < 64 → blocked.testBit k = ((o &&& blocking).testBit k &&
        !(decide (g.LAYER_DISTANCE (2 ^ k) ≠ g.MAP_WIDTH * g.MAP_HEIGHT) &&
          decide (indexdistance g.MAP_WIDTH start it > g.LAYER_DISTANCE (2 ^ k))))) →
      (blocked ≠ 0 ↔ ∃ k, k < 64 ∧ (o &&& blocking).testBit k = true ∧
        (g.LAYER_DISTANCE (2 ^ k) = g.MAP_WIDTH * g.MAP_HEIGHT ∨
          indexdistance g.MAP_WIDTH start it ≤ g.LAYER_DISTANCE (2 ^ k))) := by
    intro blocked hlt hbits
    rw [ne_zero_iff_testBit blocked hlt]
    constructor
    · rintro ⟨k, hk, hset⟩
      rw [hbits k hk] at hset
      simp only [Bool.and_eq_true, Bool.not_eq_true', Bool.and_eq_false_iff,
        decide_eq_false_iff_not, decide_eq_true_eq] at hset
      refine ⟨k, hk, hset.1, ?_⟩
      rcases hset.2 with h1 | h2
      · left; exact not_not.mp h1
      · right; omega
    · rintro ⟨k, hk, hset, hr⟩
      refine ⟨k, hk, ?_⟩
      rw [hbits k hk, hset]
      simp only [Bool.true_and, Bool.not_eq_true', Bool.and_eq_false_iff,
        decide_eq_false_iff_not]
      rcases hr with h1 | h2
      · left; exact not_not.mpr h1
      · right; omega
  have hexp : ∀ blocked : Nat,
      range_relief g s.follow obstaclev.length blocking current it o = some blocked →
      (blocked ≠ 0 → expand g h endv ends obstaclev blocking current traveled (it :: rest) s
        = expand g h endv ends obstaclev blocking current traveled rest s) ∧
      (blocked = 0 → expand g h endv ends obstaclev blocking current traveled (it :: rest) s
        = match relax g h endv obstaclev.length current traveled it s with
          | none => Step.fault
          | some s => expand g h endv ends obstaclev blocking current traveled rest s) := by
    intro blocked hrr
    constructor
    · intro hne
      rw [expand, if_neg hgoal]
      simp only [hobs, hrr, if_neg hne]
    · intro h0
      rw [expand, if_neg hgoal]
      simp only [hobs, hrr, if_pos h0]
  have hset : ∀ (k : Nat) (r : Int),
      (set_layer_distance g (2 ^ k) r).LAYER_DISTANCE (2 ^ k) = r ∧
        (set_layer_distance g (2 ^ k) r).MAP_WIDTH = g.MAP_WIDTH ∧
        (set_layer_distance g (2 ^ k) r).MAP_HEIGHT = g.MAP_HEIGHT := by
    intro k r
    simp [set_layer_distance]
  by_cases hz : o &&& blocking = 0
  · have hrr : range_relief g s.follow obstaclev.length blocking current it o = some 0 := by
      unfold range_relief
      simp [hz]
    have hbits0 : ∀ k, k < 64 → (0 : Nat).testBit k = ((o &&& blocking).testBit k &&
        !(decide (g.LAYER_DISTANCE (2 ^ k) ≠ g.MAP_WIDTH * g.MAP_HEIGHT) &&
          decide (indexdistance g.MAP_WIDTH start it > g.LAYER_DISTANCE (2 ^ k)))) := by
      intro k _
      rw [hz]; simp
    exact ⟨0, hrr, hbits0, hiff 0 (by norm_num) hbits0, (hexp 0 hrr).1, (hexp 0 hrr).2, hset⟩
  · have hrr : range_relief g s.follow obstaclev.length blocking current it o
        = some (relief g start it (o &&& blocking)) := by
      unfold range_relief
      simp [hz, htrace]
    exact ⟨_, hrr, hbit,
      hiff _ (Nat.lt_of_le_of_lt (relief_le g start it _) hb) hbit,
      (hexp _ hrr).1, (hexp _ hrr).2, hset⟩

theorem range_relief_rule_witness :
    ((1 : Nat) < 2 ^ 64 ∧ (1 : Int) ∉ [(8 : Int)] ∧
      rd [0, 1, 0, 0, 0, 0, 0, 0, 0] 1 = some 1 ∧
      trace_start (fun _ => none) ([0, 1, 0, 0, 0, 0, 0, 0, 0].length + 1) 0 = some 0) ∧
    ∃ blocked, range_relief (set_layer_distance (init_astar Globals.initial 3 3) 1 1)
      (fun _ => none) [0, 1, 0, 0, 0, 0, 0, 0, 0].length 1 0 1 1 = some blocked :=
  ⟨⟨by decide, by decide, by decide, by decide⟩,
    (range_relief_rule (set_layer_distance (init_astar Globals.initial 3 3) 1 1) stdHeap
      [(2, 2)] [8] [0, 1, 0, 0, 0, 0, 0, 0, 0] 1 0 1 1 []
      { openset := [], closedset := List.replicate 9 false, follow := fun _ => none,
        best_est := List.replicate 9 9 } 1 0
      (by decide) (by decide) (by decide) (by decide)).imp (fun _ hb => hb.1)⟩

/-! ## Index and coordinates -/

theorem indextox_position (W x y : Int) (hx : 0 ≤ x) (hxW : x < W) (hy : 0 ≤ y) :
    indextox W (position_to_index W x y) = x := by
  unfold indextox position_to_index
  have hW : 0 ≤ W := by omega
  have hyW : 0 ≤ y * W := Int.mul_nonneg hy hW
  rw [Int.tmod_eq_emod (by omega) hW, Int.add_mul_emod_self]
  exact Int.emod_eq_of_lt hx hxW

theorem indextoy_position (W x y : Int) (hx : 0 ≤ x) (hxW : x < W) (hy : 0 ≤ y) :
    indextoy W (position_to_index W x y) = y := by
  unfold indextoy position_to_index
  have hW : 0 ≤ W := by omega
  have hyW : 0 ≤ y * W := Int.mul_nonneg hy hW
  rw [Int.tdiv_eq_ediv (by omega) hW, Int.add_mul_ediv_right _ _ (by omega),
    Int.ediv_eq_zero_of_lt hx hxW]
  simp

/-! ## The seeding loop -/

theorem wr_length {α : Type} (v : List α) (i : Int) (x : α) (r : List α)
    (h : wr v i x = some r) : r.length = v.length := by
  unfold wr at h
  split at h
  · cases h; simp
  · cases h

theorem wr_isSome {α : Type} (v : List α) (i : Int) (x : α) (h0 : 0 ≤ i)
    (h1 : i < (v.length : Int)) : ∃ r, wr v i x = some r := by
  unfold wr
  have : 0 ≤ i ∧ i.toNat < v.length := ⟨h0, by omega⟩
  rw [if_pos this]
  exact ⟨_, rfl⟩

theorem any_eq_iff_mem (st : Int × Int) (endv : List (Int × Int)) :
    endv.any (fun e => decide (st.1 = e.1 ∧ st.2 = e.2)) = true ↔ st ∈ endv := by
  rw [List.any_eq_true]
  constructor
  · rintro ⟨e, he, heq⟩
    have : st = e := by
      have h := of_decide_eq_true heq
      exact Prod.ext h.1 h.2
    rw [this]; exact he
  · intro h
    exact ⟨st, h, by simp⟩

theorem seed_shared (h : HeapOps) (W : Int) (len : Nat) (endv : List (Int × Int))
    (p : Int × Int) (post : List (Int × Int)) (hp : p ∈ endv) :
    ∀ (pre : List (Int × Int)) (s : Search), s.best_est.length = len →
      (∀ q ∈ pre, 0 ≤ position_to_index W q.1 q.2 ∧ position_to_index W q.1 q.2 < (len : Int)) →
      seed h W len endv (pre ++ p :: post) s = .error (.null .startInEnds) := by
  intro pre
  induction pre with
  | nil =>
    intro s _ _
    rw [List.nil_append, seed, if_pos ((any_eq_iff_mem p endv).mpr hp)]
  | cons q pre ih =>
    intro s hlen hpre
    rw [List.cons_append, seed]
    split
    · rfl
    · have hq := hpre q (List.mem_cons_self _ _)
      obtain ⟨r, hr⟩ := wr_isSome s.best_est (position_to_index W q.1 q.2)
        (estimate len q.1 q.2 endv) hq.1 (by rw [hlen]; exact hq.2)
      simp only [hr]
      apply ih
      · simpa [hlen] using wr_length _ _ _ _ hr
      · intro q2 hq2
        exact hpre q2 (List.mem_cons_of_mem _ hq2)

/-- C3 (as amended). Configuration error: when a coordinate pair `p` occurs in the start list
and in the goal list, and every start listed before that occurrence of `p` has its cell index
inside the obstacle bitmap, `astar` returns `NULL` through the "Start point is in ends set"
branch, whatever follows `p` in the start list and whatever the goals, the bitmap and the
mask are. -/
theorem astar_shared_start_returns_null (g : Globals) (h : HeapOps)
    (pre post : List (Int × Int)) (p : Int × Int) (endv : List (Int × Int))
    (obstaclev : List Nat) (blocking : Nat) (hp : p ∈ endv)
    (hpre : ∀ q ∈ pre, 0 ≤ position_to_index g.MAP_WIDTH q.1 q.2 ∧
      position_to_index g.MAP_WIDTH q.1 q.2 < (obstaclev.length : Int)) :
    astar g h (pre ++ p :: post) endv obstaclev blocking = .null .startInEnds := by
  unfold astar
  simp only
  rw [seed_shared h g.MAP_WIDTH obstaclev.length endv p post hp pre _ (by simp) hpre]


/-! ## Shape of a non-null result -/

theorem expand_found_mem (g : Globals) (h : HeapOps) (endv : List (Int × Int))
    (ends : List Int) (obstaclev : List Nat) (blocking : Nat) (current traveled : Int) :
    ∀ (adj : List Int) (s : Search) (sel : Int) (s2 : Search),
      expand g h endv ends obstaclev blocking current traveled adj s = .found sel s2 →
      sel ∈ ends := by
  intro adj
  induction adj with
  | nil => intro s sel s2 hx; simp [expand] at hx
  | cons it rest ih =>
    intro s sel s2 hx
    rw [expand] at hx
    split at hx
    · rename_i hmem
      cases hx
      exact hmem
    · split at hx
      · cases hx
      · split at hx
        · cases hx
        · split at hx
          · split at hx
            · cases hx
            · exact ih _ _ _ hx
          · exact ih _ _ _ hx

theorem trace_path_spec (starts : List Int) (follow : Int → Option Int) :
    ∀ (fuel : Nat) (fp : Int) (pre : List Int) (fp2 : Int) (path2 : List Int),
      trace_path starts follow fuel fp (pre ++ [fp]) = some (fp2, path2) →
      ∃ ext, path2 = pre ++ fp :: ext ∧
        List.Chain (fun a b => a ∉ starts ∧ follow a = some b) fp ext ∧
        (fp :: ext).getLast? = some fp2 ∧ (fp2 ∈ starts ∨ follow fp2 = none) := by
  intro fuel
  induction fuel with
  | zero => intro fp pre fp2 path2 hx; simp [trace_path] at hx
  | succ fuel ih =>
    intro fp pre fp2 path2 hx
    rw [trace_path] at hx
    split at hx
    · rename_i hmem
      cases hx
      exact ⟨[], by simp, List.Chain.nil, rfl, Or.inl hmem⟩
    · rename_i hmem
      split at hx
      · rename_i hnone
        cases hx
        exact ⟨[], by simp, List.Chain.nil, rfl, Or.inr hnone⟩
      · rename_i p hsome
        obtain ⟨ext, hpath, hchain, hlast, hend⟩ := ih p (pre ++ [fp]) fp2 path2 hx
        refine ⟨p :: ext, by simpa using hpath, List.Chain.cons ⟨hmem, hsome⟩ hchain, ?_, hend⟩
        rw [List.getLast?_cons_cons]
        exact hlast

theorem reconstruct_path (g : Globals) (starts : List Int) (n : Nat) (sel : Int) (s : Search)
    (result : List Int) (hx : reconstruct g starts n sel s = .path result) :
    ∃ (ext : List Int) (fp : Int), fp ∈ starts ∧
      List.Chain (fun a b => a ∉ starts ∧ s.follow a = some b) sel ext ∧
      (sel :: ext).getLast? = some fp ∧
      result = pack g.MAP_WIDTH (sel :: ext ++ [fp]) := by
  unfold reconstruct at hx
  split at hx
  · cases hx
  · rename_i fp path htp
    obtain ⟨ext, hpath, hchain, hlast, _⟩ :=
      trace_path_spec starts s.follow (n + 2) sel [] fp path (by simpa using htp)
    simp only at hx
    split at hx
    · rename_i hmem
      cases hx
      refine ⟨ext, fp, hmem, hchain, hlast, ?_⟩
      rw [hpath]; simp
    · cases hx

theorem search_path (g : Globals) (h : HeapOps) (endv : List (Int × Int))
    (starts ends : List Int) (obstaclev : List Nat) (blocking : Nat) :
    ∀ (fuel : Nat) (s : Search) (result : List Int),
      search g h endv starts ends obstaclev blocking fuel s = .path result →
      ∃ sel s2, sel ∈ ends ∧ reconstruct g starts obstaclev.length sel s2 = .path result := by
  intro fuel
  induction fuel with
  | zero => intro s result hx; simp [search] at hx
  | succ fuel ih =>
    intro s result hx
    rw [search] at hx
    split at hx
    · cases hx
    · simp only at hx
      split at hx
      · cases hx
      · exact ih _ _ hx
      · split at hx
        · split at hx
          · exact ih _ _ hx
          · rename_i sel s2 hexp
            exact ⟨sel, s2, expand_found_mem _ _ _ _ _ _ _ _ _ _ _ _ hexp, hx⟩
          · cases hx
          · cases hx
        · cases hx

theorem pack_ends (W : Int) (sel fp : Int) (ext : List Int) :
    ∃ mid, pack W (sel :: ext ++ [fp]) =
      indextox W fp :: indextoy W fp :: (mid ++ [indextox W sel, indextoy W sel, -1]) := by
  unfold pack
  refine ⟨((ext.reverse).map (fun p => [indextox W p, indextoy W p])).flatten, ?_⟩
  simp [List.reverse_append, List.flatten_append]

theorem seed_error (h : HeapOps) (W : Int) (len : Int) (endv : List (Int × Int)) :
    ∀ (startv : List (Int × Int)) (s : Search) (o : Outcome),
      seed h W len endv startv s = .error o → o = .null .startInEnds ∨ o = .fault := by
  intro startv
  induction startv with
  | nil => intro s o hx; simp [seed] at hx
  | cons st rest ih =>
    intro s o hx
    rw [seed] at hx
    split at hx
    · cases hx; exact Or.inl rfl
    · simp only at hx
      split at hx
      · cases hx; exact Or.inr rfl
      · exact ih _ _ hx

/-- C2. Path endpoints: after `init_astar(W, H)`, with start and goal coordinates inside the
grid, a non-null result of `astar` begins with the coordinate pair of a provided start and
ends, right before the terminator `-1`, with the coordinate pair of a provided goal. -/
theorem astar_path_endpoints (g0 : Globals) (W H : Int) (h : HeapOps)
    (startv endv : List (Int × Int)) (obstaclev : List Nat) (blocking : Nat)
    (result : List Int)
    (hstart : ∀ p ∈ startv, 0 ≤ p.1 ∧ p.1 < W ∧ 0 ≤ p.2 ∧ p.2 < H)
    (hend : ∀ p ∈ endv, 0 ≤ p.1 ∧ p.1 < W ∧ 0 ≤ p.2 ∧ p.2 < H)
    (hres : astar (init_astar g0 W H) h startv endv obstaclev blocking = .path result) :
    ∃ s ∈ startv, ∃ e ∈ endv, ∃ mid,
      result = s.1 :: s.2 :: (mid ++ [e.1, e.2, -1]) := by
  unfold astar at hres
  simp only at hres
  split at hres
  · rename_i o hseed
    rcases seed_error _ _ _ _ _ _ _ hseed with ho | ho <;> rw [ho] at hres <;> cases hres
  · rename_i s0 hseed
    obtain ⟨sel, s2, hsel, hrec⟩ := search_path _ _ _ _ _ _ _ _ _ _ hres
    obtain ⟨ext, fp, hfp, _, _, hresult⟩ := reconstruct_path _ _ _ _ _ _ hrec
    obtain ⟨mid, hmid⟩ := pack_ends (init_astar g0 W H).MAP_WIDTH sel fp ext
    rw [List.mem_map] at hfp hsel
    obtain ⟨sp, hsp, hspeq⟩ := hfp
    obtain ⟨ep, hep, hepeq⟩ := hsel
    have hs := hstart sp hsp
    have he := hend ep hep
    refine ⟨sp, hsp, ep, hep, mid, ?_⟩
    rw [hresult, hmid, ← hspeq, ← hepeq]
    have hWeq : (init_astar g0 W H).MAP_WIDTH = W := rfl
    rw [hWeq, indextox_position W _ _ hs.1 hs.2.1 hs.2.2.1,
      indextoy_position W _ _ hs.1 hs.2.1 hs.2.2.1,
      indextox_position W _ _ he.1 he.2.1 he.2.2.1,
      indextoy_position W _ _ he.1 he.2.1 he.2.2.1]


theorem astar_path_endpoints_witness :
    (∀ p ∈ [((0 : Int), (0 : Int))], 0 ≤ p.1 ∧ p.1 < (2 : Int) ∧ 0 ≤ p.2 ∧ p.2 < (2 : Int)) ∧
    (∀ p ∈ [((1 : Int), (0 : Int))], 0 ≤ p.1 ∧ p.1 < (2 : Int) ∧ 0 ≤ p.2 ∧ p.2 < (2 : Int)) ∧
    astar (init_astar Globals.initial 2 2) stdHeap [(0, 0)] [(1, 0)] [0, 0, 0, 0] 0
      = .path [0, 0, 0, 0, 1, 0, -1] ∧
    ∃ s ∈ [((0 : Int), (0 : Int))], ∃ e ∈ [((1 : Int), (0 : Int))], ∃ mid,
      [0, 0, 0, 0, 1, 0, -1] = s.1 :: s.2 :: (mid ++ [e.1, e.2, -1]) :=
  ⟨by decide, by decide, by decide!,
    astar_path_endpoints Globals.initial 2 2 stdHeap [(0, 0)] [(1, 0)] [0, 0, 0, 0] 0
      [0, 0, 0, 0, 1, 0, -1] (by decide) (by decide) (by decide!)⟩

theorem astar_shared_start_returns_null_witness :
    ((1 : Int), (1 : Int)) ∈ [((0 : Int), (0 : Int)), (1, 1)] ∧
    (∀ q ∈ [((0 : Int), (1 : Int))],
      0 ≤ position_to_index (init_astar Globals.initial 2 2).MAP_WIDTH q.1 q.2 ∧
      position_to_index (init_astar Globals.initial 2 2).MAP_WIDTH q.1 q.2
        < (([0, 0, 0, 0] : List Nat).length : Int)) ∧
    astar (init_astar Globals.initial 2 2) stdHeap ([(0, 1)] ++ (1, 1) :: [(1, 0)])
      [(0, 0), (1, 1)] [0, 0, 0, 0] 0 = .null .startInEnds :=
  ⟨by decide, by decide,
    astar_shared_start_returns_null (init_astar Globals.initial 2 2) stdHeap [(0, 1)] [(1, 0)]
      (1, 1) [(0, 0), (1, 1)] [0, 0, 0, 0] 0 (by decide) (by decide)⟩

/-- C3, the claim as stated fails: on the 2x2 grid the pair `(0,0)` is a start and a goal, but
the start `(5,5)` listed before it has the index 15, outside the 4-entry vectors, and the
seeding loop writes `best_est[15]` before it reaches the shared pair. -/
theorem astar_shared_start_after_outside_start :
    ((0 : Int), (0 : Int)) ∈ [((5 : Int), (5 : Int)), (0, 0)] ∧
    ((0 : Int), (0 : Int)) ∈ [((0 : Int), (0 : Int))] ∧
    astar (init_astar Globals.initial 2 2) stdHeap [(5, 5), (0, 0)] [(0, 0)] [0, 0, 0, 0] 0
      = .fault := by
  decide!

/-! ## The adjacency table -/

theorem init_cell_length (W H : Int) (adj : List (List Int)) (x y : Int) :
    (init_cell W H adj x y).length = adj.length := by
  simp [init_cell]

theorem init_inner_spec (W H : Int) (hW : 0 ≤ W) (x : Nat) (n : Nat) :
    ∀ (adj : List (List Int)),
      ((List.range n).foldl (fun (adj : List (List Int)) (y : Nat) => init_cell W H adj (x : Int) (y : Int)) adj).length
        = adj.length ∧
      (∀ y, y < n → x + y * W.toNat < adj.length → 0 < W →
        ((List.range n).foldl (fun (adj : List (List Int)) (y : Nat) => init_cell W H adj (x : Int) (y : Int)) adj)[
          x + y * W.toNat]? = some (adjacent_cells W H x y)) ∧
      (∀ j, (∀ y, y < n → x + y * W.toNat ≠ j) →
        ((List.range n).foldl (fun (adj : List (List Int)) (y : Nat) => init_cell W H adj (x : Int) (y : Int)) adj)[j]?
          = adj[j]?) := by
  have hpos : ∀ y : Nat, ((x : Int) + (y : Int) * W).toNat = x + y * W.toNat := by
    intro y
    have h1 : (0 : Int) ≤ (y : Int) * W := Int.mul_nonneg (Int.ofNat_nonneg y) hW
    have h2 : ((y * W.toNat : Nat) : Int) = (y : Int) * W := by
      rw [Nat.cast_mul, Int.toNat_of_nonneg hW]
    omega
  induction n with
  | zero =>
    intro adj
    refine ⟨rfl, fun y hy => absurd hy (Nat.not_lt_zero y), fun j _ => rfl⟩
  | succ n ih =>
    intro adj
    obtain ⟨hl, hin, hout⟩ := ih adj
    rw [List.range_succ, List.foldl_append]
    simp only [List.foldl_cons, List.foldl_nil]
    generalize List.foldl (fun (adj : List (List Int)) (y : Nat) =>
      init_cell W H adj (x : Int) (y : Int)) adj (List.range n) = A at hl hin hout ⊢
    refine ⟨by rw [init_cell_length, hl], ?_, ?_⟩
    · intro y hy hlt hWpos
      unfold init_cell
      simp only
      rw [hpos n, List.getElem?_set]
      by_cases hyn : y = n
      · subst hyn
        simp [hl, hlt]
      · have hne : x + n * W.toNat ≠ x + y * W.toNat := by
          intro heq
          have hWn : 0 < W.toNat := by omega
          have : n * W.toNat = y * W.toNat := by omega
          exact hyn (Nat.eq_of_mul_eq_mul_right hWn this).symm
        rw [if_neg hne]
        exact hin y (by omega) hlt hWpos
    · intro j hj
      unfold init_cell
      simp only
      rw [hpos n, List.getElem?_set, if_neg (hj n (Nat.lt_succ_self n))]
      exact hout j (fun y hy => hj y (by omega))

theorem init_table_spec (W H : Int) (hW : 0 ≤ W) (m : Nat) (hm : m ≤ W.toNat) :
    ∀ (adj : List (List Int)),
      ((List.range m).foldl (fun (adj : List (List Int)) (x : Nat) => (List.range H.toNat).foldl
        (fun (adj : List (List Int)) (y : Nat) => init_cell W H adj (x : Int) (y : Int)) adj) adj).length = adj.length ∧
      (∀ x y, x < m → y < H.toNat → x + y * W.toNat < adj.length →
        ((List.range m).foldl (fun (adj : List (List Int)) (x : Nat) => (List.range H.toNat).foldl
          (fun (adj : List (List Int)) (y : Nat) => init_cell W H adj (x : Int) (y : Int)) adj) adj)[x + y * W.toNat]?
          = some (adjacent_cells W H x y)) := by
  induction m with
  | zero =>
    intro adj
    exact ⟨rfl, fun x y hx => absurd hx (Nat.not_lt_zero x)⟩
  | succ m ih =>
    intro adj
    obtain ⟨hl, hin⟩ := ih (by omega) adj
    rw [List.range_succ, List.foldl_append]
    simp only [List.foldl_cons, List.foldl_nil]
    obtain ⟨hl2, hin2, hout2⟩ := init_inner_spec W H hW m H.toNat
      ((List.range m).foldl (fun (adj : List (List Int)) (x : Nat) => (List.range H.toNat).foldl
        (fun (adj : List (List Int)) (y : Nat) => init_cell W H adj (x : Int) (y : Int)) adj) adj)
    refine ⟨by rw [hl2, hl], ?_⟩
    intro x y hx hy hlt
    by_cases hxm : x = m
    · subst hxm
      exact hin2 y hy (by rw [hl]; exact hlt) (by omega)
    · rw [hout2]
      · exact hin x y (by omega) hy hlt
      · intro y2 _ heq
        -- x + y * W = m + y2 * W with x, m < W forces x = m
        have hxW : x < W.toNat := by omega
        have hmW : m < W.toNat := by omega
        have h1 : (m + y2 * W.toNat) % W.toNat = m := by
          rw [Nat.add_mul_mod_self_right]; exact Nat.mod_eq_of_lt hmW
        have h2 : (x + y * W.toNat) % W.toNat = x := by
          rw [Nat.add_mul_mod_self_right]; exact Nat.mod_eq_of_lt hxW
        rw [heq, h2] at h1
        exact hxm h1

theorem resize_length {α : Type} (v : List α) (n : Nat) (d : α) : (resize v n d).length = n := by
  unfold resize
  simp
  omega

/-- After `init_astar(W, H)` the table has `W * H` entries and the entry of the cell `(x, y)`
of the grid is the list `adjacent_cells` builds. -/
theorem init_astar_table (g0 : Globals) (W H : Int) (hW : 0 ≤ W) (hH : 0 ≤ H) :
    (init_astar g0 W H).ADJACENCY_LIST.length = (H * W).toNat ∧
    ∀ x y : Int, 0 ≤ x → x < W → 0 ≤ y → y < H →
      rd (init_astar g0 W H).ADJACENCY_LIST (position_to_index W x y)
        = some (adjacent_cells W H x y) := by
  obtain ⟨hl, hin⟩ := init_table_spec W H hW W.toNat (Nat.le_refl _)
    (resize g0.ADJACENCY_LIST (H * W).toNat [])
  rw [resize_length] at hl
  refine ⟨hl, ?_⟩
  intro x y hx hxW hy hyH
  have hidx : (position_to_index W x y).toNat = x.toNat + y.toNat * W.toNat := by
    unfold position_to_index
    have h1 : (0 : Int) ≤ y * W := Int.mul_nonneg hy hW
    have h2 : ((y.toNat * W.toNat : Nat) : Int) = y * W := by
      rw [Nat.cast_mul, Int.toNat_of_nonneg hW, Int.toNat_of_nonneg hy]
    omega
  have hnn : 0 ≤ position_to_index W x y := by
    unfold position_to_index
    have h1 : (0 : Int) ≤ y * W := Int.mul_nonneg hy hW
    omega
  have hlt : x.toNat + y.toNat * W.toNat < (H * W).toNat := by
    have h3 : (y.toNat + 1) * W.toNat ≤ H.toNat * W.toNat :=
      Nat.mul_le_mul_right _ (by omega)
    have h4 : ((H.toNat * W.toNat : Nat) : Int) = H * W := by
      rw [Nat.cast_mul, Int.toNat_of_nonneg hW, Int.toNat_of_nonneg hH]
    have h5 : (y.toNat + 1) * W.toNat = y.toNat * W.toNat + W.toNat := by ring
    omega
  have := hin x.toNat y.toNat (by omega) (by omega) (by rw [resize_length]; exact hlt)
  unfold rd
  rw [if_pos hnn, hidx]
  show (init_table W H (resize g0.ADJACENCY_LIST (H * W).toNat []))[_]? = _
  unfold init_table
  rw [this, Int.toNat_of_nonneg hx, Int.toNat_of_nonneg hy]


/-! ## Evaluations of the adjacency table and of `astar` -/

/-- C10. The table `init_astar(2, 2)` builds: the cells of the top row `y = 1` (indices 2
and 3) hold the indices 4 and 5 of cells above the grid, between their right or left
neighbour and their lower one; the table `init_astar(3, 1)` builds holds the index 3 above
the grid for the cell `(0, 0)` and misses the right neighbour of `(0, 0)` and of `(1, 0)`
and the left neighbour of `(2, 0)`. -/
theorem init_astar_table_2x2_3x1 :
    (init_astar Globals.initial 2 2).ADJACENCY_LIST = [[1, 2], [0, 3], [3, 4, 0], [2, 5, 1]] ∧
    (init_astar Globals.initial 3 1).ADJACENCY_LIST = [[3], [0], []] := by
  decide

/-- C4. On the 2x2 grid without obstacles, start `(0,0)` and goal `(1,0)` at Manhattan
distance 1: the result holds three coordinate pairs, the start twice; start `(0,1)` and goal
`(1,0)`: the call indexes the bitmap at 4, outside the grid. With the heap order of libstdc++
the call on the 5x5 grid from `(0,0)` to `(4,4)` indexes the bitmap outside the grid too. -/
theorem astar_obstacle_free_runs :
    astar (init_astar Globals.initial 2 2) stdHeap [(0, 0)] [(1, 0)] [0, 0, 0, 0] 0
      = Outcome.path [0, 0, 0, 0, 1, 0, -1] ∧
    astar (init_astar Globals.initial 2 2) stdHeap [(0, 1)] [(1, 0)] [0, 0, 0, 0] 0
      = Outcome.fault ∧
    astar (init_astar Globals.initial 5 5) stdHeap [(0, 0)] [(4, 4)] (List.replicate 25 0) 0
      = Outcome.fault := by
  decide!

/-- C6. On the 2x2 grid, start `(0,1)` in the top row and goal `(0,0)` right below it: the
neighbour above the start, index 4, is examined before the goal and the bitmap is indexed
outside its bounds, with or without obstacles. -/
theorem astar_adjacent_goal_below_top_row :
    astar (init_astar Globals.initial 2 2) stdHeap [(0, 1)] [(0, 0)] [0, 0, 0, 0] 0
      = Outcome.fault ∧
    astar (init_astar Globals.initial 2 2) stdHeap [(0, 1)] [(0, 0)] [1, 0, 0, 0] 1
      = Outcome.fault := by
  decide!

/-! ## Reading and writing vectors -/

theorem rd_some_range {α : Type} (v : List α) (i : Int) (x : α) (h : rd v i = some x) :
    0 ≤ i ∧ i < (v.length : Int) := by
  unfold rd at h
  split at h
  · rename_i h0
    have := (List.getElem?_eq_some_iff.mp h).1
    exact ⟨h0, by omega⟩
  · cases h

theorem rd_of_range {α : Type} (v : List α) (i : Int) (h0 : 0 ≤ i) (h1 : i < (v.length : Int)) :
    ∃ x, rd v i = some x := by
  unfold rd
  rw [if_pos h0]
  have : i.toNat < v.length := by omega
  exact ⟨v[i.toNat], List.getElem?_eq_getElem this⟩

theorem rd_wr_same {α : Type} (v w : List α) (i : Int) (x : α) (h : wr v i x = some w) :
    rd w i = some x := by
  unfold wr at h
  split at h
  · rename_i hc
    cases h
    unfold rd
    rw [if_pos hc.1, List.getElem?_set]
    simp [hc.2]
  · cases h

theorem rd_wr_ne {α : Type} (v w : List α) (i j : Int) (x : α) (h : wr v i x = some w)
    (hne : j ≠ i) : rd w j = rd v j := by
  unfold wr at h
  split at h
  · rename_i hc
    cases h
    unfold rd
    by_cases hj : 0 ≤ j
    · rw [if_pos hj, if_pos hj, List.getElem?_set]
      have : i.toNat ≠ j.toNat := by omega
      rw [if_neg this]
    · rw [if_neg hj, if_neg hj]
  · cases h

theorem rd_replicate {α : Type} (n : Nat) (a x : α) (i : Int)
    (h : rd (List.replicate n a) i = some x) : x = a := by
  unfold rd at h
  split at h
  · rw [List.getElem?_replicate] at h
    split at h
    · cases h; rfl
    · cases h
  · cases h

/-! ## Distances and the estimate -/

theorem distance_nonneg (x1 y1 x2 y2 : Int) : 0 ≤ distance x1 y1 x2 y2 := by
  unfold distance; omega

theorem distance_comm (x1 y1 x2 y2 : Int) : distance x1 y1 x2 y2 = distance x2 y2 x1 y1 := by
  unfold distance; omega

theorem distance_triangle (x1 y1 x2 y2 x3 y3 : Int) :
    distance x1 y1 x3 y3 ≤ distance x1 y1 x2 y2 + distance x2 y2 x3 y3 := by
  unfold distance; omega

theorem distance_eq_zero (x1 y1 x2 y2 : Int) (h : distance x1 y1 x2 y2 = 0) :
    x1 = x2 ∧ y1 = y2 := by
  unfold distance at h; omega

theorem estimate_fold_le (x y : Int) (endv : List (Int × Int)) :
    ∀ acc : Int, endv.foldl (fun min e =>
      let tmp := distance x y e.1 e.2
      if tmp < min then tmp else min) acc ≤ acc := by
  induction endv with
  | nil => intro acc; exact Int.le_refl acc
  | cons e rest ih =>
    intro acc
    rw [List.foldl_cons]
    refine Int.le_trans (ih _) ?_
    simp only
    split <;> omega

theorem estimate_fold_le_dist (x y : Int) (endv : List (Int × Int)) :
    ∀ (acc : Int) (e : Int × Int), e ∈ endv → endv.foldl (fun min e =>
      let tmp := distance x y e.1 e.2
      if tmp < min then tmp else min) acc ≤ distance x y e.1 e.2 := by
  induction endv with
  | nil => intro acc e he; cases he
  | cons e0 rest ih =>
    intro acc e he
    rw [List.foldl_cons]
    rcases List.mem_cons.mp he with h0 | h1
    · subst h0
      refine Int.le_trans (estimate_fold_le x y rest _) ?_
      simp only
      split <;> omega
    · exact ih _ e h1

theorem estimate_fold_cases (x y : Int) (endv : List (Int × Int)) :
    ∀ acc : Int, endv.foldl (fun min e =>
      let tmp := distance x y e.1 e.2
      if tmp < min then tmp else min) acc = acc ∨
      ∃ e ∈ endv, endv.foldl (fun min e =>
        let tmp := distance x y e.1 e.2
        if tmp < min then tmp else min) acc = distance x y e.1 e.2 := by
  induction endv with
  | nil => intro acc; exact Or.inl rfl
  | cons e0 rest ih =>
    intro acc
    rw [List.foldl_cons]
    simp only
    split
    · rcases ih (distance x y e0.1 e0.2) with h | ⟨e, he, h⟩
      · exact Or.inr ⟨e0, List.mem_cons_self _ _, h⟩
      · exact Or.inr ⟨e, List.mem_cons_of_mem _ he, h⟩
    · rcases ih acc with h | ⟨e, he, h⟩
      · exact Or.inl h
      · exact Or.inr ⟨e, List.mem_cons_of_mem _ he, h⟩

theorem estimate_le (L x y : Int) (endv : List (Int × Int)) : estimate L x y endv ≤ L :=
  estimate_fold_le x y endv L

theorem estimate_le_dist (L x y : Int) (endv : List (Int × Int)) (e : Int × Int)
    (he : e ∈ endv) : estimate L x y endv ≤ distance x y e.1 e.2 :=
  estimate_fold_le_dist x y endv L e he

theorem estimate_cases (L x y : Int) (endv : List (Int × Int)) :
    estimate L x y endv = L ∨ ∃ e ∈ endv, estimate L x y endv = distance x y e.1 e.2 :=
  estimate_fold_cases x y endv L

theorem estimate_nonneg (L x y : Int) (endv : List (Int × Int)) (hL : 0 ≤ L) :
    0 ≤ estimate L x y endv := by
  rcases estimate_cases L x y endv with h | ⟨e, _, h⟩
  · rw [h]; exact hL
  · rw [h]; exact distance_nonneg _ _ _ _

/-- The estimate changes by at most one between cells at distance one. -/
theorem estimate_step (L x y x2 y2 : Int) (endv : List (Int × Int))
    (hd : distance x y x2 y2 ≤ 1) :
    estimate L x y endv ≤ estimate L x2 y2 endv + 1 := by
  rcases estimate_cases L x2 y2 endv with h | ⟨e, he, h⟩
  · rw [h]
    have := estimate_le L x y endv
    omega
  · rw [h]
    have h1 := estimate_le_dist L x y endv e he
    have h2 := distance_triangle x y x2 y2 e.1 e.2
    omega

/-! ## Cells of the square grid -/

theorem cell_coords (N n : Int) (hN : 1 ≤ N) (h0 : 0 ≤ n) (h1 : n < N * N) :
    0 ≤ indextox N n ∧ indextox N n < N ∧ 0 ≤ indextoy N n ∧ indextoy N n < N ∧
      position_to_index N (indextox N n) (indextoy N n) = n := by
  unfold indextox indextoy position_to_index
  have hN0 : (0 : Int) ≤ N := by omega
  rw [Int.tmod_eq_emod h0 hN0, Int.tdiv_eq_ediv h0 hN0]
  have hm := Int.emod_nonneg n (show N ≠ 0 by omega)
  have hm2 := Int.emod_lt_of_pos n (show 0 < N by omega)
  have hd := Int.ediv_nonneg h0 hN0
  have hd2 : n / N < N := Int.ediv_lt_of_lt_mul (by omega) h1
  have hsum := Int.emod_add_ediv n N
  refine ⟨hm, hm2, hd, hd2, ?_⟩
  rw [Int.mul_comm (n / N) N]
  exact hsum

theorem position_range (N x y : Int) (hx : 0 ≤ x) (hxN : x < N) (hy : 0 ≤ y) (hyN : y < N) :
    0 ≤ position_to_index N x y ∧ position_to_index N x y < N * N := by
  unfold position_to_index
  have h1 : 0 ≤ y * N := Int.mul_nonneg hy (by omega)
  have h2 : (y + 1) * N ≤ N * N := Int.mul_le_mul_of_nonneg_right (by omega) (by omega)
  have h3 : (y + 1) * N = y * N + N := by ring
  omega

theorem mem_push_if_valid (W H tx ty : Int) (l : List Int) (n : Int) :
    n ∈ push_if_valid W H tx ty l ↔
      n ∈ l ∨ (check_coord tx ty W H = true ∧ n = position_to_index W tx ty) := by
  unfold push_if_valid
  simp only
  split
  · rename_i hc
    simp [hc]
  · rename_i hc
    simp [hc]

theorem mem_adjacent_cells (W H x y n : Int) :
    n ∈ adjacent_cells W H x y ↔
      (check_coord (x + 1) y W H = true ∧ n = position_to_index W (x + 1) y) ∨
      (check_coord (x - 1) y W H = true ∧ n = position_to_index W (x - 1) y) ∨
      (check_coord x (y + 1) W H = true ∧ n = position_to_index W x (y + 1)) ∨
      (check_coord x (y - 1) W H = true ∧ n = position_to_index W x (y - 1)) := by
  unfold adjacent_cells
  simp only [mem_push_if_valid, List.not_mem_nil, false_or]
  tauto

theorem check_coord_iff (x y max_x max_y : Int) :
    check_coord x y max_x max_y = true ↔ 0 ≤ x ∧ x < max_x ∧ 0 ≤ y ∧ x < max_y := by
  unfold check_coord
  simp only [Bool.and_eq_true, decide_eq_true_eq, ge_iff_le]
  tauto

/-- A neighbour listed for a cell of the grid is, in coordinates, at distance one of it. -/
theorem adjacent_cells_distance (N x y m : Int) (hm : m ∈ adjacent_cells N N x y) :
    distance (indextox N m) (indextoy N m) x y = 1 := by
  rw [mem_adjacent_cells] at hm
  simp only [check_coord_iff] at hm
  rcases hm with ⟨hc, rfl⟩ | ⟨hc, rfl⟩ | ⟨hc, rfl⟩ | ⟨hc, rfl⟩
  · rw [indextox_position N _ _ hc.1 hc.2.1 hc.2.2.1, indextoy_position N _ _ hc.1 hc.2.1 hc.2.2.1]
    unfold distance; omega
  · rw [indextox_position N _ _ hc.1 hc.2.1 hc.2.2.1, indextoy_position N _ _ hc.1 hc.2.1 hc.2.2.1]
    unfold distance; omega
  · rw [indextox_position N _ _ hc.1 hc.2.1 hc.2.2.1, indextoy_position N _ _ hc.1 hc.2.1 hc.2.2.1]
    unfold distance; omega
  · rw [indextox_position N _ _ hc.1 hc.2.1 hc.2.2.1, indextoy_position N _ _ hc.1 hc.2.1 hc.2.2.1]
    unfold distance; omega

/-- Two cells of the grid at distance one are listed as neighbours. -/
theorem adjacent_cells_of_distance (N x y x2 y2 : Int) (hx : 0 ≤ x) (hxN : x < N) (hy : 0 ≤ y)
    (hyN : y < N) (hx2 : 0 ≤ x2) (hx2N : x2 < N) (hy2 : 0 ≤ y2) (hy2N : y2 < N)
    (hd : distance x y x2 y2 = 1) :
    position_to_index N x2 y2 ∈ adjacent_cells N N x y := by
  rw [mem_adjacent_cells]
  simp only [check_coord_iff]
  unfold distance at hd
  have hcases : (x2 = x + 1 ∧ y2 = y) ∨ (x2 = x - 1 ∧ y2 = y) ∨ (x2 = x ∧ y2 = y + 1) ∨
      (x2 = x ∧ y2 = y - 1) := by omega
  rcases hcases with ⟨rfl, rfl⟩ | ⟨rfl, rfl⟩ | ⟨rfl, rfl⟩ | ⟨rfl, rfl⟩
  · left; exact ⟨⟨by omega, by omega, by omega, by omega⟩, rfl⟩
  · right; left; exact ⟨⟨by omega, by omega, by omega, by omega⟩, rfl⟩
  · right; right; left; exact ⟨⟨by omega, by omega, by omega, by omega⟩, rfl⟩
  · right; right; right; exact ⟨⟨by omega, by omega, by omega, by omega⟩, rfl⟩

/-! ## The call on a square grid -/

theorem Call.Square.len_eq {c : Call} {N : Int} (sq : c.Square N) : (c.len : Int) = N * N :=
  sq.bitmap

theorem Call.Square.len_pos {c : Call} {N : Int} (sq : c.Square N) : (1 : Int) ≤ c.len := by
  rw [sq.len_eq]
  have := sq.side
  nlinarith

theorem Call.Square.coords {c : Call} {N : Int} (sq : c.Square N) (n : Int) (h0 : 0 ≤ n)
    (h1 : n < c.len) :
    in_grid N N (indextox N n, indextoy N n) ∧
      position_to_index N (indextox N n) (indextoy N n) = n := by
  rw [sq.len_eq] at h1
  obtain ⟨a, b, c2, d, e⟩ := cell_coords N n sq.side h0 h1
  exact ⟨⟨a, b, c2, d⟩, e⟩

theorem Call.Square.index_range {c : Call} {N : Int} (sq : c.Square N) (p : Int × Int)
    (hp : in_grid N N p) :
    0 ≤ position_to_index N p.1 p.2 ∧ position_to_index N p.1 p.2 < c.len := by
  rw [sq.len_eq]
  exact position_range N p.1 p.2 hp.1 hp.2.1 hp.2.2.1 hp.2.2.2

theorem Call.Square.table_at {c : Call} {N : Int} (sq : c.Square N) (n : Int) (h0 : 0 ≤ n)
    (h1 : n < c.len) :
    rd c.g.ADJACENCY_LIST n = some (adjacent_cells N N (indextox N n) (indextoy N n)) := by
  obtain ⟨hg, hidx⟩ := sq.coords n h0 h1
  have := sq.table _ _ hg.1 hg.2.1 hg.2.2.1 hg.2.2.2
  rw [hidx] at this
  exact this

theorem Call.Square.mem_starts {c : Call} {N : Int} (sq : c.Square N) (n : Int)
    (h : n ∈ c.starts) : ∃ p ∈ c.startv, in_grid N N p ∧ position_to_index N p.1 p.2 = n := by
  unfold Call.starts at h
  rw [List.mem_map] at h
  obtain ⟨p, hp, hpe⟩ := h
  rw [sq.width] at hpe
  exact ⟨p, hp, sq.starts_in p hp, hpe⟩

theorem Call.Square.mem_ends {c : Call} {N : Int} (sq : c.Square N) (n : Int)
    (h : n ∈ c.ends) : ∃ p ∈ c.endv, in_grid N N p ∧ position_to_index N p.1 p.2 = n := by
  unfold Call.ends at h
  rw [List.mem_map] at h
  obtain ⟨p, hp, hpe⟩ := h
  rw [sq.width] at hpe
  exact ⟨p, hp, sq.ends_in p hp, hpe⟩

theorem Call.heur_le_len (c : Call) (n : Int) : c.heur n ≤ c.len :=
  estimate_le _ _ _ _

theorem Call.heur_nonneg (c : Call) (n : Int) : 0 ≤ c.heur n :=
  estimate_nonneg _ _ _ _ (Int.ofNat_nonneg _)

/-- The estimate of a cell listed as a neighbour differs by at most one. -/
theorem Call.Square.heur_step {c : Call} {N : Int} (sq : c.Square N) (n m : Int) (h0 : 0 ≤ n)
    (h1 : n < c.len) (adj : List Int) (hadj : rd c.g.ADJACENCY_LIST n = some adj)
    (hm : m ∈ adj) : c.heur n ≤ c.heur m + 1 := by
  rw [sq.table_at n h0 h1] at hadj
  cases hadj
  have hd := adjacent_cells_distance N _ _ m hm
  unfold Call.heur
  rw [sq.width]
  apply estimate_step
  rw [distance_comm, hd]

/-- The estimate of a cell of the grid that is not an end point is at least one. -/
theorem Call.Square.heur_pos {c : Call} {N : Int} (sq : c.Square N) (n : Int) (h0 : 0 ≤ n)
    (h1 : n < c.len) (hne : n ∉ c.ends) : 1 ≤ c.heur n := by
  unfold Call.heur
  rcases estimate_cases c.len (indextox c.g.MAP_WIDTH n) (indextoy c.g.MAP_WIDTH n) c.endv
    with h | ⟨e, he, h⟩
  · rw [h]; exact sq.len_pos
  · rw [h]
    have hnn := distance_nonneg (indextox c.g.MAP_WIDTH n) (indextoy c.g.MAP_WIDTH n) e.1 e.2
    by_contra hlt
    have hz : distance (indextox c.g.MAP_WIDTH n) (indextoy c.g.MAP_WIDTH n) e.1 e.2 = 0 := by
      omega
    obtain ⟨hx, hy⟩ := distance_eq_zero _ _ _ _ hz
    apply hne
    unfold Call.ends
    rw [List.mem_map]
    refine ⟨e, he, ?_⟩
    rw [← hx, ← hy, sq.width]
    exact (sq.coords n h0 h1).2

/-- The estimate of a cell is at most its distance to a goal. -/
theorem Call.Square.heur_le_dist {c : Call} {N : Int} (sq : c.Square N) (p e : Int × Int)
    (hp : in_grid N N p) (he : e ∈ c.endv) :
    c.heur (position_to_index N p.1 p.2) ≤ distance p.1 p.2 e.1 e.2 := by
  unfold Call.heur
  rw [sq.width, indextox_position N _ _ hp.1 hp.2.1 hp.2.2.1,
    indextoy_position N _ _ hp.1 hp.2.1 hp.2.2.1]
  exact estimate_le_dist _ _ _ _ e he

theorem Call.Square.heur_start {c : Call} {N : Int} (sq : c.Square N) (p : Int × Int)
    (hp : in_grid N N p) :
    c.heur (position_to_index c.g.MAP_WIDTH p.1 p.2) = estimate c.len p.1 p.2 c.endv := by
  unfold Call.heur
  rw [sq.width, indextox_position N _ _ hp.1 hp.2.1 hp.2.2.1,
    indextoy_position N _ _ hp.1 hp.2.1 hp.2.2.1]

/-! ## Preservation of the invariant -/

/-- The predecessor trace from a rooted cell ends in a start. -/
theorem trace_start_root {c : Call} {Pass : Int → Prop} {inv : List OpenPt → Prop} {F cur : Int}
    {done : Int → Prop} {s : Search} (I : Inv c Pass inv F cur done s) :
    ∀ (fuel : Nat) (x root : Int), (x ∈ c.starts ∨ (s.follow x).isSome) →
      trace_start s.follow fuel x = some root → root ∈ c.starts := by
  intro fuel
  induction fuel with
  | zero => intro x root _ h; simp [trace_start] at h
  | succ fuel ih =>
    intro x root hx h
    rw [trace_start] at h
    split at h
    · rename_i hnone
      cases h
      rcases hx with hx | hx
      · exact hx
      · rw [hnone] at hx; cases hx
    · rename_i p hsome
      exact ih p root ((I.closed p (I.links x p hsome).closed).rooted) h

/-- The value of `blocked` after the layer loop is zero exactly for the cells that pass. -/
theorem range_relief_pass {c : Call} {Pass : Int → Prop} {inv : List OpenPt → Prop}
    {F cur : Int} {done : Int → Prop} {s : Search} (I : Inv c Pass inv F cur done s)
    (pr : c.PassRule Pass) (x it : Int) (o b : Nat)
    (hx : x ∈ c.starts ∨ (s.follow x).isSome) (ho : rd c.obstaclev it = some o)
    (hb : range_relief c.g s.follow c.obstaclev.length c.blocking x it o = some b) :
    b = 0 ↔ Pass it := by
  unfold range_relief at hb
  simp only at hb
  split at hb
  · split at hb
    · cases hb
    · rename_i root hroot
      cases hb
      exact pr.relieved root (trace_start_root I _ _ _ hx hroot) it o ho
  · rename_i hz
    cases hb
    have hz2 : o &&& c.blocking = 0 := not_not.mp hz
    rw [hz2]
    exact ⟨fun _ => pr.free it o ho hz2, fun _ => rfl⟩

/-- A neighbour that leaves the state unchanged counts as examined. -/
theorem expanding_skip {c : Call} {Pass : Int → Prop} {inv : List OpenPt → Prop}
    {sofar cur : Int} {adj : List Int} {done : Int → Prop} {s : Search}
    (E : Expanding c Pass inv sofar cur adj done s) (it : Int) (o : Nat)
    (hend : it ∉ c.ends) (ho : rd c.obstaclev it = some o)
    (hb : Pass it → ∃ bm, rd s.best_est it = some bm ∧ bm ≤ c.heur it + (sofar + 1)) :
    Expanding c Pass inv sofar cur adj (fun m => done m ∨ m = it) s := by
  refine { E with inv := { E.inv with closed := ?_ } }
  intro n hn
  have hC := E.inv.closed n hn
  refine { hC with nbrs := ?_ }
  obtain ⟨b, adjn, hb1, hb2, hadj, hall⟩ := hC.nbrs
  refine ⟨b, adjn, hb1, hb2, hadj, ?_⟩
  intro m hm hdone
  by_cases hmit : n = cur ∧ m = it
  · obtain ⟨hn1, hm1⟩ := hmit
    subst hn1
    subst hm1
    refine ⟨hend, ⟨o, ho⟩, fun hp => ?_⟩
    obtain ⟨bm, hbm, hle⟩ := hb hp
    refine ⟨bm, hbm, ?_⟩
    have h2 := E.best_cur
    rw [hb1] at h2
    cases h2
    omega
  · apply hall m hm
    intro hnc
    rcases hdone hnc with h | h
    · exact h
    · exact absurd ⟨hnc, h⟩ hmit

/-- The update of `follow`, `best_est` and the open set for a neighbour that passes and
improves keeps the invariant. -/
theorem expanding_update {c : Call} {N : Int} {Pass : Int → Prop} {inv : List OpenPt → Prop}
    (sq : c.Square N) (hl : HeapLaws c.h inv)
    {sofar cur : Int} {adj : List Int} {done : Int → Prop} {s : Search}
    (E : Expanding c Pass inv sofar cur adj done s) (it : Int) (o : Nat) (best : Int)
    (best2 : List Int)
    (hit : it ∈ adj) (hend : it ∉ c.ends) (ho : rd c.obstaclev it = some o) (hp : Pass it)
    (hcl : rd s.closedset it = some false) (hbest : rd s.best_est it = some best)
    (hlt : c.heur it + (sofar + 1) < best)
    (hwr : wr s.best_est it (c.heur it + (sofar + 1)) = some best2) :
    Expanding c Pass inv sofar cur adj (fun m => done m ∨ m = it)
      { s with follow := follow_set s.follow it cur
               best_est := best2
               openset := c.h.push s.openset
                 { est := c.heur it, sofar := sofar + 1, index := it } } := by
  have hr := rd_some_range _ _ _ ho
  have hC := E.inv.closed cur E.is_closed
  have hstep : c.heur cur ≤ c.heur it + 1 := sq.heur_step cur it hC.lo hC.hi adj E.table hit
  have hne : cur ≠ it := by
    intro h
    have h1 := E.is_closed
    rw [h, hcl] at h1
    cases h1
  have hnotstart : it ∉ c.starts := by
    intro hs
    have h1 := E.inv.start_best it hs
    rw [hbest] at h1
    cases h1
    have := E.sofar_nonneg
    omega
  have hpush := hl.push s.openset { est := c.heur it, sofar := sofar + 1, index := it } E.inv.heap
  have hbb := E.inv.best_bounds it best hbest
  have hsn := E.sofar_nonneg
  have hrd : ∀ n, n ≠ it → rd best2 n = rd s.best_est n := fun n hn => rd_wr_ne _ _ _ _ _ hwr hn
  have hrdit : rd best2 it = some (c.heur it + (sofar + 1)) := rd_wr_same _ _ _ _ hwr
  have hfol : ∀ n, n ≠ it → follow_set s.follow it cur n = s.follow n := by
    intro n hn
    unfold follow_set
    rw [if_neg hn]
  have hfolit : follow_set s.follow it cur it = some cur := by
    unfold follow_set
    rw [if_pos rfl]
  -- the value read in the new vector is at most the old one
  have hmono : ∀ n b, rd s.best_est n = some b → ∃ b2, rd best2 n = some b2 ∧ b2 ≤ b := by
    intro n b hb
    by_cases hn : n = it
    · subst hn
      rw [hbest] at hb
      cases hb
      exact ⟨_, hrdit, by omega⟩
    · exact ⟨b, by rw [hrd n hn]; exact hb, Int.le_refl b⟩
  refine
    { inv :=
        { heap := hpush.1
          len_closed := E.inv.len_closed
          len_best := by
            show best2.length = c.len
            rw [wr_length _ _ _ _ hwr]; exact E.inv.len_best
          best_bounds := ?_
          start_best := ?_
          entries := ?_
          links := ?_
          closed := ?_
          opened := ?_ }
      sofar_nonneg := hsn
      is_closed := E.is_closed
      best_cur := by
        show rd best2 cur = _
        rw [hrd cur hne]; exact E.best_cur
      table := E.table }
  · -- best_bounds
    intro n b hb
    change rd best2 n = some b at hb
    by_cases hn : n = it
    · subst hn
      rw [hrdit] at hb
      cases hb
      constructor <;> omega
    · rw [hrd n hn] at hb
      exact E.inv.best_bounds n b hb
  · -- start_best
    intro st hst
    show rd best2 st = _
    have hn : st ≠ it := fun h => hnotstart (h ▸ hst)
    rw [hrd st hn]
    exact E.inv.start_best st hst
  · -- entries
    intro e he
    change e ∈ c.h.push s.openset _ at he
    rcases List.mem_cons.mp (hpush.2.mem_iff.mp he) with h0 | h1
    · subst h0
      exact
        { lo := hr.1
          hi := hr.2
          est_eq := rfl
          sofar_nonneg := by show 0 ≤ sofar + 1; omega
          best_le := ⟨_, hrdit, Int.le_refl _⟩
          rooted := Or.inr (by show (follow_set s.follow it cur it).isSome = true; rw [hfolit]; rfl)
          not_end := hend
          small := Or.inr (by show c.heur it + (sofar + 1) < c.len; omega)
          after := by show c.heur cur + sofar ≤ c.heur it + (sofar + 1); omega }
    · have hq := E.inv.entries e h1
      exact
        { lo := hq.lo
          hi := hq.hi
          est_eq := hq.est_eq
          sofar_nonneg := hq.sofar_nonneg
          best_le := by
            obtain ⟨b, hb, hle⟩ := hq.best_le
            obtain ⟨b2, hb2, hle2⟩ := hmono _ _ hb
            exact ⟨b2, hb2, by omega⟩
          rooted := by
            rcases hq.rooted with h | h
            · exact Or.inl h
            · right
              show (follow_set s.follow it cur e.index).isSome = true
              by_cases hn : e.index = it
              · rw [hn, hfolit]; rfl
              · rw [hfol _ hn]; exact h
          not_end := hq.not_end
          small := hq.small
          after := hq.after }
  · -- links
    intro n p hnp
    change follow_set s.follow it cur n = some p at hnp
    by_cases hn : n = it
    · subst hn
      rw [hfolit] at hnp
      cases hnp
      exact
        { not_end := hend
          not_start := hnotstart
          lo := hr.1
          hi := hr.2
          closed := E.is_closed
          adjacent := ⟨adj, E.table, hit⟩
          pass := hp
          depth := ⟨_, _, hrdit, by rw [hrd _ hne]; exact E.best_cur, by omega⟩ }
    · rw [hfol n hn] at hnp
      have hL := E.inv.links n p hnp
      have hpne : p ≠ it := by
        intro h
        have h1 := hL.closed
        rw [h, hcl] at h1
        cases h1
      exact
        { not_end := hL.not_end
          not_start := hL.not_start
          lo := hL.lo
          hi := hL.hi
          closed := hL.closed
          adjacent := hL.adjacent
          pass := hL.pass
          depth := by
            obtain ⟨bn, bp, h1, h2, h3⟩ := hL.depth
            exact ⟨bn, bp, by rw [hrd n hn]; exact h1, by rw [hrd p hpne]; exact h2, h3⟩ }
  · -- closed
    intro n hn
    change rd s.closedset n = some true at hn
    have hCn := E.inv.closed n hn
    have hnit : n ≠ it := by
      intro h
      rw [h, hcl] at hn
      cases hn
    obtain ⟨b, adjn, hb1, hb2, hadj, hall⟩ := hCn.nbrs
    exact
      { lo := hCn.lo
        hi := hCn.hi
        rooted := by
          rcases hCn.rooted with h | h
          · exact Or.inl h
          · right
            show (follow_set s.follow it cur n).isSome = true
            rw [hfol n hnit]; exact h
        not_end := hCn.not_end
        nbrs := by
          refine ⟨b, adjn, by rw [hrd n hnit]; exact hb1, hb2, hadj, ?_⟩
          intro m hm hdone
          by_cases hmit : n = cur ∧ m = it
          · obtain ⟨hn1, hm1⟩ := hmit
            subst hn1
            subst hm1
            refine ⟨hend, ⟨o, ho⟩, fun _ => ⟨_, hrdit, ?_⟩⟩
            have h2 := E.best_cur
            rw [hb1] at h2
            cases h2
            omega
          · have hold := hall m hm (by
              intro hnc
              rcases hdone hnc with h | h
              · exact h
              · exact absurd ⟨hnc, h⟩ hmit)
            refine ⟨hold.1, hold.2.1, fun hpm => ?_⟩
            obtain ⟨bm, hbm, hle⟩ := hold.2.2 hpm
            obtain ⟨b2, hb2', hle2⟩ := hmono _ _ hbm
            exact ⟨b2, hb2', by omega⟩ }
  · -- opened
    intro n b hn hb hlt2
    change rd s.closedset n = some false at hn
    change rd best2 n = some b at hb
    show ∃ e ∈ c.h.push s.openset _, _
    by_cases hnit : n = it
    · subst hnit
      rw [hrdit] at hb
      cases hb
      exact ⟨_, hpush.2.mem_iff.mpr (List.mem_cons_self _ _), rfl, rfl⟩
    · rw [hrd n hnit] at hb
      obtain ⟨e, he, h1, h2⟩ := E.inv.opened n b hn hb hlt2
      exact ⟨e, hpush.2.mem_iff.mpr (List.mem_cons_of_mem _ he), h1, h2⟩

/-- The body of `if(blocked == 0)` keeps the invariant and does not leave the vectors. -/
theorem relax_inv {c : Call} {N : Int} {Pass : Int → Prop} {inv : List OpenPt → Prop}
    (sq : c.Square N) (hl : HeapLaws c.h inv)
    {sofar cur : Int} {adj : List Int} {done : Int → Prop} {s : Search}
    (E : Expanding c Pass inv sofar cur adj done s) (it : Int) (o : Nat)
    (hit : it ∈ adj) (hend : it ∉ c.ends) (ho : rd c.obstaclev it = some o) (hp : Pass it) :
    ∃ s2, relax c.g c.h c.endv c.obstaclev.length cur (sofar + 1) it s = some s2 ∧
      Expanding c Pass inv sofar cur adj (fun m => done m ∨ m = it) s2 := by
  have hr := rd_some_range _ _ _ ho
  have hlenc : (s.closedset.length : Int) = c.obstaclev.length := by
    rw [E.inv.len_closed]; rfl
  have hlenb : (s.best_est.length : Int) = c.obstaclev.length := by
    rw [E.inv.len_best]; rfl
  obtain ⟨cl, hcl⟩ := rd_of_range s.closedset it hr.1 (by omega)
  obtain ⟨best, hbest⟩ := rd_of_range s.best_est it hr.1 (by omega)
  have hC := E.inv.closed cur E.is_closed
  have hstep : c.heur cur ≤ c.heur it + 1 := sq.heur_step cur it hC.lo hC.hi adj E.table hit
  have hheur : estimate (c.obstaclev.length : Int) (indextox c.g.MAP_WIDTH it)
      (indextoy c.g.MAP_WIDTH it) c.endv = c.heur it := rfl
  unfold relax
  simp only [hcl, hbest, hheur]
  by_cases hclosed : cl = true
  · subst hclosed
    obtain ⟨b, _, hb1, hb2, _, _⟩ := (E.inv.closed it hcl).nbrs
    rw [hbest] at hb1
    cases hb1
    have hge : c.heur it + (sofar + 1) ≥ best := by omega
    rw [if_pos ⟨rfl, hge⟩]
    exact ⟨s, rfl, expanding_skip E it o hend ho (fun _ => ⟨best, hbest, hge⟩)⟩
  · have hfalse : cl = false := by
      cases cl
      · rfl
      · exact absurd rfl hclosed
    subst hfalse
    rw [if_neg (fun h => hclosed h.1)]
    by_cases hlt : c.heur it + (sofar + 1) < best
    · rw [if_pos hlt]
      obtain ⟨best2, hwr⟩ := wr_isSome s.best_est it (c.heur it + (sofar + 1)) hr.1 (by omega)
      simp only [hwr]
      exact ⟨_, rfl, expanding_update sq hl E it o best best2 hit hend ho hp hcl hbest hlt hwr⟩
    · rw [if_neg hlt]
      exact ⟨s, rfl, expanding_skip E it o hend ho (fun _ => ⟨best, hbest, by omega⟩)⟩

/-- The loop over the neighbours keeps the invariant; when it strikes an end point, the state
is the one reached so far with the link from the end point added. -/
theorem expand_inv {c : Call} {N : Int} {Pass : Int → Prop} {inv : List OpenPt → Prop}
    (sq : c.Square N) (hl : HeapLaws c.h inv) (pr : c.PassRule Pass)
    {sofar cur : Int} {adj : List Int} :
    ∀ (l : List Int) (done : Int → Prop) (s : Search), (∀ m ∈ l, m ∈ adj) →
      Expanding c Pass inv sofar cur adj done s →
      match expand c.g c.h c.endv c.ends c.obstaclev c.blocking cur (sofar + 1) l s with
      | .next s2 => Expanding c Pass inv sofar cur adj (fun m => done m ∨ m ∈ l) s2
      | .found sel s2 => sel ∈ c.ends ∧ sel ∈ adj ∧
          ∃ (done2 : Int → Prop) (s0 : Search), Expanding c Pass inv sofar cur adj done2 s0 ∧
            s2 = struck s0 sel cur
      | .fault => True
      | .diverge => True := by
  intro l
  induction l with
  | nil =>
    intro done s _ E
    rw [expand]
    simp only [List.not_mem_nil, or_false]
    exact E
  | cons it rest ih =>
    intro done s hsub E
    have hit : it ∈ adj := hsub it (List.mem_cons_self _ _)
    have hrest : ∀ m ∈ rest, m ∈ adj := fun m hm => hsub m (List.mem_cons_of_mem _ hm)
    have hdone : ∀ (d : Int → Prop) (m : Int), ((d m ∨ m = it) ∨ m ∈ rest) ↔
        (d m ∨ m ∈ it :: rest) := by
      intro d m
      rw [List.mem_cons]
      tauto
    have hC := E.inv.closed cur E.is_closed
    by_cases hmem : it ∈ c.ends
    · rw [expand, if_pos hmem]
      exact ⟨hmem, hit, done, s, E, rfl⟩
    · rw [expand, if_neg hmem]
      cases ho : rd c.obstaclev it with
      | none => trivial
      | some o =>
        dsimp only
        cases hrr : range_relief c.g s.follow c.obstaclev.length c.blocking cur it o with
        | none => trivial
        | some blocked =>
          dsimp only
          have hpass := range_relief_pass E.inv pr cur it o blocked hC.rooted ho hrr
          by_cases hz : blocked = 0
          · have hp : Pass it := hpass.mp hz
            obtain ⟨s2, hs2, E2⟩ := relax_inv sq hl E it o hit hmem ho hp
            simp only [if_pos hz, hs2]
            have := ih (fun m => done m ∨ m = it) s2 hrest E2
            revert this
            cases expand c.g c.h c.endv c.ends c.obstaclev c.blocking cur (sofar + 1) rest s2 with
            | next s3 => intro this; simpa only [hdone] using this
            | found sel s3 => intro this; exact this
            | fault => intro _; trivial
            | diverge => intro _; trivial
          · have hnp : ¬ Pass it := fun hp => hz (hpass.mpr hp)
            have E2 := expanding_skip E it o hmem ho (fun hp => absurd hp hnp)
            simp only [if_neg hz]
            have := ih (fun m => done m ∨ m = it) s hrest E2
            revert this
            cases expand c.g c.h c.endv c.ends c.obstaclev c.blocking cur (sofar + 1) rest s with
            | next s3 => intro this; simpa only [hdone] using this
            | found sel s3 => intro this; exact this
            | fault => intro _; trivial
            | diverge => intro _; trivial

theorem head_of_expanding {c : Call} {Pass : Int → Prop} {inv : List OpenPt → Prop}
    {sofar cur : Int} {adj : List Int} {done : Int → Prop} {s : Search}
    (E : Expanding c Pass inv sofar cur adj done s) (hall : ∀ m ∈ adj, done m) :
    Head c Pass inv (c.heur cur + sofar) s := by
  unfold Head
  refine { E.inv with closed := ?_ }
  intro n hn
  have hC := E.inv.closed n hn
  refine { hC with nbrs := ?_ }
  obtain ⟨b, adjn, hb1, hb2, hadj, hx⟩ := hC.nbrs
  refine ⟨b, adjn, hb1, hb2, hadj, ?_⟩
  intro m hm _
  apply hx m hm
  intro hnc
  subst hnc
  rw [E.table] at hadj
  cases hadj
  exact hall m hm

/-- An entry popped for a cell that is closed is dropped. -/
theorem pop_discard {c : Call} {Pass : Int → Prop} {inv : List OpenPt → Prop}
    (hl : HeapLaws c.h inv) {F : Int} {s : Search} (I : Head c Pass inv F s)
    (e : OpenPt) (q : List OpenPt) (hpop : c.h.pop s.openset = some (e, q))
    (hcl : rd s.closedset e.index = some true) :
    Head c Pass inv F { s with openset := q } := by
  unfold Head at I ⊢
  obtain ⟨hinv, hperm, _⟩ := hl.pop_some _ _ _ I.heap hpop
  have hsub : ∀ x, x ∈ q → x ∈ s.openset := fun x hx =>
    hperm.mem_iff.mpr (List.mem_cons_of_mem _ hx)
  refine { I with heap := hinv, entries := ?_, opened := ?_, links := ?_, closed := ?_ }
  · intro x hx
    have hq := I.entries x (hsub x hx)
    exact { hq with }
  · intro n p hnp
    have hL := I.links n p hnp
    exact { hL with }
  · intro n hn
    have hC := I.closed n hn
    exact { hC with }
  · intro n b hn hb hlt
    obtain ⟨w, hw, h1, h2⟩ := I.opened n b hn hb hlt
    refine ⟨w, ?_, h1, h2⟩
    rcases List.mem_cons.mp (hperm.mem_iff.mp hw) with h | h
    · subst h
      rw [h1, hn] at hcl
      cases hcl
    · exact h

/-- The entry popped for a cell that is not closed carries the best estimate of the cell,
and closing the cell starts its expansion. -/
theorem pop_expand {c : Call} {Pass : Int → Prop} {inv : List OpenPt → Prop}
    (hl : HeapLaws c.h inv) {F : Int} {s : Search} (I : Head c Pass inv F s)
    (e : OpenPt) (q : List OpenPt) (cl : List Bool) (adj : List Int)
    (hpop : c.h.pop s.openset = some (e, q))
    (hcl : rd s.closedset e.index = some false)
    (hwr : wr s.closedset e.index true = some cl)
    (hadj : rd c.g.ADJACENCY_LIST e.index = some adj) :
    Expanding c Pass inv e.sofar e.index adj (fun _ => False)
      { s with openset := q, closedset := cl } := by
  unfold Head at I
  obtain ⟨hinv, hperm, hmin⟩ := hl.pop_some _ _ _ I.heap hpop
  have he : e ∈ s.openset := hperm.mem_iff.mpr (List.mem_cons_self _ _)
  have hsub : ∀ x, x ∈ q → x ∈ s.openset := fun x hx =>
    hperm.mem_iff.mpr (List.mem_cons_of_mem _ hx)
  have hq := I.entries e he
  -- the entry carries the best estimate
  have hbest : rd s.best_est e.index = some (c.heur e.index + e.sofar) := by
    obtain ⟨b, hb, hle⟩ := hq.best_le
    rcases hq.small with ⟨h0, hst⟩ | hlt
    · have := I.start_best e.index hst
      rw [this, h0]; simp
    · obtain ⟨w, hw, h1, h2⟩ := I.opened e.index b hcl hb (by omega)
      have := hmin w hw
      have hest := hq.est_eq
      rw [hb]
      congr 1
      omega
  have hrdc : ∀ n, n ≠ e.index → rd cl n = rd s.closedset n :=
    fun n hn => rd_wr_ne _ _ _ _ _ hwr hn
  have hrdce : rd cl e.index = some true := rd_wr_same _ _ _ _ hwr
  have hclmono : ∀ n, rd s.closedset n = some true → rd cl n = some true := by
    intro n hn
    by_cases h : n = e.index
    · rw [h]; exact hrdce
    · rw [hrdc n h]; exact hn
  have hFle : F ≤ c.heur e.index + e.sofar := by
    have := hq.after
    have hest := hq.est_eq
    omega
  refine
    { inv :=
        { heap := hinv
          len_closed := by
            show cl.length = c.len
            rw [wr_length _ _ _ _ hwr]; exact I.len_closed
          len_best := I.len_best
          best_bounds := I.best_bounds
          start_best := I.start_best
          entries := ?_
          links := ?_
          closed := ?_
          opened := ?_ }
      sofar_nonneg := hq.sofar_nonneg
      is_closed := hrdce
      best_cur := hbest
      table := hadj }
  · intro x hx
    have hqx := I.entries x (hsub x hx)
    refine { hqx with after := ?_ }
    have := hmin x (hsub x hx)
    have hest := hq.est_eq
    omega
  · intro n p hnp
    have hL := I.links n p hnp
    exact { hL with closed := hclmono p hL.closed }
  · intro n hn
    change rd cl n = some true at hn
    by_cases hne : n = e.index
    · subst hne
      exact
        { lo := hq.lo
          hi := hq.hi
          rooted := hq.rooted
          not_end := hq.not_end
          nbrs := ⟨_, adj, hbest, Int.le_refl _, hadj, fun m _ hd => absurd (hd rfl) id⟩ }
    · rw [hrdc n hne] at hn
      have hC := I.closed n hn
      obtain ⟨b, adjn, hb1, hb2, hadjn, hx⟩ := hC.nbrs
      exact
        { lo := hC.lo
          hi := hC.hi
          rooted := hC.rooted
          not_end := hC.not_end
          nbrs := ⟨b, adjn, hb1, by omega, hadjn, fun m hm _ => hx m hm (fun _ => trivial)⟩ }
  · intro n b hn hb hlt
    change rd cl n = some false at hn
    have hne : n ≠ e.index := by
      intro h
      rw [h, hrdce] at hn
      cases hn
    rw [hrdc n hne] at hn
    obtain ⟨w, hw, h1, h2⟩ := I.opened n b hn hb hlt
    refine ⟨w, ?_, h1, h2⟩
    rcases List.mem_cons.mp (hperm.mem_iff.mp hw) with h | h
    · subst h
      exact absurd h1.symm hne
    · exact h

/-- How the main loop can end from a state that satisfies the invariant: an index outside a
vector, a trace that does not end, an empty open set, or an end point struck. -/
theorem search_trace {c : Call} {N : Int} {Pass : Int → Prop} {inv : List OpenPt → Prop}
    (sq : c.Square N) (hl : HeapLaws c.h inv) (pr : c.PassRule Pass) :
    ∀ (fuel : Nat) (s : Search) (F : Int), Head c Pass inv F s →
      search c.g c.h c.endv c.starts c.ends c.obstaclev c.blocking fuel s = .fault ∨
      search c.g c.h c.endv c.starts c.ends c.obstaclev c.blocking fuel s = .diverge ∨
      (search c.g c.h c.endv c.starts c.ends c.obstaclev c.blocking fuel s = .null .noPath ∧
        ∃ (F1 : Int) (s1 : Search), Head c Pass inv F1 s1 ∧ s1.openset = []) ∨
      Struck c Pass inv
        (search c.g c.h c.endv c.starts c.ends c.obstaclev c.blocking fuel s) := by
  intro fuel
  induction fuel with
  | zero =>
    intro s F _
    right; left
    rfl
  | succ fuel ih =>
    intro s F I
    rw [search]
    cases hpop : c.h.pop s.openset with
    | none =>
      right; right; left
      have hI := I
      unfold Head at hI
      exact ⟨rfl, F, s, I, hl.pop_none _ hI.heap hpop⟩
    | some eq =>
      obtain ⟨e, q⟩ := eq
      dsimp only
      cases hcl : rd s.closedset e.index with
      | none => left; rfl
      | some b =>
        cases b with
        | true =>
          dsimp only
          exact ih _ F (pop_discard hl I e q hpop hcl)
        | false =>
          dsimp only
          cases hwr : wr s.closedset e.index true with
          | none => left; rfl
          | some cl =>
            cases hadj : rd c.g.ADJACENCY_LIST e.index with
            | none => left; rfl
            | some adj =>
              dsimp only
              have E := pop_expand hl I e q cl adj hpop hcl hwr hadj
              have hx := expand_inv sq hl pr adj (fun _ => False) _ (fun m hm => hm) E
              revert hx
              cases hexp : expand c.g c.h c.endv c.ends c.obstaclev c.blocking e.index
                  (e.sofar + 1) adj { s with openset := q, closedset := cl } with
              | next s2 =>
                intro hx
                dsimp only
                exact ih s2 _ (head_of_expanding hx (fun m hm => Or.inr hm))
              | found sel s2 =>
                intro hx
                dsimp only
                right; right; right
                obtain ⟨hsel, hseladj, done2, s0, E0, hs2⟩ := hx
                exact ⟨F, s, e, q, adj, done2, s0, sel, I, hpop, E0, hsel, hseladj, by rw [hs2]; rfl⟩
              | fault => intro _; left; rfl
              | diverge => intro _; right; left; rfl

/-! ## The seeding loop establishes the invariant -/

theorem seed_seeded {c : Call} {N : Int} {inv : List OpenPt → Prop}
    (sq : c.Square N) (hl : HeapLaws c.h inv) :
    ∀ (rest pre : List (Int × Int)) (s s2 : Search), (∀ p ∈ rest, in_grid N N p) →
      Seeded c inv pre s →
      seed c.h c.g.MAP_WIDTH (c.obstaclev.length : Int) c.endv rest s = .ok s2 →
      Seeded c inv (pre ++ rest) s2 := by
  intro rest
  induction rest with
  | nil =>
    intro pre s s2 _ S hx
    rw [seed] at hx
    cases hx
    simpa using S
  | cons st rest ih =>
    intro pre s s2 hin S hx
    rw [seed] at hx
    have hst := hin st (List.mem_cons_self _ _)
    have hheur : estimate (c.obstaclev.length : Int) st.1 st.2 c.endv
        = c.heur (position_to_index c.g.MAP_WIDTH st.1 st.2) := (sq.heur_start st hst).symm
    by_cases hany : c.endv.any (fun e => decide (st.1 = e.1 ∧ st.2 = e.2)) = true
    · rw [if_pos hany] at hx
      cases hx
    · rw [if_neg hany] at hx
      have hnotend : st ∉ c.endv := fun h => hany ((any_eq_iff_mem st c.endv).mpr h)
      simp only [hheur] at hx
      cases hwr : wr s.best_est (position_to_index c.g.MAP_WIDTH st.1 st.2)
          (c.heur (position_to_index c.g.MAP_WIDTH st.1 st.2)) with
      | none =>
        rw [hwr] at hx
        cases hx
      | some best2 =>
        rw [hwr] at hx
        dsimp only at hx
        have hpush := hl.push s.openset
          { est := c.heur (position_to_index c.g.MAP_WIDTH st.1 st.2), sofar := 0,
            index := position_to_index c.g.MAP_WIDTH st.1 st.2 } S.heap
        have hrd : ∀ n, n ≠ position_to_index c.g.MAP_WIDTH st.1 st.2 →
            rd best2 n = rd s.best_est n := fun n hn => rd_wr_ne _ _ _ _ _ hwr hn
        have hrdst : rd best2 (position_to_index c.g.MAP_WIDTH st.1 st.2)
            = some (c.heur (position_to_index c.g.MAP_WIDTH st.1 st.2)) :=
          rd_wr_same _ _ _ _ hwr
        have S2 : Seeded c inv (pre ++ [st])
            { s with best_est := best2
                     openset := c.h.push s.openset
                       { est := c.heur (position_to_index c.g.MAP_WIDTH st.1 st.2), sofar := 0,
                         index := position_to_index c.g.MAP_WIDTH st.1 st.2 } } := by
          refine
            { heap := hpush.1
              closedset := S.closedset
              follow := S.follow
              len_best := by
                show best2.length = c.len
                rw [wr_length _ _ _ _ hwr]; exact S.len_best
              best := ?_
              entries := ?_
              starts := ?_ }
          · intro n b hb
            change rd best2 n = some b at hb
            by_cases hn : n = position_to_index c.g.MAP_WIDTH st.1 st.2
            · subst hn
              rw [hrdst] at hb
              cases hb
              right
              exact ⟨by simp, rfl⟩
            · rw [hrd n hn] at hb
              rcases S.best n b hb with h | ⟨h1, h2⟩
              · exact Or.inl h
              · right
                refine ⟨?_, h2⟩
                rw [List.map_append]
                exact List.mem_append_left _ h1
          · intro e he
            change e ∈ c.h.push s.openset _ at he
            rcases List.mem_cons.mp (hpush.2.mem_iff.mp he) with h | h
            · subst h
              exact ⟨by simp, rfl, rfl⟩
            · obtain ⟨h1, h2, h3⟩ := S.entries e h
              refine ⟨?_, h2, h3⟩
              rw [List.map_append]
              exact List.mem_append_left _ h1
          · intro p hp
            show _ ∧ rd best2 _ = _ ∧ ∃ e ∈ c.h.push s.openset _, _
            rcases List.mem_append.mp hp with h | h
            · obtain ⟨h1, h2, e, he, h3⟩ := S.starts p h
              refine ⟨h1, ?_, e, hpush.2.mem_iff.mpr (List.mem_cons_of_mem _ he), h3⟩
              by_cases hn : position_to_index c.g.MAP_WIDTH p.1 p.2
                  = position_to_index c.g.MAP_WIDTH st.1 st.2
              · rw [hn]; exact hrdst
              · rw [hrd _ hn]; exact h2
            · have hpst : p = st := by simpa using h
              subst hpst
              exact ⟨hnotend, hrdst, _, hpush.2.mem_iff.mpr (List.mem_cons_self _ _),
                rfl, rfl, rfl⟩
        have := ih (pre ++ [st]) _ s2 (fun p hp => hin p (List.mem_cons_of_mem _ hp)) S2 hx
        simpa using this

theorem seeded_initial (c : Call) {inv : List OpenPt → Prop} (hl : HeapLaws c.h inv) :
    Seeded c inv []
      { openset := [], closedset := List.replicate c.obstaclev.length false,
        follow := fun _ => none,
        best_est := List.replicate c.obstaclev.length (c.obstaclev.length : Int) } :=
  { heap := hl.empty
    closedset := rfl
    follow := fun _ => rfl
    len_best := by simp [Call.len]
    best := fun n b hb => Or.inl (rd_replicate _ _ _ _ hb)
    entries := fun e he => by cases he
    starts := fun p hp => by cases hp }

theorem head_of_seeded {c : Call} {N : Int} {Pass : Int → Prop} {inv : List OpenPt → Prop}
    (sq : c.Square N) {s : Search} (S : Seeded c inv c.startv s) : Head c Pass inv 0 s := by
  have hidx : ∀ n, n ∈ c.startv.map (fun p => position_to_index c.g.MAP_WIDTH p.1 p.2) →
      ∃ p ∈ c.startv, position_to_index c.g.MAP_WIDTH p.1 p.2 = n := by
    intro n hn
    rw [List.mem_map] at hn
    exact hn
  unfold Head
  refine
    { heap := S.heap
      len_closed := by rw [S.closedset]; simp
      len_best := S.len_best
      best_bounds := ?_
      start_best := ?_
      entries := ?_
      links := ?_
      closed := ?_
      opened := ?_ }
  · intro n b hb
    rcases S.best n b hb with h | ⟨_, h⟩
    · rw [h]; exact ⟨c.heur_le_len n, Int.le_refl _⟩
    · rw [h]; exact ⟨Int.le_refl _, c.heur_le_len n⟩
  · intro st hst
    obtain ⟨p, hp, hpe⟩ := hidx st hst
    rw [← hpe]
    exact (S.starts p hp).2.1
  · intro e he
    obtain ⟨h1, h2, h3⟩ := S.entries e he
    obtain ⟨p, hp, hpe⟩ := hidx _ h1
    have hr := sq.index_range p (sq.starts_in p hp)
    rw [← sq.width, hpe] at hr
    exact
      { lo := hr.1
        hi := hr.2
        est_eq := h3
        sofar_nonneg := by omega
        best_le := ⟨_, by rw [← hpe]; exact (S.starts p hp).2.1, by rw [hpe]; omega⟩
        rooted := Or.inl h1
        not_end := by
          intro hend
          obtain ⟨q, hq, hqg, hqe⟩ := sq.mem_ends _ hend
          have hpg := sq.starts_in p hp
          rw [← hpe, sq.width] at hqe
          have hx1 := indextox_position N _ _ hqg.1 hqg.2.1 hqg.2.2.1
          have hy1 := indextoy_position N _ _ hqg.1 hqg.2.1 hqg.2.2.1
          rw [hqe, indextox_position N _ _ hpg.1 hpg.2.1 hpg.2.2.1] at hx1
          rw [hqe, indextoy_position N _ _ hpg.1 hpg.2.1 hpg.2.2.1] at hy1
          have : p = q := Prod.ext hx1 hy1
          rw [this] at hp
          exact (S.starts q hp).1 hq
        small := Or.inl ⟨h2, h1⟩
        after := by
          have := c.heur_nonneg e.index
          omega }
  · intro n p hnp
    rw [S.follow n] at hnp
    cases hnp
  · intro n hn
    rw [S.closedset] at hn
    have := rd_replicate _ _ _ _ hn
    cases this
  · intro n b _ hb hlt
    rcases S.best n b hb with h | ⟨h1, h2⟩
    · omega
    · obtain ⟨p, hp, hpe⟩ := hidx n h1
      obtain ⟨_, _, e, he, h3, h4, h5⟩ := S.starts p hp
      exact ⟨e, he, by rw [h3, hpe], by rw [h4, h5, hpe, h2]; omega⟩

/-- How a call of `astar` on a square grid can end. -/
theorem astar_trace {c : Call} {N : Int} {Pass : Int → Prop} {inv : List OpenPt → Prop}
    (sq : c.Square N) (hl : HeapLaws c.h inv) (pr : c.PassRule Pass) :
    c.run = .null .startInEnds ∨ c.run = .fault ∨ c.run = .diverge ∨
      ((∀ p ∈ c.startv, p ∉ c.endv) ∧
        ((c.run = .null .noPath ∧
            ∃ (F1 : Int) (s1 : Search), Head c Pass inv F1 s1 ∧ s1.openset = []) ∨
          Struck c Pass inv c.run)) := by
  unfold Call.run astar
  dsimp only
  cases hseed : seed c.h c.g.MAP_WIDTH (c.obstaclev.length : Int) c.endv c.startv
      { openset := [], closedset := List.replicate c.obstaclev.length false,
        follow := fun _ => none,
        best_est := List.replicate c.obstaclev.length (c.obstaclev.length : Int) } with
  | error o =>
    dsimp only
    rcases seed_error _ _ _ _ _ _ _ hseed with h | h
    · left; exact h
    · right; left; exact h
  | ok s0 =>
    dsimp only
    have S := seed_seeded sq hl c.startv [] _ s0 sq.starts_in (seeded_initial c hl) hseed
    rw [List.nil_append] at S
    have hdis : ∀ p ∈ c.startv, p ∉ c.endv := fun p hp => (S.starts p hp).1
    have H : Head c Pass inv 0 s0 := head_of_seeded sq S
    rcases search_trace sq hl pr (search_fuel c.startv c.obstaclev.length) s0 0 H
      with h | h | h | h
    · right; left; exact h
    · right; right; left; exact h
    · right; right; right; exact ⟨hdis, Or.inl h⟩
    · right; right; right; exact ⟨hdis, Or.inr h⟩

/-! ## The route a non-null result describes -/

theorem pairs_flatten (W : Int) (l : List Int) :
    pairs ((l.map (fun p => [indextox W p, indextoy W p])).flatten ++ [-1])
      = l.map (cell_at W) := by
  induction l with
  | nil => rfl
  | cons a l ih =>
    simp only [List.map_cons, List.flatten_cons, List.cons_append, List.nil_append, pairs]
    exact congrArg (fun t => (indextox W a, indextoy W a) :: t) ih

theorem pairs_pack (W : Int) (l : List Int) : pairs (pack W l) = l.reverse.map (cell_at W) := by
  unfold pack
  exact pairs_flatten W l.reverse

/-- Along the trace from a closed cell every step is a predecessor link of the state before
the end point was struck, and the trace has at most `best - estimate` steps. -/
theorem chain_links {c : Call} {Pass : Int → Prop} {inv : List OpenPt → Prop}
    {sofar cur : Int} {adj : List Int} {done : Int → Prop} {s0 : Search}
    (E : Expanding c Pass inv sofar cur adj done s0) (sel : Int) (hsel : sel ∈ c.ends) :
    ∀ (l : List Int) (x bx : Int), rd s0.closedset x = some true →
      rd s0.best_est x = some bx →
      List.Chain (fun a b => a ∉ c.starts ∧ follow_set s0.follow sel cur a = some b) x l →
      List.Chain (fun a b => Link c Pass s0 a b) x l ∧
        (∀ y ∈ l, rd s0.closedset y = some true) ∧ (l.length : Int) ≤ bx - c.heur x := by
  intro l
  induction l with
  | nil =>
    intro x bx _ hbx _
    refine ⟨List.Chain.nil, ⟨fun y hy => absurd hy (List.not_mem_nil y), ?_⟩⟩
    have := (E.inv.best_bounds x bx hbx).1
    simp only [List.length_nil, Nat.cast_zero]
    omega
  | cons y l ih =>
    intro x bx hx hbx hch
    rw [List.chain_cons] at hch
    obtain ⟨⟨_, hfol⟩, hrest⟩ := hch
    have hxsel : x ≠ sel := by
      intro h
      rw [h] at hx
      exact (E.inv.closed sel hx).not_end hsel
    unfold follow_set at hfol
    rw [if_neg hxsel] at hfol
    have hL := E.inv.links x y hfol
    obtain ⟨bn, bp, h1, h2, h3⟩ := hL.depth
    rw [hbx] at h1
    cases h1
    obtain ⟨ihc, ihcl, ihlen⟩ := ih y bp hL.closed h2 hrest
    refine ⟨List.Chain.cons hL ihc, ?_, ?_⟩
    · intro z hz
      rcases List.mem_cons.mp hz with h | h
      · rw [h]; exact hL.closed
      · exact ihcl z h
    · simp only [List.length_cons, Nat.cast_add, Nat.cast_one]
      omega

theorem chain_has_next {α : Type} (R : α → α → Prop) :
    ∀ (l : List α) (x : α), List.Chain R x l → ∀ a ∈ (x :: l).dropLast, ∃ b, R a b := by
  intro l
  induction l with
  | nil => intro x _ a ha; simp at ha
  | cons y l ih =>
    intro x hch a ha
    rw [List.chain_cons] at hch
    rw [List.dropLast_cons₂] at ha
    rcases List.mem_cons.mp ha with h | h
    · rw [h]; exact ⟨y, hch.1⟩
    · exact ih y hch.2 a h

theorem Call.Square.starts_ends_disjoint {c : Call} {N : Int} (sq : c.Square N)
    (hdis : ∀ p ∈ c.startv, p ∉ c.endv) (n : Int) (hs : n ∈ c.starts) : n ∉ c.ends := by
  intro he
  obtain ⟨p, hp, hpg, hpe⟩ := sq.mem_starts n hs
  obtain ⟨q, hq, hqg, hqe⟩ := sq.mem_ends n he
  have hx1 := indextox_position N _ _ hqg.1 hqg.2.1 hqg.2.2.1
  have hy1 := indextoy_position N _ _ hqg.1 hqg.2.1 hqg.2.2.1
  rw [hqe, ← hpe, indextox_position N _ _ hpg.1 hpg.2.1 hpg.2.2.1] at hx1
  rw [hqe, ← hpe, indextoy_position N _ _ hpg.1 hpg.2.1 hpg.2.2.1] at hy1
  have : p = q := Prod.ext hx1 hy1
  rw [this] at hp
  exact hdis q hp hq

/-- A cell listed as a neighbour of a cell of the grid is 4-adjacent to it. -/
theorem Call.Square.adjacent_of_listed {c : Call} {N : Int} (sq : c.Square N) (a b : Int)
    (h0 : 0 ≤ b) (h1 : b < c.len) (adjb : List Int)
    (hadj : rd c.g.ADJACENCY_LIST b = some adjb) (ha : a ∈ adjb) :
    adjacent4 (cell_at N b) (cell_at N a) := by
  rw [sq.table_at b h0 h1] at hadj
  cases hadj
  have := adjacent_cells_distance N _ _ a ha
  unfold adjacent4 cell_at
  rw [distance_comm]
  exact this

theorem Call.Square.cell_of_start {c : Call} {N : Int} (sq : c.Square N) (n : Int)
    (h : n ∈ c.starts) : cell_at N n ∈ c.startv := by
  obtain ⟨p, hp, hpg, hpe⟩ := sq.mem_starts n h
  rw [← hpe]
  unfold cell_at
  rw [indextox_position N _ _ hpg.1 hpg.2.1 hpg.2.2.1,
    indextoy_position N _ _ hpg.1 hpg.2.1 hpg.2.2.1]
  exact hp

theorem Call.Square.cell_of_end {c : Call} {N : Int} (sq : c.Square N) (n : Int)
    (h : n ∈ c.ends) : cell_at N n ∈ c.endv := by
  obtain ⟨p, hp, hpg, hpe⟩ := sq.mem_ends n h
  rw [← hpe]
  unfold cell_at
  rw [indextox_position N _ _ hpg.1 hpg.2.1 hpg.2.2.1,
    indextoy_position N _ _ hpg.1 hpg.2.1 hpg.2.2.1]
  exact hp

theorem Call.Square.end_range {c : Call} {N : Int} (sq : c.Square N) (n : Int)
    (h : n ∈ c.ends) : 0 ≤ n ∧ n < c.len := by
  obtain ⟨p, _, hpg, hpe⟩ := sq.mem_ends n h
  rw [← hpe]
  exact sq.index_range p hpg

/-- The cells a non-null result lists, after its first pair, form a route from a start to a
goal on which every cell strictly between the two ends passes; the route has at most
`sofar + 2` cells, `sofar` being the cost of the entry that was being expanded. -/
theorem reconstruct_route {c : Call} {N : Int} {Pass : Int → Prop} {inv : List OpenPt → Prop}
    (sq : c.Square N) (hdis : ∀ p ∈ c.startv, p ∉ c.endv)
    {sofar cur : Int} {adj : List Int} {done : Int → Prop} {s0 : Search}
    (E : Expanding c Pass inv sofar cur adj done s0) (sel : Int) (hsel : sel ∈ c.ends)
    (hadj : sel ∈ adj) (result : List Int)
    (hres : reconstruct c.g c.starts c.len sel (struck s0 sel cur) = .path result) :
    ∃ r : List (Int × Int), is_route N N c.startv c.endv r ∧
      (∀ p ∈ inner_cells r, Pass (position_to_index N p.1 p.2)) ∧
      (∃ a, r.head? = some a ∧ pairs result = a :: r) ∧
      (r.length : Int) ≤ sofar + 2 := by
  obtain ⟨ext, fp, hfp, hchain, hlast, hresult⟩ := reconstruct_path _ _ _ _ _ _ hres
  have hselstart : sel ∉ c.starts := fun h => sq.starts_ends_disjoint hdis sel h hsel
  have hCcur := E.inv.closed cur E.is_closed
  cases ext with
  | nil =>
    simp only [List.getLast?_singleton, Option.some.injEq] at hlast
    rw [hlast] at hselstart
    exact absurd hfp hselstart
  | cons y ext2 =>
    rw [List.chain_cons] at hchain
    obtain ⟨⟨_, hfol⟩, hrest⟩ := hchain
    have hy : y = cur := by
      change follow_set s0.follow sel cur sel = some y at hfol
      unfold follow_set at hfol
      rw [if_pos rfl] at hfol
      cases hfol
      rfl
    subst hy
    obtain ⟨hlinks, hclosed, hlen⟩ := chain_links E sel hsel ext2 y _ E.is_closed E.best_cur hrest
    -- every index on the trace is a cell of the grid
    have hrange : ∀ n ∈ sel :: y :: ext2, 0 ≤ n ∧ n < c.len := by
      intro n hn
      rcases List.mem_cons.mp hn with h | h
      · rw [h]; exact sq.end_range sel hsel
      · rcases List.mem_cons.mp h with h2 | h2
        · rw [h2]; exact ⟨hCcur.lo, hCcur.hi⟩
        · have := E.inv.closed n (hclosed n h2)
          exact ⟨this.lo, this.hi⟩
    refine ⟨((sel :: y :: ext2).map (cell_at N)).reverse, ⟨?_, ?_, ?_, ?_⟩, ?_, ?_, ?_⟩
    · intro p hp
      rw [List.mem_reverse, List.mem_map] at hp
      obtain ⟨n, hn, hnp⟩ := hp
      rw [← hnp]
      exact (sq.coords n (hrange n hn).1 (hrange n hn).2).1
    · rw [List.chain'_reverse, List.chain'_map, List.chain'_cons]
      constructor
      · exact sq.adjacent_of_listed sel y hCcur.lo hCcur.hi adj E.table hadj
      · show List.Chain (fun a b => flip adjacent4 (cell_at N a) (cell_at N b)) y ext2
        refine List.Chain.imp ?_ hlinks
        intro a b hL
        obtain ⟨adjb, hadjb, hab⟩ := hL.adjacent
        have hCb := E.inv.closed b hL.closed
        exact sq.adjacent_of_listed a b hCb.lo hCb.hi adjb hadjb hab
    · refine ⟨cell_at N fp, sq.cell_of_start fp hfp, ?_⟩
      rw [List.head?_reverse, List.getLast?_map, hlast]
      rfl
    · refine ⟨cell_at N sel, sq.cell_of_end sel hsel, ?_⟩
      rw [List.getLast?_reverse]
      rfl
    · intro p hp
      unfold inner_cells at hp
      rw [List.tail_reverse, List.dropLast_reverse, List.mem_reverse, List.tail_dropLast,
        ← List.map_tail, ← List.map_dropLast, List.mem_map] at hp
      obtain ⟨a, ha, hap⟩ := hp
      simp only [List.tail_cons] at ha
      obtain ⟨b, hL⟩ := chain_has_next _ ext2 y hlinks a ha
      have hr := hrange a (List.mem_cons_of_mem _ (List.mem_of_mem_dropLast ha))
      rw [← hap]
      unfold cell_at
      rw [(sq.coords a hr.1 hr.2).2]
      exact hL.pass
    · refine ⟨cell_at N fp, ?_, ?_⟩
      · rw [List.head?_reverse, List.getLast?_map, hlast]
        rfl
      · rw [hresult, pairs_pack, sq.width, List.reverse_append, List.map_append]
        simp only [List.reverse_cons, List.reverse_nil, List.nil_append, List.map_cons,
          List.map_nil, List.singleton_append, List.map_append, List.reverse_append,
          List.map_reverse]
    · simp only [List.length_reverse, List.length_map, List.length_cons, Nat.cast_add,
        Nat.cast_one]
      omega

/-! ## The frontier: a cell of a route that is open with a small estimate -/

theorem chain_distance :
    ∀ (l : List (Int × Int)) (p e : Int × Int), List.Chain adjacent4 p l →
      (p :: l).getLast? = some e → distance p.1 p.2 e.1 e.2 ≤ l.length := by
  intro l
  induction l with
  | nil =>
    intro p e _ hlast
    simp only [List.getLast?_singleton, Option.some.injEq] at hlast
    rw [hlast]
    unfold distance
    simp
  | cons q l ih =>
    intro p e hch hlast
    rw [List.chain_cons] at hch
    rw [List.getLast?_cons_cons] at hlast
    have h1 := ih q e hch.2 hlast
    have h2 := distance_triangle p.1 p.2 q.1 q.2 e.1 e.2
    have h3 : distance p.1 p.2 q.1 q.2 = 1 := hch.1
    simp only [List.length_cons, Nat.cast_add, Nat.cast_one]
    omega

/-- Along a route whose inner cells pass, from a cell whose best estimate is at most `j` plus
its estimate, there is a cell that is not closed and whose best estimate is at most `j` plus
the number of steps left. -/
theorem frontier_walk {c : Call} {N : Int} {Pass : Int → Prop} {inv : List OpenPt → Prop}
    {F : Int} {s : Search} (sq : c.Square N) (H : Head c Pass inv F s) :
    ∀ (l : List (Int × Int)) (p e : Int × Int) (j : Int), List.Chain adjacent4 p l →
      (∀ q ∈ p :: l, in_grid N N q) → (p :: l).getLast? = some e → e ∈ c.endv → l ≠ [] →
      (∀ q ∈ l.dropLast, Pass (position_to_index N q.1 q.2)) →
      (∃ b, rd s.best_est (position_to_index N p.1 p.2) = some b ∧
        b ≤ j + c.heur (position_to_index N p.1 p.2)) →
      ∃ (q : Int × Int) (b : Int), rd s.closedset (position_to_index N q.1 q.2) = some false ∧
        rd s.best_est (position_to_index N q.1 q.2) = some b ∧ b ≤ j + l.length := by
  intro l
  induction l with
  | nil => intro p e j _ _ _ _ hne; exact absurd rfl hne
  | cons p1 l ih =>
    intro p e j hch hgrid hlast he _ hpass hbest
    unfold Head at H
    obtain ⟨b, hb, hble⟩ := hbest
    have hpg := hgrid p (List.mem_cons_self _ _)
    have hp1g := hgrid p1 (List.mem_cons_of_mem _ (List.mem_cons_self _ _))
    have hr := sq.index_range p hpg
    have hheur : c.heur (position_to_index N p.1 p.2) ≤ ((p1 :: l).length : Int) :=
      Int.le_trans (sq.heur_le_dist p e hpg he) (chain_distance _ p e hch hlast)
    obtain ⟨cb, hcb⟩ := rd_of_range s.closedset (position_to_index N p.1 p.2) hr.1
      (by rw [H.len_closed]; exact hr.2)
    cases cb with
    | false => exact ⟨p, b, hcb, hb, by omega⟩
    | true =>
      rw [List.chain_cons] at hch
      have hC := H.closed _ hcb
      obtain ⟨b0, adjp, hb0, _, hadjp, hall⟩ := hC.nbrs
      rw [hb] at hb0
      cases hb0
      have htab := sq.table _ _ hpg.1 hpg.2.1 hpg.2.2.1 hpg.2.2.2
      rw [hadjp] at htab
      cases htab
      have hmem : position_to_index N p1.1 p1.2 ∈ adjacent_cells N N p.1 p.2 :=
        adjacent_cells_of_distance N p.1 p.2 p1.1 p1.2 hpg.1 hpg.2.1 hpg.2.2.1 hpg.2.2.2
          hp1g.1 hp1g.2.1 hp1g.2.2.1 hp1g.2.2.2 hch.1
      obtain ⟨hnotend, _, hrelax⟩ := hall _ hmem (fun _ => trivial)
      rw [List.getLast?_cons_cons] at hlast
      have hl : l ≠ [] := by
        intro hnil
        rw [hnil] at hlast
        simp only [List.getLast?_singleton, Option.some.injEq] at hlast
        apply hnotend
        unfold Call.ends
        rw [List.mem_map]
        exact ⟨e, he, by rw [sq.width, hlast]⟩
      have hp1pass : Pass (position_to_index N p1.1 p1.2) := by
        apply hpass
        rw [List.dropLast_cons_of_ne_nil hl]
        exact List.mem_cons_self _ _
      obtain ⟨b1, hb1, hb1le⟩ := hrelax hp1pass
      have := ih p1 e (j + 1) hch.2 (fun q hq => hgrid q (List.mem_cons_of_mem _ hq)) hlast he hl
        (fun q hq => hpass q (by
          rw [List.dropLast_cons_of_ne_nil hl]
          exact List.mem_cons_of_mem _ hq))
        ⟨b1, hb1, by omega⟩
      obtain ⟨q, bq, h1, h2, h3⟩ := this
      refine ⟨q, bq, h1, h2, ?_⟩
      simp only [List.length_cons, Nat.cast_add, Nat.cast_one]
      omega

/-- At the head of the main loop, a route from a start to a goal whose inner cells pass has a
cell that is not closed and whose best estimate is at most the number of steps of the
route. -/
theorem frontier {c : Call} {N : Int} {Pass : Int → Prop} {inv : List OpenPt → Prop}
    {F : Int} {s : Search} (sq : c.Square N) (H : Head c Pass inv F s)
    (hdis : ∀ p ∈ c.startv, p ∉ c.endv)
    (r : List (Int × Int)) (hr : is_route N N c.startv c.endv r)
    (hpass : ∀ p ∈ inner_cells r, Pass (position_to_index N p.1 p.2)) :
    ∃ (q : Int × Int) (b : Int), rd s.closedset (position_to_index N q.1 q.2) = some false ∧
      rd s.best_est (position_to_index N q.1 q.2) = some b ∧ b + 1 ≤ r.length := by
  obtain ⟨hgrid, hchain, ⟨a, ha, hhead⟩, ⟨e, he, hlast⟩⟩ := hr
  cases r with
  | nil => cases hhead
  | cons p l =>
    simp only [List.head?_cons, Option.some.injEq] at hhead
    subst hhead
    have hl : l ≠ [] := by
      intro hnil
      rw [hnil] at hlast
      simp only [List.getLast?_singleton, Option.some.injEq] at hlast
      rw [hlast] at ha
      exact hdis e ha he
    have hstart : rd s.best_est (position_to_index N p.1 p.2)
        = some (c.heur (position_to_index N p.1 p.2)) := by
      have hH := H
      unfold Head at hH
      apply hH.start_best
      unfold Call.starts
      rw [List.mem_map]
      exact ⟨p, ha, by rw [sq.width]⟩
    obtain ⟨q, b, h1, h2, h3⟩ := frontier_walk sq H l p e 0 hchain hgrid hlast he hl
      (fun q hq => hpass q hq) ⟨_, hstart, by omega⟩
    refine ⟨q, b, h1, h2, ?_⟩
    simp only [List.length_cons, Nat.cast_add, Nat.cast_one]
    omega

/-! ## Calls after `init_astar` -/

theorem init_layers_fold (v : Int) (l : List Nat) :
    ∀ (ld : Nat → Int) (i : Nat),
      l.foldl (fun ld i => Function.update ld i v) ld i = if i ∈ l then v else ld i := by
  induction l with
  | nil => intro ld i; simp
  | cons a l ih =>
    intro ld i
    rw [List.foldl_cons, ih]
    by_cases hil : i ∈ l
    · simp [hil]
    · by_cases hia : i = a
      · subst hia
        simp [hil]
      · simp [hil, hia, Function.update_noteq hia]

/-- After `init_astar` every single-bit layer has the unlimited range. -/
theorem unlimited_init_astar (g0 : Globals) (W H : Int) : unlimited (init_astar g0 W H) := by
  intro i hi
  show init_layers g0.LAYER_DISTANCE (W * H) i = W * H
  unfold init_layers
  rw [init_layers_fold, if_pos hi]

theorem relief_fold_unlimited (g : Globals) (start n : Int) (l : List Nat)
    (hl : ∀ i ∈ l, g.LAYER_DISTANCE i = g.MAP_WIDTH * g.MAP_HEIGHT) :
    ∀ b : Nat, l.foldl (fun blocked i =>
        if g.LAYER_DISTANCE i ≠ g.MAP_WIDTH * g.MAP_HEIGHT ∧
            indexdistance g.MAP_WIDTH start n > g.LAYER_DISTANCE i then
          blocked &&& lnot64 i
        else blocked) b = b := by
  induction l with
  | nil => intro b; rfl
  | cons i l ih =>
    intro b
    rw [List.foldl_cons]
    have h1 := hl i (List.mem_cons_self _ _)
    rw [if_neg (fun h => h.1 h1)]
    exact ih (fun j hj => hl j (List.mem_cons_of_mem _ hj)) b

/-- With unlimited ranges the layer loop clears nothing. -/
theorem relief_unlimited (g : Globals) (hu : unlimited g) (start n : Int) (b : Nat) :
    relief g start n b = b :=
  relief_fold_unlimited g start n LAYER_BITS hu b

/-- A call after `init_astar(N, N)`, possibly followed by changes of the layer ranges, with a
bitmap of `N * N` entries and starts and goals inside the grid. -/
theorem square_of_init (g0 g : Globals) (N : Int) (h : HeapOps) (startv endv : List (Int × Int))
    (obstaclev : List Nat) (blocking : Nat) (hN : 1 ≤ N)
    (hw : g.MAP_WIDTH = N) (ht : g.ADJACENCY_LIST = (init_astar g0 N N).ADJACENCY_LIST)
    (hlen : (obstaclev.length : Int) = N * N)
    (hs : ∀ p ∈ startv, in_grid N N p) (he : ∀ p ∈ endv, in_grid N N p) :
    Call.Square { g := g, h := h, startv := startv, endv := endv, obstaclev := obstaclev,
                  blocking := blocking } N :=
  { side := hN
    width := hw
    table := by
      intro x y hx hxN hy hyN
      show rd g.ADJACENCY_LIST _ = _
      rw [ht]
      exact (init_astar_table g0 N N (by omega) (by omega)).2 x y hx hxN hy hyN
    bitmap := hlen
    starts_in := hs
    ends_in := he }

/-- With unlimited ranges a cell passes exactly when the mask selects none of its bits. -/
theorem pass_rule_unlimited (c : Call) (hu : unlimited c.g) :
    c.PassRule (fun n => ∃ o, rd c.obstaclev n = some o ∧ o &&& c.blocking = 0) :=
  { relieved := by
      intro st _ n o ho
      rw [relief_unlimited c.g hu]
      constructor
      · intro h; exact ⟨o, ho, h⟩
      · rintro ⟨o2, ho2, h⟩
        rw [ho] at ho2
        cases ho2
        exact h
    free := fun n o ho h => ⟨o, ho, h⟩ }

theorem obstacle_bits_of_pass (W : Int) (obstaclev : List Nat) (blocking : Nat) (p : Int × Int)
    (h : ∃ o, rd obstaclev (position_to_index W p.1 p.2) = some o ∧ o &&& blocking = 0) :
    obstacle_bits W obstaclev blocking p = 0 := by
  obtain ⟨o, ho, hz⟩ := h
  unfold obstacle_bits
  rw [ho]
  exact hz

theorem pass_of_obstacle_bits {c : Call} {N : Int} (sq : c.Square N) (p : Int × Int)
    (hp : in_grid N N p) (hz : obstacle_bits N c.obstaclev c.blocking p = 0) :
    ∃ o, rd c.obstaclev (position_to_index N p.1 p.2) = some o ∧ o &&& c.blocking = 0 := by
  have hr := sq.index_range p hp
  obtain ⟨o, ho⟩ := rd_of_range c.obstaclev (position_to_index N p.1 p.2) hr.1 hr.2
  refine ⟨o, ho, ?_⟩
  unfold obstacle_bits at hz
  rw [ho] at hz
  exact hz

theorem mem_of_mem_inner_cells (r : List (Int × Int)) (p : Int × Int) (h : p ∈ inner_cells r) :
    p ∈ r :=
  List.mem_of_mem_tail (List.mem_of_mem_dropLast h)

/-- The entry that is being expanded when an end point is struck has a cost below the number
of steps of any route whose inner cells pass. -/
theorem struck_cost_le {c : Call} {N : Int} {Pass : Int → Prop} {inv : List OpenPt → Prop}
    (sq : c.Square N) (hl : HeapLaws c.h inv) (hdis : ∀ p ∈ c.startv, p ∉ c.endv)
    {F : Int} {s1 : Search} (H : Head c Pass inv F s1) (e : OpenPt) (q : List OpenPt)
    (hpop : c.h.pop s1.openset = some (e, q))
    (r : List (Int × Int)) (hr : is_route N N c.startv c.endv r)
    (hpass : ∀ p ∈ inner_cells r, Pass (position_to_index N p.1 p.2)) :
    e.sofar + 2 ≤ r.length := by
  have hH := H
  unfold Head at hH
  obtain ⟨_, hperm, hmin⟩ := hl.pop_some _ _ _ hH.heap hpop
  have he : e ∈ s1.openset := hperm.mem_iff.mpr (List.mem_cons_self _ _)
  have hq := hH.entries e he
  have hpos := sq.heur_pos e.index hq.lo hq.hi hq.not_end
  have hest := hq.est_eq
  obtain ⟨x, b, hx1, hx2, hx3⟩ := frontier sq H hdis r hr hpass
  by_cases hlen : (r.length : Int) ≤ c.len
  · obtain ⟨w, hw, _, hw2⟩ := hH.opened _ b hx1 hx2 (by omega)
    have := hmin w hw
    omega
  · rcases hq.small with ⟨h0, _⟩ | hlt
    · have := sq.len_pos
      omega
    · omega

/-- C1. Shortest path: after `init_astar(N, N)` (all layer ranges unlimited), with a lawful
priority queue, a bitmap of `N * N` entries, and starts and goals inside the grid, if `astar`
returns a path then the number of distinct cells among its coordinate pairs is at most the
number of cells of any 4-connected route inside the grid that begins at a provided start,
ends at a provided goal, and has no obstacle bit selected by the mask on the cells strictly
between its two ends. -/
theorem astar_shortest_path (g0 : Globals) (N : Int) (h : HeapOps)
    (startv endv : List (Int × Int)) (obstaclev : List Nat) (blocking : Nat)
    (result : List Int) (r : List (Int × Int))
    (hh : h.Lawful) (hN : 1 ≤ N) (hlen : (obstaclev.length : Int) = N * N)
    (hs : ∀ p ∈ startv, in_grid N N p) (he : ∀ p ∈ endv, in_grid N N p)
    (hres : astar (init_astar g0 N N) h startv endv obstaclev blocking = .path result)
    (hr : is_route N N startv endv r)
    (hfree : ∀ p ∈ inner_cells r, obstacle_bits N obstaclev blocking p = 0) :
    (pairs result).dedup.length ≤ r.length := by
  obtain ⟨inv, hl⟩ := hh
  have sq := square_of_init g0 (init_astar g0 N N) N h startv endv obstaclev blocking hN rfl rfl
    hlen hs he
  have pr := pass_rule_unlimited ⟨init_astar g0 N N, h, startv, endv, obstaclev, blocking⟩
    (unlimited_init_astar g0 N N)
  have hrun : Call.run ⟨init_astar g0 N N, h, startv, endv, obstaclev, blocking⟩
      = .path result := hres
  rcases astar_trace sq hl pr with h1 | h1 | h1 | ⟨hdis, h1 | h1⟩
  · rw [hrun] at h1; cases h1
  · rw [hrun] at h1; cases h1
  · rw [hrun] at h1; cases h1
  · rw [hrun] at h1; cases h1.1
  · obtain ⟨F, s1, e, q, adj, done, s0, sel, H, hpop, E, hsel, hadj, ho⟩ := h1
    rw [hrun] at ho
    obtain ⟨r2, _, _, ⟨a, hhead, hpairs⟩, hlen2⟩ :=
      reconstruct_route sq hdis E sel hsel hadj result ho.symm
    have hcost := struck_cost_le sq hl hdis H e q hpop r hr
      (fun p hp => pass_of_obstacle_bits sq p (hr.1 p (mem_of_mem_inner_cells r p hp))
        (hfree p hp))
    have ha : a ∈ r2 := List.mem_of_mem_head? hhead
    rw [hpairs, List.dedup_cons_of_mem ha]
    have h3 := (List.dedup_sublist r2).length_le
    have h4 : ((r2.dedup.length : Nat) : Int) ≤ r2.length := by exact_mod_cast h3
    have h5 : ((r2.dedup.length : Nat) : Int) ≤ r.length := by omega
    exact_mod_cast h5

/-! ## The binary heap is a priority queue -/

theorem lt_iff_key (a b : OpenPt) : OpenPt.lt a b = true ↔ b.key ≤ a.key := by
  unfold OpenPt.lt OpenPt.key
  simp

/-- Moving the entry at `j` into the hole `i` and leaving the hole at `j` does not change the
entries once the hole is filled. -/
theorem count_move_hole (l : List OpenPt) (i j : Nat) (v e : OpenPt) (hi : i < l.length)
    (hj : j < l.length) (hij : i ≠ j) (he : l[j]? = some e) (a : OpenPt) :
    ((l.set i e).set j v).count a = (l.set i v).count a := by
  have he2 : l[j] = e := by
    rw [List.getElem?_eq_getElem hj] at he
    exact Option.some.inj he
  rw [List.count_set v a (l.set i e) j (by simpa using hj), List.count_set e a l i hi,
    List.count_set v a l i hi]
  have hj2 : j < (l.set i e).length := by simpa using hj
  have hget : (l.set i e)[j] = e := by
    rw [List.getElem_set_ne hij]
    exact he2
  rw [hget]
  have hle : (if l[i] == a then 1 else 0) ≤ l.count a := by
    split
    · rename_i h
      have : a ∈ l := by
        have := List.getElem_mem hi
        rw [eq_of_beq h] at this
        exact this
      exact List.count_pos_iff.mpr this
    · exact Nat.zero_le _
  split <;> split <;> split <;> omega

/-- Writing `value` into the hole gives a heap when the parent of the hole is not above
`value` and its children are not below. -/
theorem heap_ordered_fill (vec : List OpenPt) (h : Nat) (value : OpenPt) (hh : holed vec h)
    (hchild : ∀ (i : Nat) (a : OpenPt), 0 < i → (i - 1) / 2 = h → vec[i]? = some a →
      value.key ≤ a.key)
    (hpar : ∀ b : OpenPt, 0 < h → vec[(h - 1) / 2]? = some b → b.key ≤ value.key) :
    heap_ordered (vec.set h value) := by
  intro i a b hi ha hb
  rw [List.getElem?_set] at ha hb
  by_cases hih : h = i
  · subst hih
    rw [if_pos rfl] at ha
    have hne : ¬ (h = (h - 1) / 2) := by omega
    rw [if_neg hne] at hb
    split at ha
    · cases ha
      exact hpar b hi hb
    · cases ha
  · rw [if_neg hih] at ha
    by_cases hph : h = (i - 1) / 2
    · rw [if_pos hph] at hb
      split at hb
      · cases hb
        exact hchild i a hi hph.symm ha
      · cases hb
    · rw [if_neg hph] at hb
      exact hh.1 i a b hi (fun x => hih x.symm) (fun x => hph x.symm) ha hb

/-- The loop of `std::__push_heap`: from a hole whose children are not below `value`, the
result is a heap with the entries of the vector once the hole is filled with `value`. -/
theorem push_heap_loop_spec (value : OpenPt) :
    ∀ (fuel : Nat) (vec : List OpenPt) (h : Nat), h < fuel → h < vec.length → holed vec h →
      (∀ (i : Nat) (a : OpenPt), 0 < i → (i - 1) / 2 = h → vec[i]? = some a →
        value.key ≤ a.key) →
      heap_ordered (push_heap_loop OpenPt.lt value 0 fuel vec h) ∧
      (push_heap_loop OpenPt.lt value 0 fuel vec h).length = vec.length ∧
      ∀ a, (push_heap_loop OpenPt.lt value 0 fuel vec h).count a = (vec.set h value).count a := by
  intro fuel
  induction fuel with
  | zero => intro vec h hf; exact absurd hf (Nat.not_lt_zero h)
  | succ fuel ih =>
    intro vec h hf hlen hh hchild
    rw [push_heap_loop]
    have hplen : (h - 1) / 2 < vec.length := by omega
    have hp : vec[(h - 1) / 2]? = some (vec[(h - 1) / 2]) := List.getElem?_eq_getElem hplen
    simp only [hp]
    by_cases hc : h > 0 ∧ OpenPt.lt (vec[(h - 1) / 2]) value = true
    · rw [if_pos hc]
      obtain ⟨hpos, hlt⟩ := hc
      have hkey := (lt_iff_key _ _).mp hlt
      have hne : h ≠ (h - 1) / 2 := by omega
      have hget : ∀ i, i ≠ h → (vec.set h (vec[(h - 1) / 2]))[i]? = vec[i]? := by
        intro i hi
        rw [List.getElem?_set, if_neg (fun x => hi x.symm)]
      have hgeth : (vec.set h (vec[(h - 1) / 2]))[h]? = some (vec[(h - 1) / 2]) := by
        rw [List.getElem?_set, if_pos rfl, if_pos hlen]
      have hh2 : holed (vec.set h (vec[(h - 1) / 2])) ((h - 1) / 2) := by
        constructor
        · intro i a b hi hi1 hi2 ha hb
          by_cases hih : i = h
          · subst hih
            exact absurd rfl hi2
          · rw [hget i hih] at ha
            by_cases hpi : (i - 1) / 2 = h
            · rw [hpi, hgeth] at hb
              cases hb
              exact hh.2 i a _ hi hpos hpi ha hp
            · rw [hget _ hpi] at hb
              exact hh.1 i a b hi hih hpi ha hb
        · intro i a b hi hpar hi2 ha hb
          have hgp : (vec.set h (vec[(h - 1) / 2]))[((h - 1) / 2 - 1) / 2]? = vec[((h - 1) / 2 - 1) / 2]? :=
            hget _ (by omega)
          rw [hgp] at hb
          have h1 : b.key ≤ (vec[(h - 1) / 2]).key :=
            hh.1 ((h - 1) / 2) _ b hpar (by omega) (by omega) hp hb
          by_cases hih : i = h
          · subst hih
            rw [hgeth] at ha
            cases ha
            exact h1
          · rw [hget i hih] at ha
            have h2 : (vec[(h - 1) / 2]).key ≤ a.key :=
              hh.1 i a _ hi hih (by omega) ha (by rw [hi2]; exact hp)
            exact Int.le_trans h1 h2
      have hchild2 : ∀ (i : Nat) (a : OpenPt), 0 < i → (i - 1) / 2 = (h - 1) / 2 →
          (vec.set h (vec[(h - 1) / 2]))[i]? = some a → value.key ≤ a.key := by
        intro i a hi hi2 ha
        by_cases hih : i = h
        · subst hih
          rw [hgeth] at ha
          cases ha
          exact hkey
        · rw [hget i hih] at ha
          have h2 : (vec[(h - 1) / 2]).key ≤ a.key :=
            hh.1 i a _ hi hih (by omega) ha (by rw [hi2]; exact hp)
          exact Int.le_trans hkey h2
      obtain ⟨r1, r2, r3⟩ := ih (vec.set h (vec[(h - 1) / 2])) ((h - 1) / 2) (by omega)
        (by simpa using hplen) hh2 hchild2
      refine ⟨r1, by simpa using r2, ?_⟩
      intro a
      rw [r3 a]
      exact count_move_hole vec h ((h - 1) / 2) value _ hlen hplen hne hp a
    · rw [if_neg hc]
      refine ⟨?_, by simp, fun a => rfl⟩
      apply heap_ordered_fill vec h value hh hchild
      intro b hpos hb
      rw [hp] at hb
      cases hb
      by_contra hcon
      apply hc
      refine ⟨hpos, (lt_iff_key _ _).mpr ?_⟩
      omega

theorem std_push_spec (vec : List OpenPt) (x : OpenPt) (hv : heap_ordered vec) :
    heap_ordered (std_push vec x) ∧ (std_push vec x).Perm (x :: vec) := by
  unfold std_push push_heap_at
  have hh : holed (vec ++ [x]) vec.length := by
    constructor
    · intro i a b hi hi1 hi2 ha hb
      have hil : i < vec.length := by
        have := (List.getElem?_eq_some_iff.mp ha).1
        simp only [List.length_append, List.length_singleton] at this
        omega
      rw [List.getElem?_append_left hil] at ha
      rw [List.getElem?_append_left (by omega)] at hb
      exact hv i a b hi ha hb
    · intro i a b hi _ hi2 ha _
      have := (List.getElem?_eq_some_iff.mp ha).1
      simp only [List.length_append, List.length_singleton] at this
      omega
  have hchild : ∀ (i : Nat) (a : OpenPt), 0 < i → (i - 1) / 2 = vec.length →
      (vec ++ [x])[i]? = some a → x.key ≤ a.key := by
    intro i a _ hi2 ha
    have := (List.getElem?_eq_some_iff.mp ha).1
    simp only [List.length_append, List.length_singleton] at this
    omega
  obtain ⟨r1, _, r3⟩ := push_heap_loop_spec x (vec.length + 1) (vec ++ [x]) vec.length
    (by omega) (by simp) hh hchild
  refine ⟨r1, ?_⟩
  rw [List.perm_iff_count]
  intro a
  rw [r3 a]
  have hset : (vec ++ [x]).set vec.length x = vec ++ [x] := by
    apply List.ext_getElem?
    intro j
    rw [List.getElem?_set]
    by_cases hj : vec.length = j
    · subst hj
      simp
    · rw [if_neg hj]
  rw [hset]
  exact (List.perm_append_singleton x vec).count_eq a

/-- The root of a heap has the least key. -/
theorem heap_root_min (vec : List OpenPt) (hv : heap_ordered vec) (t : OpenPt)
    (ht : vec[0]? = some t) :
    ∀ (n i : Nat) (a : OpenPt), i ≤ n → vec[i]? = some a → t.key ≤ a.key := by
  intro n
  induction n with
  | zero =>
    intro i a hi ha
    have : i = 0 := by omega
    subst this
    rw [ht] at ha
    cases ha
    exact Int.le_refl _
  | succ n ih =>
    intro i a hi ha
    by_cases h0 : i = 0
    · subst h0
      rw [ht] at ha
      cases ha
      exact Int.le_refl _
    · have hlen := (List.getElem?_eq_some_iff.mp ha).1
      have hplen : (i - 1) / 2 < vec.length := by omega
      have hb : vec[(i - 1) / 2]? = some (vec[(i - 1) / 2]) := List.getElem?_eq_getElem hplen
      have h1 := hv i a _ (by omega) ha hb
      have h2 := ih ((i - 1) / 2) _ (by omega) hb
      exact Int.le_trans h2 h1

/-- The first loop of `std::__adjust_heap`: the hole moves down to a position with fewer than
two children, the vector stays a heap apart from the hole, and the entries are the same once
the hole is filled. -/
theorem adjust_heap_loop_spec (len : Nat) :
    ∀ (fuel : Nat) (vec : List OpenPt) (h : Nat), vec.length = len → h < len →
      len ≤ h + fuel → holed vec h →
      ∃ (vec2 : List OpenPt) (h2 : Nat),
        adjust_heap_loop OpenPt.lt len fuel vec h h = (vec2, h2, h2) ∧ holed vec2 h2 ∧
        vec2.length = len ∧ h2 < len ∧ ¬ (h2 < (len - 1) / 2) ∧
        ∀ (v a : OpenPt), (vec2.set h2 v).count a = (vec.set h v).count a := by
  intro fuel
  induction fuel with
  | zero => intro vec h _ hlt hf; omega
  | succ fuel ih =>
    intro vec h hlen hlt hf hh
    rw [adjust_heap_loop]
    by_cases hc : h < (len - 1) / 2
    · rw [if_pos hc]
      have hr : 2 * (h + 1) < vec.length := by omega
      have hl : 2 * (h + 1) - 1 < vec.length := by omega
      have hrs : vec[2 * (h + 1)]? = some (vec[2 * (h + 1)]) := List.getElem?_eq_getElem hr
      have hls : vec[2 * (h + 1) - 1]? = some (vec[2 * (h + 1) - 1]) :=
        List.getElem?_eq_getElem hl
      simp only [hrs, hls]
      -- the child that moves up, and the other one
      have key : ∀ (ch ot : Nat), ch < vec.length → ot < vec.length →
          ((ch = 2 * (h + 1) - 1 ∧ ot = 2 * (h + 1)) ∨ (ch = 2 * (h + 1) ∧ ot = 2 * (h + 1) - 1)) →
          (∀ e o, vec[ch]? = some e → vec[ot]? = some o → e.key ≤ o.key) →
          ∃ (vec2 : List OpenPt) (h2 : Nat),
            (match vec[ch]? with
              | some e => adjust_heap_loop OpenPt.lt len fuel (vec.set h e) ch ch
              | none => (vec, h, ch)) = (vec2, h2, h2) ∧ holed vec2 h2 ∧
            vec2.length = len ∧ h2 < len ∧ ¬ (h2 < (len - 1) / 2) ∧
            ∀ (v a : OpenPt), (vec2.set h2 v).count a = (vec.set h v).count a := by
        intro ch ot hch hot hco hmin
        have hchs : vec[ch]? = some (vec[ch]) := List.getElem?_eq_getElem hch
        have hots : vec[ot]? = some (vec[ot]) := List.getElem?_eq_getElem hot
        have hchpar : (ch - 1) / 2 = h := by omega
        have hotpar : (ot - 1) / 2 = h := by omega
        simp only [hchs]
        have hget : ∀ i, i ≠ h → (vec.set h (vec[ch]))[i]? = vec[i]? := by
          intro i hi
          rw [List.getElem?_set, if_neg (fun x => hi x.symm)]
        have hgeth : (vec.set h (vec[ch]))[h]? = some (vec[ch]) := by
          rw [List.getElem?_set, if_pos rfl, if_pos (by omega)]
        have hh2 : holed (vec.set h (vec[ch])) ch := by
          constructor
          · intro i a b hi hi1 hi2 ha hb
            by_cases hih : i = h
            · subst hih
              rw [hgeth] at ha
              cases ha
              rw [hget _ (by omega)] at hb
              exact hh.2 ch _ b (by omega) hi hchpar hchs hb
            · rw [hget i hih] at ha
              by_cases hpi : (i - 1) / 2 = h
              · rw [hpi, hgeth] at hb
                cases hb
                have hiot : i = ot := by omega
                subst hiot
                exact hmin _ _ hchs ha
              · rw [hget _ hpi] at hb
                exact hh.1 i a b hi hih hpi ha hb
          · intro i a b hi _ hi2 ha hb
            rw [hchpar, hgeth] at hb
            cases hb
            rw [hget i (by omega)] at ha
            exact hh.1 i a _ hi (by omega) (by omega) ha (by rw [hi2]; exact hchs)
        obtain ⟨vec2, h2, e1, e2, e3, e4, e5, e6⟩ := ih (vec.set h (vec[ch])) ch
          (by simpa using hlen) (by omega) (by omega) hh2
        refine ⟨vec2, h2, e1, e2, e3, e4, e5, ?_⟩
        intro v a
        rw [e6 v a]
        exact count_move_hole vec h ch v _ (by omega) hch (by omega) hchs a
      by_cases hcomp : OpenPt.lt (vec[2 * (h + 1)]) (vec[2 * (h + 1) - 1]) = true
      · simp only [hcomp, if_true]
        apply key (2 * (h + 1) - 1) (2 * (h + 1)) hl hr (Or.inl ⟨rfl, rfl⟩)
        intro e o he ho
        rw [hls] at he
        rw [hrs] at ho
        cases he
        cases ho
        exact (lt_iff_key _ _).mp hcomp
      · simp only [hcomp]
        apply key (2 * (h + 1)) (2 * (h + 1) - 1) hr hl (Or.inr ⟨rfl, rfl⟩)
        intro e o he ho
        rw [hrs] at he
        rw [hls] at ho
        cases he
        cases ho
        have : ¬ ((vec[2 * (h + 1) - 1]).key ≤ (vec[2 * (h + 1)]).key) :=
          fun hk => hcomp ((lt_iff_key _ _).mpr hk)
        omega
    · rw [if_neg hc]
      exact ⟨vec, h, rfl, hh, hlen, hlt, hc, fun _ _ => rfl⟩

/-- The function `std::__adjust_heap` from the root: a heap with the entries of the vector
once its first position is overwritten with `value`. -/
theorem adjust_heap_spec (vec : List OpenPt) (value : OpenPt) (hpos : 0 < vec.length)
    (hh : holed vec 0) :
    heap_ordered (adjust_heap OpenPt.lt vec 0 vec.length value) ∧
      ∀ a, (adjust_heap OpenPt.lt vec 0 vec.length value).count a = (vec.set 0 value).count a := by
  unfold adjust_heap
  obtain ⟨vec2, h2, e1, e2, e3, e4, e5, e6⟩ :=
    adjust_heap_loop_spec vec.length vec.length vec 0 rfl hpos (by omega) hh
  simp only [e1]
  by_cases hc : vec.length % 2 = 0 ∧ h2 = (vec.length - 2) / 2
  · rw [if_pos hc]
    have hlast : 2 * (h2 + 1) - 1 < vec2.length := by omega
    have hls : vec2[2 * (h2 + 1) - 1]? = some (vec2[2 * (h2 + 1) - 1]) :=
      List.getElem?_eq_getElem hlast
    simp only [hls]
    unfold push_heap_at
    have hget : ∀ i, i ≠ h2 → (vec2.set h2 (vec2[2 * (h2 + 1) - 1]))[i]? = vec2[i]? := by
      intro i hi
      rw [List.getElem?_set, if_neg (fun x => hi x.symm)]
    have hgeth : (vec2.set h2 (vec2[2 * (h2 + 1) - 1]))[h2]? = some (vec2[2 * (h2 + 1) - 1]) := by
      rw [List.getElem?_set, if_pos rfl, if_pos (by omega)]
    have hnone : ∀ (i : Nat) (a : OpenPt), vec2[i]? = some a → i < vec.length := by
      intro i a ha
      have := (List.getElem?_eq_some_iff.mp ha).1
      omega
    have hh3 : holed (vec2.set h2 (vec2[2 * (h2 + 1) - 1])) (2 * (h2 + 1) - 1) := by
      constructor
      · intro i a b hi hi1 hi2 ha hb
        by_cases hih : i = h2
        · subst hih
          rw [hgeth] at ha
          cases ha
          rw [hget _ (by omega)] at hb
          exact e2.2 (2 * (i + 1) - 1) _ b (by omega) hi (by omega) hls hb
        · rw [hget i hih] at ha
          have hil := hnone i a ha
          by_cases hpi : (i - 1) / 2 = h2
          · omega
          · rw [hget _ hpi] at hb
            exact e2.1 i a b hi hih hpi ha hb
      · intro i a b hi _ hi2 ha _
        rw [hget i (by omega)] at ha
        have hil := hnone i a ha
        omega
    have hchild : ∀ (i : Nat) (a : OpenPt), 0 < i → (i - 1) / 2 = 2 * (h2 + 1) - 1 →
        (vec2.set h2 (vec2[2 * (h2 + 1) - 1]))[i]? = some a → value.key ≤ a.key := by
      intro i a _ hi2 ha
      rw [hget i (by omega)] at ha
      have hil := hnone i a ha
      omega
    obtain ⟨r1, _, r3⟩ := push_heap_loop_spec value (2 * (h2 + 1) - 1 + 1)
      (vec2.set h2 (vec2[2 * (h2 + 1) - 1])) (2 * (h2 + 1) - 1) (by omega) (by simpa using hlast)
      hh3 hchild
    refine ⟨r1, ?_⟩
    intro a
    rw [r3 a, ← e6 value a]
    exact count_move_hole vec2 h2 (2 * (h2 + 1) - 1) value _ (by omega) hlast (by omega) hls a
  · rw [if_neg hc]
    unfold push_heap_at
    have hchild : ∀ (i : Nat) (a : OpenPt), 0 < i → (i - 1) / 2 = h2 →
        vec2[i]? = some a → value.key ≤ a.key := by
      intro i a _ hi2 ha
      have := (List.getElem?_eq_some_iff.mp ha).1
      omega
    obtain ⟨r1, _, r3⟩ := push_heap_loop_spec value (h2 + 1) vec2 h2 (by omega) (by omega) e2
      hchild
    refine ⟨r1, ?_⟩
    intro a
    rw [r3 a, e6 value a]

theorem std_pop_none (vec : List OpenPt) (h : std_pop vec = none) : vec = [] := by
  unfold std_pop at h
  cases vec with
  | nil => rfl
  | cons top rest =>
    simp only at h
    split at h
    · cases hl : (top :: rest).getLast? with
      | none => simp at hl
      | some v =>
        rw [hl] at h
        cases h
    · cases h

theorem std_pop_spec (vec : List OpenPt) (x : OpenPt) (r : List OpenPt)
    (hv : heap_ordered vec) (h : std_pop vec = some (x, r)) :
    heap_ordered r ∧ vec.Perm (x :: r) ∧ ∀ y ∈ vec, x.key ≤ y.key := by
  unfold std_pop at h
  cases vec with
  | nil => cases h
  | cons top rest =>
    simp only at h
    have hmin : ∀ y ∈ top :: rest, top.key ≤ y.key := by
      intro y hy
      obtain ⟨i, hi, hget⟩ := List.getElem_of_mem hy
      exact heap_root_min (top :: rest) hv top (List.getElem?_cons_zero) i i y (Nat.le_refl i)
        (by rw [List.getElem?_eq_getElem hi, hget])
    by_cases hlen : (top :: rest).length > 1
    · rw [if_pos hlen] at h
      cases hl : (top :: rest).getLast? with
      | none => simp at hl
      | some value =>
        rw [hl] at h
        simp only [Option.some.injEq, Prod.mk.injEq] at h
        obtain ⟨hx, hr⟩ := h
        subst hx
        obtain ⟨ys, hys⟩ := List.getLast?_eq_some_iff.mp hl
        have hdrop : (top :: rest).dropLast = ys := by
          rw [hys]; simp
        have hyslen : ys.length = (top :: rest).length - 1 := by
          rw [hys]; simp
        rw [hdrop, ← hyslen] at hr
        have hyspos : 0 < ys.length := by omega
        have hh : holed ys 0 := by
          constructor
          · intro i a b hi _ _ ha hb
            have hia := (List.getElem?_eq_some_iff.mp ha).1
            have hib := (List.getElem?_eq_some_iff.mp hb).1
            apply hv i a b hi
            · rw [hys, List.getElem?_append_left hia]; exact ha
            · rw [hys, List.getElem?_append_left hib]; exact hb
          · intro i a b _ h0 _ _ _
            exact absurd h0 (Nat.lt_irrefl 0)
        obtain ⟨r1, r2⟩ := adjust_heap_spec ys value hyspos hh
        rw [hr] at r1 r2
        refine ⟨r1, ?_, hmin⟩
        rw [List.perm_iff_count]
        intro a
        have hys0 : ys[0] = top := by
          have h0 : (top :: rest)[0]? = some top := List.getElem?_cons_zero
          rw [hys, List.getElem?_append_left hyspos, List.getElem?_eq_getElem hyspos] at h0
          exact Option.some.inj h0
        have hle : (if top == a then 1 else 0) ≤ ys.count a := by
          split
          · rename_i hxa
            have : a ∈ ys := by
              have := List.getElem_mem hyspos
              rw [hys0, eq_of_beq hxa] at this
              exact this
            exact List.count_pos_iff.mpr this
          · exact Nat.zero_le _
        have hL : (top :: rest).count a = ys.count a + (if value == a then 1 else 0) := by
          rw [hys, List.count_append, List.count_singleton]
        have hR : (top :: r).count a = r.count a + (if top == a then 1 else 0) :=
          List.count_cons a top r
        rw [hL, hR, r2 a, List.count_set value a ys 0 hyspos, hys0]
        generalize (if (top == a) = true then 1 else 0) = t at hle ⊢
        omega
    · rw [if_neg hlen] at h
      simp only [Option.some.injEq, Prod.mk.injEq] at h
      obtain ⟨hx, hr⟩ := h
      subst hx
      subst hr
      have hrest : rest = [] := by
        cases rest with
        | nil => rfl
        | cons a l => simp at hlen
      subst hrest
      refine ⟨?_, List.Perm.refl _, hmin⟩
      intro i a b _ ha _
      cases ha

/-- The binary heap of libstdc++ is a priority queue under `operator<`. -/
theorem stdHeap_lawful : stdHeap.Lawful := by
  refine ⟨heap_ordered, ?_⟩
  exact
    { empty := by
        intro i a b _ ha _
        cases ha
      push := fun q x hq => std_push_spec q x hq
      pop_none := fun q _ h => std_pop_none q h
      pop_some := fun q x r hq h => std_pop_spec q x r hq h }

/-! ## Concrete routes on the 2x2 grid -/

/-- On the 2x2 grid every route from `(0,0)` to `(1,1)` has `(1,0)` or `(0,1)` strictly
between its ends. -/
theorem routes_2x2_corner (r : List (Int × Int))
    (hr : is_route 2 2 [(0, 0)] [(1, 1)] r) :
    ∃ p ∈ inner_cells r, p = (1, 0) ∨ p = (0, 1) := by
  obtain ⟨hgrid, hchain, ⟨a, ha, hhead⟩, ⟨e, he, hlast⟩⟩ := hr
  simp only [List.mem_singleton] at ha he
  subst ha
  subst he
  cases r with
  | nil => cases hhead
  | cons p l =>
    simp only [List.head?_cons, Option.some.injEq] at hhead
    subst hhead
    cases l with
    | nil =>
      simp only [List.getLast?_singleton, Option.some.injEq] at hlast
      cases hlast
    | cons b l2 =>
      rw [List.chain'_cons] at hchain
      have hadj : distance 0 0 b.1 b.2 = 1 := hchain.1
      have hb := hgrid b (List.mem_cons_of_mem _ (List.mem_cons_self _ _))
      unfold in_grid at hb
      unfold distance at hadj
      have hcases : (b.1 = 1 ∧ b.2 = 0) ∨ (b.1 = 0 ∧ b.2 = 1) := by omega
      have hbeq : b = (1, 0) ∨ b = (0, 1) := by
        rcases hcases with ⟨h1, h2⟩ | ⟨h1, h2⟩
        · left; exact Prod.ext h1 h2
        · right; exact Prod.ext h1 h2
      have hl2 : l2 ≠ [] := by
        intro hnil
        rw [hnil, List.getLast?_cons_cons] at hlast
        simp only [List.getLast?_singleton, Option.some.injEq] at hlast
        rcases hbeq with h | h <;> rw [h] at hlast <;> cases hlast
      refine ⟨b, ?_, hbeq⟩
      unfold inner_cells
      rw [List.tail_cons, List.dropLast_cons_of_ne_nil hl2]
      exact List.mem_cons_self _ _

/-- C5, the claim as stated fails: on the 2x2 grid with start `(0,0)`, goal `(1,0)` and an
obstacle on the goal that the mask selects, every route has a selected obstacle after its
first cell (on its last cell at least), and `astar` returns the path into the goal. -/
theorem astar_goal_obstacle_still_reached :
    (∀ r, is_route 2 2 [(0, 0)] [(1, 0)] r →
      ∃ p ∈ r.tail, obstacle_bits 2 [0, 1, 0, 0] 1 p ≠ 0) ∧
    astar (init_astar Globals.initial 2 2) stdHeap [(0, 0)] [(1, 0)] [0, 1, 0, 0] 1
      = .path [0, 0, 0, 0, 1, 0, -1] := by
  constructor
  · intro r hr
    obtain ⟨_, _, ⟨a, ha, hhead⟩, ⟨e, he, hlast⟩⟩ := hr
    simp only [List.mem_singleton] at ha he
    subst ha
    subst he
    refine ⟨(1, 0), ?_, by decide⟩
    cases r with
    | nil => cases hhead
    | cons p l =>
      cases l with
      | nil =>
        simp only [List.head?_cons, Option.some.injEq] at hhead
        simp only [List.getLast?_singleton, Option.some.injEq] at hlast
        rw [hhead] at hlast
        cases hlast
      | cons b l2 =>
        rw [List.getLast?_cons_cons] at hlast
        exact List.mem_of_getLast?_eq_some hlast
  · decide!

theorem route_2x2_bottom : is_route 2 2 [(0, 0)] [(1, 0)] [(0, 0), (1, 0)] :=
  ⟨by decide, List.Chain'.cons (by decide) (List.chain'_singleton _),
    ⟨(0, 0), by decide, rfl⟩, ⟨(1, 0), by decide, rfl⟩⟩

theorem astar_shortest_path_witness :
    stdHeap.Lawful ∧ (1 : Int) ≤ 2 ∧ (([0, 0, 0, 0] : List Nat).length : Int) = 2 * 2 ∧
    (∀ p ∈ [((0 : Int), (0 : Int))], in_grid 2 2 p) ∧
    (∀ p ∈ [((1 : Int), (0 : Int))], in_grid 2 2 p) ∧
    astar (init_astar Globals.initial 2 2) stdHeap [(0, 0)] [(1, 0)] [0, 0, 0, 0] 0
      = .path [0, 0, 0, 0, 1, 0, -1] ∧
    is_route 2 2 [(0, 0)] [(1, 0)] [(0, 0), (1, 0)] ∧
    (∀ p ∈ inner_cells [((0 : Int), (0 : Int)), (1, 0)], obstacle_bits 2 [0, 0, 0, 0] 0 p = 0) ∧
    (pairs [0, 0, 0, 0, 1, 0, -1]).dedup.length ≤ [((0 : Int), (0 : Int)), (1, 0)].length :=
  ⟨stdHeap_lawful, by decide, by decide, by decide, by decide, by decide!, route_2x2_bottom,
    by decide,
    astar_shortest_path Globals.initial 2 stdHeap [(0, 0)] [(1, 0)] [0, 0, 0, 0] 0
      [0, 0, 0, 0, 1, 0, -1] [(0, 0), (1, 0)] stdHeap_lawful (by decide) (by decide)
      (by decide) (by decide) (by decide!) route_2x2_bottom (by decide)⟩

/-! ## When `astar` returns `NULL` -/

theorem seed_error_shared (h : HeapOps) (W : Int) (len : Int) (endv : List (Int × Int)) :
    ∀ (startv : List (Int × Int)) (s : Search),
      seed h W len endv startv s = .error (.null .startInEnds) → ∃ st ∈ startv, st ∈ endv := by
  intro startv
  induction startv with
  | nil => intro s hx; simp [seed] at hx
  | cons st rest ih =>
    intro s hx
    rw [seed] at hx
    split at hx
    · rename_i hany
      exact ⟨st, List.mem_cons_self _ _, (any_eq_iff_mem st endv).mp hany⟩
    · simp only at hx
      split at hx
      · cases hx
      · obtain ⟨p, hp, hpe⟩ := ih _ hx
        exact ⟨p, List.mem_cons_of_mem _ hp, hpe⟩

theorem reconstruct_null (g : Globals) (starts : List Int) (n : Nat) (sel : Int) (s : Search)
    (why : NullReason) (hx : reconstruct g starts n sel s = .null why) :
    why = .pathingBug ∧ ∃ (ext : List Int) (fp : Int), fp ∉ starts ∧ s.follow fp = none ∧
      List.Chain (fun a b => a ∉ starts ∧ s.follow a = some b) sel ext ∧
      (sel :: ext).getLast? = some fp := by
  unfold reconstruct at hx
  split at hx
  · cases hx
  · rename_i fp path htp
    obtain ⟨ext, _, hchain, hlast, hend⟩ :=
      trace_path_spec starts s.follow (n + 2) sel [] fp path (by simpa using htp)
    simp only at hx
    split at hx
    · cases hx
    · rename_i hmem
      cases hx
      exact ⟨rfl, ext, fp, hmem, hend.resolve_left hmem, hchain, hlast⟩

theorem search_null (g : Globals) (h : HeapOps) (endv : List (Int × Int))
    (starts ends : List Int) (obstaclev : List Nat) (blocking : Nat) :
    ∀ (fuel : Nat) (s : Search) (why : NullReason),
      search g h endv starts ends obstaclev blocking fuel s = .null why →
      why = .noPath ∨ why = .pathingBug := by
  intro fuel
  induction fuel with
  | zero => intro s why hx; simp [search] at hx
  | succ fuel ih =>
    intro s why hx
    rw [search] at hx
    split at hx
    · cases hx; exact Or.inl rfl
    · simp only at hx
      split at hx
      · cases hx
      · exact ih _ _ hx
      · split at hx
        · split at hx
          · exact ih _ _ hx
          · exact Or.inr (reconstruct_null _ _ _ _ _ _ hx).1
          · cases hx
          · cases hx
        · cases hx

/-- The call returns `NULL` through the "Start point is in ends set" branch only when a start
is a goal. -/
theorem run_start_in_ends (c : Call) (hx : c.run = .null .startInEnds) :
    ∃ p ∈ c.startv, p ∈ c.endv := by
  unfold Call.run astar at hx
  simp only at hx
  split at hx
  · rename_i o hseed
    rw [hx] at hseed
    exact seed_error_shared _ _ _ _ _ _ hseed
  · rcases search_null _ _ _ _ _ _ _ _ _ _ hx with h | h <;> cases h

/-- The "PATHING BUG" branch is not taken: the trace from the end point that was struck ends
in a start. -/
theorem reconstruct_not_bug {c : Call} {Pass : Int → Prop} {inv : List OpenPt → Prop}
    {sofar cur : Int} {adj : List Int} {done : Int → Prop} {s0 : Search}
    (E : Expanding c Pass inv sofar cur adj done s0) (sel : Int) (hsel : sel ∈ c.ends)
    (why : NullReason) :
    reconstruct c.g c.starts c.len sel (struck s0 sel cur) ≠ .null why := by
  intro hx
  obtain ⟨_, ext, fp, hfp, hnone, hchain, hlast⟩ := reconstruct_null _ _ _ _ _ _ hx
  change follow_set s0.follow sel cur fp = none at hnone
  have hselcur : follow_set s0.follow sel cur sel = some cur := by
    unfold follow_set
    rw [if_pos rfl]
  cases ext with
  | nil =>
    simp only [List.getLast?_singleton, Option.some.injEq] at hlast
    rw [← hlast, hselcur] at hnone
    cases hnone
  | cons y ext2 =>
    rw [List.chain_cons] at hchain
    obtain ⟨⟨_, hfol⟩, hrest⟩ := hchain
    have hy : y = cur := by
      change follow_set s0.follow sel cur sel = some y at hfol
      rw [hselcur] at hfol
      cases hfol
      rfl
    subst hy
    obtain ⟨_, hclosed, _⟩ := chain_links E sel hsel ext2 y _ E.is_closed E.best_cur hrest
    rw [List.getLast?_cons_cons] at hlast
    have hmem : fp ∈ y :: ext2 := List.mem_of_getLast?_eq_some hlast
    have hfpclosed : rd s0.closedset fp = some true := by
      rcases List.mem_cons.mp hmem with h | h
      · rw [h]; exact E.is_closed
      · exact hclosed fp h
    have hC := E.inv.closed fp hfpclosed
    have hne : fp ≠ sel := fun h => hC.not_end (h ▸ hsel)
    unfold follow_set at hnone
    rw [if_neg hne] at hnone
    rcases hC.rooted with h | h
    · exact hfp h
    · rw [hnone] at h
      cases h

/-- With a route of at most `obstaclec` cells from a start to a goal whose inner cells pass,
`astar` does not return `NULL`. -/
theorem run_not_null {c : Call} {N : Int} {Pass : Int → Prop} {inv : List OpenPt → Prop}
    (sq : c.Square N) (hl : HeapLaws c.h inv) (pr : c.PassRule Pass)
    (hdis : ∀ p ∈ c.startv, p ∉ c.endv)
    (r : List (Int × Int)) (hr : is_route N N c.startv c.endv r)
    (hshort : (r.length : Int) ≤ c.len)
    (hpass : ∀ p ∈ inner_cells r, Pass (position_to_index N p.1 p.2)) (why : NullReason) :
    c.run ≠ .null why := by
  intro hx
  rcases astar_trace sq hl pr with h1 | h1 | h1 | ⟨_, h1 | h1⟩
  · obtain ⟨p, hp, hpe⟩ := run_start_in_ends c h1
    exact hdis p hp hpe
  · rw [hx] at h1; cases h1
  · rw [hx] at h1; cases h1
  · obtain ⟨_, F1, s1, H, hempty⟩ := h1
    obtain ⟨q, b, hq1, hq2, hq3⟩ := frontier sq H hdis r hr hpass
    have hH := H
    unfold Head at hH
    obtain ⟨w, hw, _, _⟩ := hH.opened _ b hq1 hq2 (by omega)
    rw [hempty] at hw
    cases hw
  · obtain ⟨F, s1, e, q, adj, done, s0, sel, _, _, E, hsel, _, ho⟩ := h1
    rw [hx] at ho
    exact reconstruct_not_bug E sel hsel why ho.symm

theorem pass_rule_single (c : Call) (s : Int × Int) (hstart : c.startv = [s]) :
    c.PassRule (fun n => ∃ o, rd c.obstaclev n = some o ∧
      relief c.g (position_to_index c.g.MAP_WIDTH s.1 s.2) n (o &&& c.blocking) = 0) :=
  { relieved := by
      intro st hst n o ho
      unfold Call.starts at hst
      rw [hstart] at hst
      simp only [List.map_cons, List.map_nil, List.mem_singleton] at hst
      subst hst
      constructor
      · intro h; exact ⟨o, ho, h⟩
      · rintro ⟨o2, ho2, h⟩
        rw [ho] at ho2
        cases ho2
        exact h
    free := by
      intro n o ho hz
      refine ⟨o, ho, ?_⟩
      rw [hz]
      exact Nat.le_zero.mp (relief_le _ _ _ 0) }

theorem indexdistance_position (N : Int) (s p : Int × Int) (hs : in_grid N N s)
    (hp : in_grid N N p) :
    indexdistance N (position_to_index N s.1 s.2) (position_to_index N p.1 p.2)
      = distance s.1 s.2 p.1 p.2 := by
  unfold indexdistance
  rw [indextox_position N _ _ hs.1 hs.2.1 hs.2.2.1, indextoy_position N _ _ hs.1 hs.2.1 hs.2.2.1,
    indextox_position N _ _ hp.1 hp.2.1 hp.2.2.1, indextoy_position N _ _ hp.1 hp.2.1 hp.2.2.1]

/-- A layer whose range is at least the distance from the start keeps blocking. -/
theorem relief_keeps_near (g : Globals) (N : Int) (s p : Int × Int) (k b : Nat)
    (hw : g.MAP_WIDTH = N) (hs : in_grid N N s) (hp : in_grid N N p) (hk : k < 64)
    (hbit : b.testBit k = true)
    (hnear : distance s.1 s.2 p.1 p.2 ≤ g.LAYER_DISTANCE (2 ^ k)) :
    relief g (position_to_index N s.1 s.2) (position_to_index N p.1 p.2) b ≠ 0 := by
  intro hz
  have h1 := relief_testBit g (position_to_index N s.1 s.2) (position_to_index N p.1 p.2) b k hk
  rw [hz, Nat.zero_testBit, hbit] at h1
  unfold expired at h1
  rw [hw, indexdistance_position N s p hs hp] at h1
  have hfalse : ¬ (g.LAYER_DISTANCE (2 ^ k) ≠ N * g.MAP_HEIGHT ∧
      distance s.1 s.2 p.1 p.2 > g.LAYER_DISTANCE (2 ^ k)) := fun h => by omega
  simp [hfalse] at h1

/-- A layer whose range is limited and below the distance from the start stops blocking. -/
theorem relief_clears_far (g : Globals) (N : Int) (s p : Int × Int) (k : Nat)
    (hw : g.MAP_WIDTH = N) (hs : in_grid N N s) (hp : in_grid N N p) (hk : k < 64)
    (hlim : g.LAYER_DISTANCE (2 ^ k) ≠ g.MAP_WIDTH * g.MAP_HEIGHT)
    (hfar : distance s.1 s.2 p.1 p.2 > g.LAYER_DISTANCE (2 ^ k)) :
    relief g (position_to_index N s.1 s.2) (position_to_index N p.1 p.2) (2 ^ k) = 0 := by
  by_contra hne
  have hlt : relief g (position_to_index N s.1 s.2) (position_to_index N p.1 p.2) (2 ^ k)
      < 2 ^ 64 :=
    Nat.lt_of_le_of_lt (relief_le _ _ _ _) (Nat.pow_lt_pow_right (by norm_num) hk)
  obtain ⟨j, hj, hbit⟩ := (ne_zero_iff_testBit _ hlt).mp hne
  rw [relief_testBit g _ _ _ j hj, Nat.testBit_two_pow] at hbit
  simp only [Bool.and_eq_true, decide_eq_true_eq, Bool.not_eq_true'] at hbit
  obtain ⟨hkj, hexp⟩ := hbit
  subst hkj
  unfold expired at hexp
  rw [hw, indexdistance_position N s p hs hp] at hexp
  rw [hw] at hlim
  simp [hlim, hfar] at hexp

theorem distance_in_grid (N : Int) (s p : Int × Int) (hs : in_grid N N s) (hp : in_grid N N p) :
    distance s.1 s.2 p.1 p.2 < N * N := by
  unfold in_grid at hs hp
  unfold distance
  have : 0 ≤ (N - 1) * (N - 1) := by nlinarith
  have h2 : (N - 1) * (N - 1) = N * N - 2 * N + 1 := by ring
  omega

/-! ## Routes without repeated cells -/

/-- A chain can be cut down to one without repeated elements, with the same head and last
element and no new element. -/
theorem erase_loops {α : Type} (R : α → α → Prop) :
    ∀ l : List α, List.Chain' R l →
      ∃ l2 : List α, List.Chain' R l2 ∧ l2.Nodup ∧ l2.head? = l.head? ∧
        l2.getLast? = l.getLast? ∧ ∀ x ∈ l2, x ∈ l := by
  intro l
  induction l with
  | nil => intro _; exact ⟨[], List.chain'_nil, List.nodup_nil, rfl, rfl, fun x hx => hx⟩
  | cons p l ih =>
    intro hch
    rw [List.chain'_cons'] at hch
    obtain ⟨l2, hc2, hn2, hh2, hl2, hs2⟩ := ih hch.2
    by_cases hp : p ∈ l2
    · obtain ⟨s, t, hst⟩ := List.append_of_mem hp
      refine ⟨p :: t, ?_, ?_, rfl, ?_, ?_⟩
      · rw [hst] at hc2
        exact hc2.right_of_append
      · rw [hst] at hn2
        exact hn2.sublist (List.sublist_append_right s (p :: t))
      · have h1 : l2.getLast? = (p :: t).getLast? := by
          rw [hst]
          exact List.getLast?_append_of_ne_nil s (List.cons_ne_nil p t)
        rw [List.getLast?_cons (l := l), ← hl2, h1]
        rw [List.getLast?_cons (l := t)]
        rfl
      · intro x hx
        rcases List.mem_cons.mp hx with h | h
        · rw [h]; exact List.mem_cons_self _ _
        · apply List.mem_cons_of_mem
          apply hs2
          rw [hst]
          exact List.mem_append_right _ (List.mem_cons_of_mem _ h)
    · refine ⟨p :: l2, ?_, ?_, rfl, ?_, ?_⟩
      · rw [List.chain'_cons']
        refine ⟨?_, hc2⟩
        rw [hh2]
        exact hch.1
      · exact List.nodup_cons.mpr ⟨hp, hn2⟩
      · rw [List.getLast?_cons, List.getLast?_cons, hl2]
      · intro x hx
        rcases List.mem_cons.mp hx with h | h
        · rw [h]; exact List.mem_cons_self _ _
        · exact List.mem_cons_of_mem _ (hs2 x h)

theorem inner_cells_of_mem (l : List (Int × Int)) (x : Int × Int) (hx : x ∈ l)
    (hh : l.head? ≠ some x) (hl : l.getLast? ≠ some x) : x ∈ inner_cells l := by
  cases l with
  | nil => cases hx
  | cons a t =>
    have hxa : x ≠ a := fun h => hh (by rw [h]; rfl)
    have hxt : x ∈ t := by
      rcases List.mem_cons.mp hx with h | h
      · exact absurd h hxa
      · exact h
    unfold inner_cells
    rw [List.tail_cons]
    cases hlast : t.getLast? with
    | none =>
      have := List.getLast?_eq_none_iff.mp hlast
      rw [this] at hxt
      cases hxt
    | some z =>
      obtain ⟨ys, hys⟩ := List.getLast?_eq_some_iff.mp hlast
      rw [hys, List.dropLast_concat]
      rw [hys] at hxt
      rcases List.mem_append.mp hxt with h | h
      · exact h
      · rw [List.mem_singleton] at h
        exfalso
        apply hl
        rw [List.getLast?_cons, hlast, h]
        rfl

theorem inner_cells_nodup (l : List (Int × Int)) (x : Int × Int) (hn : l.Nodup)
    (hx : x ∈ inner_cells l) : l.head? ≠ some x ∧ l.getLast? ≠ some x := by
  cases l with
  | nil => simp [inner_cells] at hx
  | cons a t =>
    unfold inner_cells at hx
    rw [List.tail_cons] at hx
    have hxt : x ∈ t := List.mem_of_mem_dropLast hx
    rw [List.nodup_cons] at hn
    constructor
    · intro h
      simp only [List.head?_cons, Option.some.injEq] at h
      rw [h] at hn
      exact hn.1 hxt
    · intro h
      cases hlast : t.getLast? with
      | none =>
        have := List.getLast?_eq_none_iff.mp hlast
        rw [this] at hxt
        cases hxt
      | some z =>
        obtain ⟨ys, hys⟩ := List.getLast?_eq_some_iff.mp hlast
        rw [List.getLast?_cons, hlast] at h
        simp only [Option.getD_some, Option.some.injEq] at h
        rw [hys, List.dropLast_concat] at hx
        have hnt := hn.2
        rw [hys, List.nodup_append] at hnt
        exact hnt.2.2 hx (List.mem_singleton.mpr h.symm)

/-- A list of distinct cells of the grid has at most `N * N` elements. -/
theorem nodup_length_le (N : Int) (l : List (Int × Int)) (hn : l.Nodup)
    (hg : ∀ p ∈ l, in_grid N N p) : (l.length : Int) ≤ N * N := by
  have hinj : ∀ x ∈ l, ∀ y ∈ l,
      position_to_index N x.1 x.2 = position_to_index N y.1 y.2 → x = y := by
    intro x hx y hy hxy
    have gx := hg x hx
    have gy := hg y hy
    have h1 := indextox_position N _ _ gx.1 gx.2.1 gx.2.2.1
    have h2 := indextoy_position N _ _ gx.1 gx.2.1 gx.2.2.1
    rw [hxy, indextox_position N _ _ gy.1 gy.2.1 gy.2.2.1] at h1
    rw [hxy, indextoy_position N _ _ gy.1 gy.2.1 gy.2.2.1] at h2
    exact Prod.ext h1.symm h2.symm
  have hmap := List.Nodup.map_on hinj hn
  have hcard := List.toFinset_card_of_nodup hmap
  have hsub : (l.map (fun p => position_to_index N p.1 p.2)).toFinset ⊆ Finset.Ico 0 (N * N) := by
    intro n hn2
    rw [List.mem_toFinset, List.mem_map] at hn2
    obtain ⟨p, hp, hpn⟩ := hn2
    have gp := hg p hp
    have := position_range N p.1 p.2 gp.1 gp.2.1 gp.2.2.1 gp.2.2.2
    rw [Finset.mem_Ico, ← hpn]
    exact this
  have hle := Finset.card_le_card hsub
  rw [hcard, Int.card_Ico, List.length_map] at hle
  have hNN : 0 ≤ N * N := by nlinarith
  omega

/-- Among the routes from a start to a goal there is, for each one, a route of at most
`N * N` cells whose inner cells are inner cells of the given one. -/
theorem exists_short_route (N : Int) (startv endv r : List (Int × Int))
    (hr : is_route N N startv endv r) :
    ∃ r2, is_route N N startv endv r2 ∧ (r2.length : Int) ≤ N * N ∧
      ∀ p ∈ inner_cells r2, p ∈ inner_cells r := by
  obtain ⟨hgrid, hchain, hhead, hlast⟩ := hr
  obtain ⟨r2, hc2, hn2, hh2, hl2, hs2⟩ := erase_loops adjacent4 r hchain
  have hg2 : ∀ p ∈ r2, in_grid N N p := fun p hp => hgrid p (hs2 p hp)
  refine ⟨r2, ⟨hg2, hc2, by rw [hh2]; exact hhead, by rw [hl2]; exact hlast⟩,
    nodup_length_le N r2 hn2 hg2, ?_⟩
  intro p hp
  obtain ⟨h1, h2⟩ := inner_cells_nodup r2 p hn2 hp
  rw [hh2] at h1
  rw [hl2] at h2
  exact inner_cells_of_mem r p (hs2 p (mem_of_mem_inner_cells r2 p hp)) h1 h2

/-! ## The loops of `astar` end -/

theorem sum_set (v : Int) : ∀ (l : List Int) (i : Nat) (old : Int), l[i]? = some old →
    (l.set i v).sum = l.sum - old + v := by
  intro l
  induction l with
  | nil => intro i old h; simp at h
  | cons a l ih =>
    intro i old h
    cases i with
    | zero =>
      simp only [List.getElem?_cons_zero, Option.some.injEq] at h
      simp only [List.set_cons_zero, List.sum_cons]
      omega
    | succ i =>
      simp only [List.getElem?_cons_succ] at h
      simp only [List.set_cons_succ, List.sum_cons]
      rw [ih i old h]
      omega

theorem wr_sum (l w : List Int) (i v old : Int) (hw : wr l i v = some w)
    (ho : rd l i = some old) : w.sum = l.sum - old + v := by
  unfold wr at hw
  unfold rd at ho
  split at hw
  · rename_i hc
    cases hw
    rw [if_pos hc.1] at ho
    exact sum_set v l i.toNat old ho
  · cases hw

theorem relax_potential {inv : List OpenPt → Prop} (g : Globals) (h : HeapOps)
    (hl : HeapLaws h inv) (endv : List (Int × Int)) (n : Nat) (current traveled it : Int)
    (s s2 : Search) (hi : inv s.openset)
    (hx : relax g h endv n current traveled it s = some s2) :
    inv s2.openset ∧ potential s2 ≤ potential s := by
  unfold relax at hx
  dsimp only at hx
  cases hcl : rd s.closedset it with
  | none => rw [hcl] at hx; cases hx
  | some closed =>
    cases hb : rd s.best_est it with
    | none => rw [hcl, hb] at hx; cases hx
    | some best =>
      rw [hcl, hb] at hx
      dsimp only at hx
      split at hx
      · cases hx
        exact ⟨hi, Int.le_refl _⟩
      · split at hx
        · rename_i hlt
          split at hx
          · cases hx
          · rename_i best2 hwr
            cases hx
            have hp := hl.push s.openset
              { est := estimate n (indextox g.MAP_WIDTH it) (indextoy g.MAP_WIDTH it) endv,
                sofar := traveled, index := it } hi
            refine ⟨hp.1, ?_⟩
            have hlen := hp.2.length_eq
            have hsum := wr_sum _ _ _ _ _ hwr hb
            unfold potential
            dsimp only
            rw [hlen, hsum, List.length_cons]
            push_cast
            omega
        · cases hx
          exact ⟨hi, Int.le_refl _⟩

theorem expand_potential {inv : List OpenPt → Prop} (g : Globals) (h : HeapOps)
    (hl : HeapLaws h inv) (endv : List (Int × Int)) (ends : List Int) (obstaclev : List Nat)
    (blocking : Nat) (current traveled : Int) :
    ∀ (l : List Int) (s s2 : Search), inv s.openset →
      expand g h endv ends obstaclev blocking current traveled l s = .next s2 →
      inv s2.openset ∧ potential s2 ≤ potential s := by
  intro l
  induction l with
  | nil =>
    intro s s2 hi hx
    rw [expand] at hx
    cases hx
    exact ⟨hi, Int.le_refl _⟩
  | cons it rest ih =>
    intro s s2 hi hx
    rw [expand] at hx
    by_cases hit : it ∈ ends
    · rw [if_pos hit] at hx
      cases hx
    · rw [if_neg hit] at hx
      cases ho : rd obstaclev it with
      | none => rw [ho] at hx; cases hx
      | some o =>
        rw [ho] at hx
        dsimp only at hx
        cases hrr : range_relief g s.follow obstaclev.length blocking current it o with
        | none => rw [hrr] at hx; cases hx
        | some blocked =>
          rw [hrr] at hx
          dsimp only at hx
          by_cases hb : blocked = 0
          · rw [if_pos hb] at hx
            cases hrel : relax g h endv obstaclev.length current traveled it s with
            | none => rw [hrel] at hx; cases hx
            | some s1 =>
              rw [hrel] at hx
              dsimp only at hx
              obtain ⟨h1, h2⟩ := relax_potential g h hl endv _ _ _ _ _ _ hi hrel
              obtain ⟨h3, h4⟩ := ih s1 s2 h1 hx
              exact ⟨h3, by omega⟩
          · rw [if_neg hb] at hx
            exact ih s s2 hi hx

/-- The predecessor trace from a cell with a best estimate ends within `best - estimate + 1`
iterations. -/
theorem trace_start_total {c : Call} {Pass : Int → Prop} {inv : List OpenPt → Prop} {F cur : Int}
    {done : Int → Prop} {s : Search} (I : Inv c Pass inv F cur done s) :
    ∀ (fuel : Nat) (x b : Int), rd s.best_est x = some b → b - c.heur x < fuel →
      ∃ root, trace_start s.follow fuel x = some root := by
  intro fuel
  induction fuel with
  | zero =>
    intro x b hb hlt
    have := (I.best_bounds x b hb).1
    simp only [Nat.cast_zero] at hlt
    omega
  | succ fuel ih =>
    intro x b hb hlt
    rw [trace_start]
    cases hf : s.follow x with
    | none => exact ⟨x, rfl⟩
    | some p =>
      dsimp only
      obtain ⟨bn, bp, h1, h2, h3⟩ := (I.links x p hf).depth
      rw [hb] at h1
      cases h1
      apply ih p bp h2
      push_cast at hlt
      omega

theorem expand_not_diverge {c : Call} {N : Int} {Pass : Int → Prop} {inv : List OpenPt → Prop}
    (sq : c.Square N) (hl : HeapLaws c.h inv) (pr : c.PassRule Pass)
    {sofar cur : Int} {adj : List Int} :
    ∀ (l : List Int) (done : Int → Prop) (s : Search), (∀ m ∈ l, m ∈ adj) →
      Expanding c Pass inv sofar cur adj done s →
      expand c.g c.h c.endv c.ends c.obstaclev c.blocking cur (sofar + 1) l s ≠ .diverge := by
  intro l
  induction l with
  | nil =>
    intro done s _ _ hx
    rw [expand] at hx
    cases hx
  | cons it rest ih =>
    intro done s hsub E hx
    have hone := expand_inv sq hl pr [it] done s
      (fun m hm => hsub m (by rw [List.mem_singleton.mp hm]; exact List.mem_cons_self _ _)) E
    rw [expand] at hx hone
    by_cases hit : it ∈ c.ends
    · rw [if_pos hit] at hx
      cases hx
    · rw [if_neg hit] at hx hone
      cases ho : rd c.obstaclev it with
      | none => rw [ho] at hx; cases hx
      | some o =>
        rw [ho] at hx hone
        dsimp only at hx hone
        cases hrr : range_relief c.g s.follow c.obstaclev.length c.blocking cur it o with
        | none =>
          unfold range_relief at hrr
          dsimp only at hrr
          split at hrr
          · have hbound := (E.inv.best_bounds cur _ E.best_cur).2
            have hheur := c.heur_nonneg cur
            obtain ⟨root, hroot⟩ := trace_start_total E.inv (c.obstaclev.length + 1) cur _
              E.best_cur (by
                have : (c.len : Int) = c.obstaclev.length := rfl
                push_cast
                omega)
            rw [hroot] at hrr
            cases hrr
          · cases hrr
        | some blocked =>
          rw [hrr] at hx hone
          dsimp only at hx hone
          have hrest : ∀ m ∈ rest, m ∈ adj := fun m hm => hsub m (List.mem_cons_of_mem _ hm)
          by_cases hb : blocked = 0
          · rw [if_pos hb] at hx hone
            cases hrel : relax c.g c.h c.endv c.obstaclev.length cur (sofar + 1) it s with
            | none => rw [hrel] at hx; cases hx
            | some s1 =>
              rw [hrel] at hx hone
              dsimp only at hx hone
              rw [expand] at hone
              exact ih _ s1 hrest hone hx
          · rw [if_neg hb] at hx hone
            rw [expand] at hone
            exact ih _ s hrest hone hx

/-- The reconstruction loop along the predecessors of a closed cell ends. -/
theorem trace_path_total {c : Call} {Pass : Int → Prop} {inv : List OpenPt → Prop}
    {sofar cur : Int} {adj : List Int} {done : Int → Prop} {s0 : Search}
    (E : Expanding c Pass inv sofar cur adj done s0) (sel : Int) (hsel : sel ∈ c.ends) :
    ∀ (fuel : Nat) (x b : Int) (path : List Int), rd s0.closedset x = some true →
      rd s0.best_est x = some b → b - c.heur x < fuel →
      ∃ r, trace_path c.starts (follow_set s0.follow sel cur) fuel x path = some r := by
  intro fuel
  induction fuel with
  | zero =>
    intro x b path _ hb hlt
    have := (E.inv.best_bounds x b hb).1
    simp only [Nat.cast_zero] at hlt
    omega
  | succ fuel ih =>
    intro x b path hcl hb hlt
    rw [trace_path]
    by_cases hst : x ∈ c.starts
    · rw [if_pos hst]
      exact ⟨_, rfl⟩
    · rw [if_neg hst]
      have hne : x ≠ sel := fun h => (E.inv.closed x hcl).not_end (h ▸ hsel)
      have hfs : follow_set s0.follow sel cur x = s0.follow x := by
        unfold follow_set
        rw [if_neg hne]
      rw [hfs]
      cases hf : s0.follow x with
      | none => exact ⟨_, rfl⟩
      | some p =>
        dsimp only
        have hL := E.inv.links x p hf
        obtain ⟨bn, bp, h1, h2, h3⟩ := hL.depth
        rw [hb] at h1
        cases h1
        apply ih p bp _ hL.closed h2
        push_cast at hlt
        omega

theorem reconstruct_not_diverge {c : Call} {Pass : Int → Prop} {inv : List OpenPt → Prop}
    {sofar cur : Int} {adj : List Int} {done : Int → Prop} {s0 : Search}
    (E : Expanding c Pass inv sofar cur adj done s0) (sel : Int) (hsel : sel ∈ c.ends) :
    reconstruct c.g c.starts c.len sel (struck s0 sel cur) ≠ .diverge := by
  have hsome : ∃ r, trace_path c.starts (follow_set s0.follow sel cur) (c.len + 2) sel [sel]
      = some r := by
    rw [trace_path]
    by_cases hst : sel ∈ c.starts
    · rw [if_pos hst]
      exact ⟨_, rfl⟩
    · rw [if_neg hst]
      have hfs : follow_set s0.follow sel cur sel = some cur := by
        unfold follow_set
        rw [if_pos rfl]
      rw [hfs]
      dsimp only
      have hbound := (E.inv.best_bounds cur _ E.best_cur).2
      have hheur := c.heur_nonneg cur
      apply trace_path_total E sel hsel (c.len + 1) cur _ _ E.is_closed E.best_cur
      push_cast
      omega
  obtain ⟨⟨fp, path⟩, hr⟩ := hsome
  unfold reconstruct struck
  dsimp only
  rw [hr]
  dsimp only
  split
  · intro h; cases h
  · intro h; cases h

theorem potential_nonneg {c : Call} {Pass : Int → Prop} {inv : List OpenPt → Prop} {F cur : Int}
    {done : Int → Prop} {s : Search} (I : Inv c Pass inv F cur done s) : 0 ≤ potential s := by
  unfold potential
  have : 0 ≤ s.best_est.sum := by
    apply List.sum_nonneg
    intro b hb
    obtain ⟨i, hi, hget⟩ := List.getElem_of_mem hb
    have hrd : rd s.best_est (i : Int) = some b := by
      unfold rd
      rw [if_pos (Int.natCast_nonneg _), Int.toNat_natCast, List.getElem?_eq_getElem hi, hget]
    have := (I.best_bounds _ _ hrd).1
    have := c.heur_nonneg i
    omega
  omega

/-- The main loop, started with more fuel than the potential of the state, does not run out
of it. -/
theorem search_total {c : Call} {N : Int} {Pass : Int → Prop} {inv : List OpenPt → Prop}
    (sq : c.Square N) (hl : HeapLaws c.h inv) (pr : c.PassRule Pass) :
    ∀ (fuel : Nat) (s : Search) (F : Int), Head c Pass inv F s → potential s < fuel →
      search c.g c.h c.endv c.starts c.ends c.obstaclev c.blocking fuel s ≠ .diverge := by
  intro fuel
  induction fuel with
  | zero =>
    intro s F I hlt
    have := potential_nonneg I
    simp only [Nat.cast_zero] at hlt
    omega
  | succ fuel ih =>
    intro s F I hlt
    rw [search]
    cases hpop : c.h.pop s.openset with
    | none => intro h; cases h
    | some eq =>
      obtain ⟨e, q⟩ := eq
      dsimp only
      have hI := I
      unfold Head at hI
      obtain ⟨hinvq, hperm, _⟩ := hl.pop_some _ _ _ hI.heap hpop
      have hlen := hperm.length_eq
      rw [List.length_cons] at hlen
      cases hcl : rd s.closedset e.index with
      | none => intro h; cases h
      | some b =>
        cases b with
        | true =>
          dsimp only
          apply ih _ F (pop_discard hl I e q hpop hcl)
          unfold potential at hlt ⊢
          dsimp only
          push_cast at hlt
          rw [hlen] at hlt
          push_cast at hlt
          omega
        | false =>
          dsimp only
          cases hwr : wr s.closedset e.index true with
          | none => intro h; cases h
          | some cl =>
            cases hadj : rd c.g.ADJACENCY_LIST e.index with
            | none => intro h; cases h
            | some adj =>
              dsimp only
              have E := pop_expand hl I e q cl adj hpop hcl hwr hadj
              have hx := expand_inv sq hl pr adj (fun _ => False) _ (fun m hm => hm) E
              have hnd := expand_not_diverge sq hl pr adj (fun _ => False) _ (fun m hm => hm) E
              have hpot := expand_potential c.g c.h hl c.endv c.ends c.obstaclev c.blocking
                e.index (e.sofar + 1) adj { s with openset := q, closedset := cl }
              revert hx hnd hpot
              cases hexp : expand c.g c.h c.endv c.ends c.obstaclev c.blocking e.index
                  (e.sofar + 1) adj { s with openset := q, closedset := cl } with
              | next s2 =>
                intro hx _ hpot
                dsimp only
                apply ih s2 _ (head_of_expanding hx (fun m hm => Or.inr hm))
                have h2 := (hpot s2 hinvq rfl).2
                unfold potential at hlt h2 ⊢
                dsimp only at h2
                push_cast at hlt
                rw [hlen] at hlt
                push_cast at hlt
                omega
              | found sel s2 =>
                intro hx _ _
                dsimp only
                obtain ⟨hsel, _, done2, s0, E0, hs2⟩ := hx
                rw [hs2]
                exact reconstruct_not_diverge E0 sel hsel
              | fault => intro _ _ _ h; cases h
              | diverge => intro _ hnd _; exact absurd rfl hnd

theorem seed_length {inv : List OpenPt → Prop} (h : HeapOps) (hl : HeapLaws h inv) (W L : Int)
    (endv : List (Int × Int)) :
    ∀ (rest : List (Int × Int)) (s s2 : Search), inv s.openset →
      seed h W L endv rest s = .ok s2 →
      s2.openset.length = s.openset.length + rest.length := by
  intro rest
  induction rest with
  | nil =>
    intro s s2 _ hx
    rw [seed] at hx
    cases hx
    rfl
  | cons st rest ih =>
    intro s s2 hi hx
    rw [seed] at hx
    split at hx
    · cases hx
    · dsimp only at hx
      split at hx
      · cases hx
      · have hp := hl.push s.openset
          { est := estimate L st.1 st.2 endv, sofar := 0, index := position_to_index W st.1 st.2 }
          hi
        rw [ih _ s2 hp.1 hx]
        dsimp only
        rw [hp.2.length_eq, List.length_cons, List.length_cons]
        omega

/-- On the square grid, with a lawful priority queue, every loop of `astar` ends. -/
theorem astar_total {c : Call} {N : Int} {Pass : Int → Prop} {inv : List OpenPt → Prop}
    (sq : c.Square N) (hl : HeapLaws c.h inv) (pr : c.PassRule Pass) : c.run ≠ .diverge := by
  unfold Call.run astar
  dsimp only
  cases hseed : seed c.h c.g.MAP_WIDTH (c.obstaclev.length : Int) c.endv c.startv
      { openset := [], closedset := List.replicate c.obstaclev.length false,
        follow := fun _ => none,
        best_est := List.replicate c.obstaclev.length (c.obstaclev.length : Int) } with
  | error o =>
    dsimp only
    rcases seed_error _ _ _ _ _ _ _ hseed with h | h
    · rw [h]; intro hx; cases hx
    · rw [h]; intro hx; cases hx
  | ok s0 =>
    dsimp only
    have S := seed_seeded sq hl c.startv [] _ s0 sq.starts_in (seeded_initial c hl) hseed
    rw [List.nil_append] at S
    have H : Head c Pass inv 0 s0 := head_of_seeded sq S
    apply search_total sq hl pr _ s0 0 H
    have hlen := seed_length c.h hl _ _ _ c.startv _ s0 hl.empty hseed
    have hI := H
    unfold Head at hI
    have hsum : s0.best_est.sum ≤ s0.best_est.length • (c.len : Int) := by
      apply List.sum_le_card_nsmul
      intro b hb
      obtain ⟨i, hi, hget⟩ := List.getElem_of_mem hb
      have hrd : rd s0.best_est (i : Int) = some b := by
        unfold rd
        rw [if_pos (Int.natCast_nonneg _), Int.toNat_natCast, List.getElem?_eq_getElem hi, hget]
      exact (hI.best_bounds _ _ hrd).2
    rw [hI.len_best] at hsum
    unfold potential search_fuel
    rw [hlen]
    simp only [List.length_nil, Nat.zero_add, smul_eq_mul, nsmul_eq_mul] at hsum ⊢
    have : (c.len : Int) = c.obstaclev.length := rfl
    push_cast
    rw [this] at hsum
    omega

/-! ## What a call returns -/

/-- On the square grid, with a lawful priority queue and no start among the goals, a call
reports that there is no path, indexes a vector outside its bounds, or returns a path. -/
theorem run_cases {c : Call} {N : Int} {Pass : Int → Prop} {inv : List OpenPt → Prop}
    (sq : c.Square N) (hl : HeapLaws c.h inv) (pr : c.PassRule Pass)
    (hdis : ∀ p ∈ c.startv, p ∉ c.endv) :
    c.run = .null .noPath ∨ c.run = .fault ∨ ∃ result, c.run = .path result := by
  have htot := astar_total sq hl pr
  rcases astar_trace sq hl pr with h1 | h1 | h1 | ⟨_, h1 | h1⟩
  · obtain ⟨p, hp, hpe⟩ := run_start_in_ends c h1
    exact absurd hpe (hdis p hp)
  · right; left; exact h1
  · exact absurd h1 htot
  · left; exact h1.1
  · obtain ⟨F, s1, e, q, adj, done, s0, sel, _, _, E, hsel, _, ho⟩ := h1
    cases hrun : c.run with
    | path result => right; right; exact ⟨result, rfl⟩
    | null why =>
      rw [hrun] at ho
      exact absurd ho.symm (reconstruct_not_bug E sel hsel why)
    | fault => right; left; rfl
    | diverge => exact absurd hrun htot

/-- A start that is also a goal is a route of one cell, which has no cell strictly between
its ends. -/
theorem disjoint_of_inner {N : Int} {startv endv : List (Int × Int)}
    (hs : ∀ p ∈ startv, in_grid N N p)
    (hinner : ∀ r, is_route N N startv endv r → ∃ p, p ∈ inner_cells r) :
    ∀ p ∈ startv, p ∉ endv := by
  intro p hp hpe
  have hone : is_route N N startv endv [p] :=
    ⟨fun x hx => by rw [List.mem_singleton.mp hx]; exact hs p hp, List.chain'_singleton _,
      ⟨p, hp, rfl⟩, ⟨p, hpe, rfl⟩⟩
  obtain ⟨x, hx⟩ := hinner [p] hone
  simp [inner_cells] at hx

/-- C5 (as amended). Blocked means no path: after `init_astar(N, N)`, with a lawful priority
queue, a bitmap of `N * N` entries and starts and goals inside the grid, if every route from
a start to a goal has, strictly between its two ends, a cell with an obstacle bit the mask
selects, then `astar` returns no path: the call ends, and it either returns `NULL` for "no
path" or indexes a vector outside its bounds. -/
theorem astar_blocked_inside_no_path (g0 : Globals) (N : Int) (h : HeapOps)
    (startv endv : List (Int × Int)) (obstaclev : List Nat) (blocking : Nat)
    (hh : h.Lawful) (hN : 1 ≤ N) (hlen : (obstaclev.length : Int) = N * N)
    (hs : ∀ p ∈ startv, in_grid N N p) (he : ∀ p ∈ endv, in_grid N N p)
    (hblocked : ∀ r, is_route N N startv endv r →
      ∃ p ∈ inner_cells r, obstacle_bits N obstaclev blocking p ≠ 0) :
    astar (init_astar g0 N N) h startv endv obstaclev blocking = .null .noPath ∨
      astar (init_astar g0 N N) h startv endv obstaclev blocking = .fault := by
  obtain ⟨inv, hl⟩ := hh
  have sq := square_of_init g0 (init_astar g0 N N) N h startv endv obstaclev blocking hN rfl rfl
    hlen hs he
  have pr := pass_rule_unlimited ⟨init_astar g0 N N, h, startv, endv, obstaclev, blocking⟩
    (unlimited_init_astar g0 N N)
  have hdis : ∀ p ∈ startv, p ∉ endv := disjoint_of_inner hs (fun r hr => by
    obtain ⟨p, hp, _⟩ := hblocked r hr
    exact ⟨p, hp⟩)
  rcases run_cases sq hl pr hdis with h1 | h1 | ⟨result, hrun⟩
  · left; exact h1
  · right; exact h1
  · exfalso
    rcases astar_trace sq hl pr with h1 | h1 | h1 | ⟨_, h1 | h1⟩
    · rw [hrun] at h1; cases h1
    · rw [hrun] at h1; cases h1
    · rw [hrun] at h1; cases h1
    · rw [hrun] at h1; cases h1.1
    · obtain ⟨F, s1, e, q, adj, done, s0, sel, _, _, E, hsel, hadj, ho⟩ := h1
      rw [hrun] at ho
      obtain ⟨r, hroute, hinner, _, _⟩ :=
        reconstruct_route sq hdis E sel hsel hadj result ho.symm
      obtain ⟨p, hp, hne⟩ := hblocked r hroute
      exact hne (obstacle_bits_of_pass N obstaclev blocking p (hinner p hp))

theorem astar_blocked_inside_no_path_witness :
    (∀ r, is_route 2 2 [(0, 0)] [(1, 1)] r →
      ∃ p ∈ inner_cells r, obstacle_bits 2 [0, 1, 1, 0] 1 p ≠ 0) ∧
    (astar (init_astar Globals.initial 2 2) stdHeap [(0, 0)] [(1, 1)] [0, 1, 1, 0] 1
        = .null .noPath ∨
      astar (init_astar Globals.initial 2 2) stdHeap [(0, 0)] [(1, 1)] [0, 1, 1, 0] 1
        = .fault) :=
  have hb : ∀ r, is_route 2 2 [(0, 0)] [(1, 1)] r →
      ∃ p ∈ inner_cells r, obstacle_bits 2 [0, 1, 1, 0] 1 p ≠ 0 := by
    intro r hr
    obtain ⟨p, hp, hpe⟩ := routes_2x2_corner r hr
    refine ⟨p, hp, ?_⟩
    rcases hpe with h | h <;> rw [h] <;> decide
  ⟨hb, astar_blocked_inside_no_path Globals.initial 2 stdHeap [(0, 0)] [(1, 1)] [0, 1, 1, 0] 1
    stdHeap_lawful (by decide) (by decide) (by decide) (by decide) hb⟩

/-- C7 (as amended). Range-relief boundary: on the square grid of side `N`, with a lawful
priority queue, a single start `s`, a layer `2^k` whose cells selected by the mask (the
wall) all lie at Manhattan distance `R + 1` from `s`, every route from `s` to a goal going
through a wall cell strictly between its ends, and some route having no other selected
obstacle bit strictly between its ends: after `set_layer_distance(2^k, R+1)`
the call ends without a path (the wall blocks): it returns `NULL` for "no path" or indexes a
vector outside its bounds; after `set_layer_distance(2^k, R)` the call ends without `NULL`
(the wall does not block): it returns a path or indexes a vector outside its bounds. -/
theorem wall_at_range_boundary (g0 : Globals) (N : Int) (h : HeapOps) (s : Int × Int)
    (endv : List (Int × Int)) (obstaclev : List Nat) (blocking : Nat) (k : Nat) (R : Int)
    (r : List (Int × Int))
    (hh : h.Lawful) (hN : 1 ≤ N) (hlen : (obstaclev.length : Int) = N * N)
    (hs : in_grid N N s) (he : ∀ p ∈ endv, in_grid N N p) (hk : k < 64)
    (hwall : ∀ p, in_grid N N p → (obstacle_bits N obstaclev blocking p).testBit k = true →
      distance s.1 s.2 p.1 p.2 = R + 1)
    (hthrough : ∀ r, is_route N N [s] endv r →
      ∃ p ∈ inner_cells r, (obstacle_bits N obstaclev blocking p).testBit k = true)
    (hr : is_route N N [s] endv r)
    (hronly : ∀ p ∈ inner_cells r, obstacle_bits N obstaclev blocking p = 0 ∨
      obstacle_bits N obstaclev blocking p = 2 ^ k) :
    (astar (set_layer_distance (init_astar g0 N N) (2 ^ k) (R + 1)) h [s] endv
        obstaclev blocking = .null .noPath ∨
      astar (set_layer_distance (init_astar g0 N N) (2 ^ k) (R + 1)) h [s] endv
        obstaclev blocking = .fault) ∧
    ((∃ result, astar (set_layer_distance (init_astar g0 N N) (2 ^ k) R) h [s] endv
        obstaclev blocking = .path result) ∨
      astar (set_layer_distance (init_astar g0 N N) (2 ^ k) R) h [s] endv
        obstaclev blocking = .fault) := by
  obtain ⟨inv, hl⟩ := hh
  have hsv : ∀ p ∈ [s], in_grid N N p := by
    intro p hp
    rw [List.mem_singleton] at hp
    rw [hp]; exact hs
  have hbits : ∀ (p : Int × Int) (o : Nat),
      rd obstaclev (position_to_index N p.1 p.2) = some o →
      obstacle_bits N obstaclev blocking p = o &&& blocking := by
    intro p o ho
    unfold obstacle_bits
    rw [ho]
    rfl
  have hdis : ∀ p ∈ [s], p ∉ endv := disjoint_of_inner hsv (fun r hr => by
    obtain ⟨p, hp, _⟩ := hthrough r hr
    exact ⟨p, hp⟩)
  constructor
  · have sq := square_of_init g0 (set_layer_distance (init_astar g0 N N) (2 ^ k) (R + 1)) N h
      [s] endv obstaclev blocking hN rfl rfl hlen hsv he
    have pr := pass_rule_single
      ⟨set_layer_distance (init_astar g0 N N) (2 ^ k) (R + 1), h, [s], endv, obstaclev, blocking⟩
      s rfl
    rcases run_cases sq hl pr hdis with h1 | h1 | ⟨result, hrun⟩
    · left; exact h1
    · right; exact h1
    exfalso
    rcases astar_trace sq hl pr with h1 | h1 | h1 | ⟨_, h1 | h1⟩
    · rw [hrun] at h1; cases h1
    · rw [hrun] at h1; cases h1
    · rw [hrun] at h1; cases h1
    · rw [hrun] at h1; cases h1.1
    · obtain ⟨F, s1, e, q, adj, done, s0, sel, _, _, E, hsel, hadj, ho⟩ := h1
      rw [hrun] at ho
      obtain ⟨r2, hroute, hinner, _, _⟩ :=
        reconstruct_route sq hdis E sel hsel hadj result ho.symm
      obtain ⟨p, hp, hbit⟩ := hthrough r2 hroute
      have hpg := hroute.1 p (mem_of_mem_inner_cells r2 p hp)
      obtain ⟨o, ho2, hz⟩ := hinner p hp
      rw [hbits p o ho2] at hbit
      refine relief_keeps_near (set_layer_distance (init_astar g0 N N) (2 ^ k) (R + 1)) N s p k
        (o &&& blocking) rfl hs hpg hk hbit ?_ hz
      have hd := hwall p hpg (by rw [hbits p o ho2]; exact hbit)
      have hld : (set_layer_distance (init_astar g0 N N) (2 ^ k) (R + 1)).LAYER_DISTANCE (2 ^ k)
          = R + 1 := by
        simp [set_layer_distance]
      rw [hld, hd]
  · have sq := square_of_init g0 (set_layer_distance (init_astar g0 N N) (2 ^ k) R) N h
      [s] endv obstaclev blocking hN rfl rfl hlen hsv he
    have pr := pass_rule_single
      ⟨set_layer_distance (init_astar g0 N N) (2 ^ k) R, h, [s], endv, obstaclev, blocking⟩
      s rfl
    have hld : (set_layer_distance (init_astar g0 N N) (2 ^ k) R).LAYER_DISTANCE (2 ^ k) = R := by
      simp [set_layer_distance]
    obtain ⟨r2, hr2, hrlen, hsub⟩ := exists_short_route N [s] endv r hr
    rcases run_cases sq hl pr hdis with h1 | h1 | h1
    case inr.inl => right; exact h1
    case inr.inr => left; exact h1
    exfalso
    refine run_not_null sq hl pr hdis r2 hr2 (by rw [sq.len_eq]; exact hrlen) ?_ .noPath h1
    intro p hp2
    have hp := hsub p hp2
    have hpg := hr.1 p (mem_of_mem_inner_cells r p hp)
    have hrange := sq.index_range p hpg
    obtain ⟨o, ho⟩ := rd_of_range obstaclev (position_to_index N p.1 p.2) hrange.1 hrange.2
    refine ⟨o, ho, ?_⟩
    show relief _ (position_to_index N s.1 s.2) (position_to_index N p.1 p.2) (o &&& blocking) = 0
    rcases hronly p hp with h0 | h2
    · rw [hbits p o ho] at h0
      rw [h0]
      exact Nat.le_zero.mp (relief_le _ _ _ 0)
    · have hbit : (obstacle_bits N obstaclev blocking p).testBit k = true := by
        rw [h2, Nat.testBit_two_pow]
        simp
      have hd := hwall p hpg hbit
      rw [hbits p o ho] at h2
      rw [h2]
      have hdlt := distance_in_grid N s p hs hpg
      apply relief_clears_far _ N s p k rfl hs hpg hk
      · rw [hld]
        show R ≠ N * N
        omega
      · rw [hld]
        omega

/-- Witness for C7: the 2x2 grid, start `(0,0)`, goal `(1,1)`, layer 1 on the two cells at
distance 1, range `R = 0`. -/
theorem wall_at_range_boundary_witness :
    (astar (set_layer_distance (init_astar Globals.initial 2 2) (2 ^ 0) (0 + 1))
        stdHeap [(0, 0)] [(1, 1)] [0, 1, 1, 0] 1 = .null .noPath ∨
      astar (set_layer_distance (init_astar Globals.initial 2 2) (2 ^ 0) (0 + 1))
        stdHeap [(0, 0)] [(1, 1)] [0, 1, 1, 0] 1 = .fault) ∧
    ((∃ result, astar (set_layer_distance (init_astar Globals.initial 2 2) (2 ^ 0) 0)
        stdHeap [(0, 0)] [(1, 1)] [0, 1, 1, 0] 1 = .path result) ∨
      astar (set_layer_distance (init_astar Globals.initial 2 2) (2 ^ 0) 0)
        stdHeap [(0, 0)] [(1, 1)] [0, 1, 1, 0] 1 = .fault) := by
  refine wall_at_range_boundary Globals.initial 2 stdHeap (0, 0) [(1, 1)] [0, 1, 1, 0] 1 0 0
    [(0, 0), (1, 0), (1, 1)] stdHeap_lawful (by decide) (by decide) (by decide) ?_ (by decide)
    ?_ ?_ ?_ ?_
  · intro p hp
    rw [List.mem_singleton] at hp
    rw [hp]
    decide
  · rintro ⟨x, y⟩ ⟨hx0, hx1, hy0, hy1⟩ hbit
    have hx : x = 0 ∨ x = 1 := by omega
    have hy : y = 0 ∨ y = 1 := by omega
    rcases hx with hx | hx <;> rcases hy with hy | hy <;> subst hx <;> subst hy <;>
      revert hbit <;> decide
  · intro r hr
    obtain ⟨p, hp, hp2⟩ := routes_2x2_corner r hr
    refine ⟨p, hp, ?_⟩
    rcases hp2 with hp2 | hp2 <;> rw [hp2] <;> decide
  · exact ⟨by decide, List.Chain'.cons (by decide) (List.Chain'.cons (by decide)
      (List.chain'_singleton _)), ⟨(0, 0), by decide, rfl⟩, ⟨(1, 1), by decide, rfl⟩⟩
  · intro p hp
    have hp2 : p = (1, 0) := by simpa [inner_cells] using hp
    rw [hp2]
    right
    decide

/-- C7 (as stated, refuted). On the 4x4 grid with start `(0,0)` and goal `(3,0)`, layer 1 set
on the three cells `(2,0)`, `(1,1)`, `(0,2)` at Manhattan distance `R + 1 = 2`: with the
range of the layer set to `R = 1` the search returns the straight path through the wall, and
with the range set to `R + 1 = 2` it reports that there is no path. -/
theorem wall_range_reversed :
    distance 0 0 2 0 = 1 + 1 ∧ distance 0 0 1 1 = 1 + 1 ∧ distance 0 0 0 2 = 1 + 1 ∧
    astar (set_layer_distance (init_astar Globals.initial 4 4) 1 1) stdHeap [(0, 0)] [(3, 0)]
      [0, 0, 1, 0, 0, 1, 0, 0, 1, 0, 0, 0, 0, 0, 0, 0] 1
      = .path [0, 0, 0, 0, 1, 0, 2, 0, 3, 0, -1] ∧
    astar (set_layer_distance (init_astar Globals.initial 4 4) 1 (1 + 1)) stdHeap [(0, 0)]
      [(3, 0)] [0, 0, 1, 0, 0, 1, 0, 0, 1, 0, 0, 0, 0, 0, 0, 0] 1
      = .null .noPath := by
  refine ⟨by decide, by decide, by decide, ?_, ?_⟩
  · decide!
  · decide!

/-! ## The bookkeeping is kept whatever the layer ranges -/

theorem follow_set_isSome (follow : Int → Option Int) (k v n : Int)
    (h : (follow n).isSome) : (follow_set follow k v n).isSome := by
  unfold follow_set
  split
  · rfl
  · exact h

theorem relax_trail {c : Call} {inv : List OpenPt → Prop} (hl : HeapLaws c.h inv)
    {sofar cur : Int} {adj : List Int} {s : Search}
    (E : TrailExp c inv sofar cur adj s) (it : Int) (hit : it ∈ adj) (hend : it ∉ c.ends)
    (hpass : ∃ (o : Nat) (st : Int), rd c.obstaclev it = some o ∧
      relief c.g st it (o &&& c.blocking) = 0)
    (s2 : Search)
    (hx : relax c.g c.h c.endv c.obstaclev.length cur (sofar + 1) it s = some s2) :
    TrailExp c inv sofar cur adj s2 := by
  unfold relax at hx
  dsimp only at hx
  have hheur : estimate (c.obstaclev.length : Int) (indextox c.g.MAP_WIDTH it)
      (indextoy c.g.MAP_WIDTH it) c.endv = c.heur it := rfl
  rw [hheur] at hx
  cases hcl : rd s.closedset it with
  | none => rw [hcl] at hx; cases hx
  | some closed =>
    cases hb : rd s.best_est it with
    | none => rw [hcl, hb] at hx; cases hx
    | some best =>
      rw [hcl, hb] at hx
      dsimp only at hx
      split at hx
      · cases hx; exact E
      · split at hx
        · rename_i hlt
          split at hx
          · cases hx
          · rename_i best2 hwr
            cases hx
            obtain ⟨bc, hbc, hbcle⟩ := E.best_cur
            have hsofar := E.sofar_nonneg
            have hne : it ≠ cur := by
              intro h
              rw [h, hbc] at hb
              cases hb
              rw [h] at hlt
              omega
            have hrd_it : rd best2 it = some (c.heur it + (sofar + 1)) :=
              rd_wr_same _ _ _ _ hwr
            have hrd_ne : ∀ n, n ≠ it → rd best2 n = rd s.best_est n :=
              fun n hn => rd_wr_ne _ _ _ _ _ hwr hn
            have hpush := hl.push s.openset
              { est := c.heur it, sofar := sofar + 1, index := it } E.trail.heap
            have hbb := E.trail.best_bounds it best hb
            refine
              { trail :=
                  { heap := hpush.1
                    len_closed := E.trail.len_closed
                    len_best := by
                      show best2.length = c.len
                      rw [wr_length _ _ _ _ hwr]; exact E.trail.len_best
                    best_bounds := ?_
                    entries := ?_
                    links := ?_
                    closed := ?_ }
                sofar_nonneg := hsofar
                is_closed := E.is_closed
                best_cur := ?_
                table := E.table }
            · intro n b hnb
              change rd best2 n = some b at hnb
              by_cases hn : n = it
              · rw [hn, hrd_it] at hnb
                cases hnb
                rw [hn]
                constructor <;> omega
              · rw [hrd_ne n hn] at hnb
                exact E.trail.best_bounds n b hnb
            · intro e he
              rcases List.mem_cons.mp (hpush.2.mem_iff.mp he) with h | h
              · rw [h]
                exact
                  { est_eq := rfl
                    sofar_nonneg := by show 0 ≤ sofar + 1; omega
                    best_le := ⟨_, hrd_it, Int.le_refl _⟩
                    rooted := Or.inr (by
                      show (follow_set s.follow it cur it).isSome
                      unfold follow_set
                      rw [if_pos rfl]; rfl)
                    not_end := hend }
              · have old := E.trail.entries e h
                refine
                  { est_eq := old.est_eq
                    sofar_nonneg := old.sofar_nonneg
                    best_le := ?_
                    rooted := old.rooted.imp id (follow_set_isSome _ _ _ _)
                    not_end := old.not_end }
                obtain ⟨b, hb1, hb2⟩ := old.best_le
                show ∃ b, rd best2 e.index = some b ∧ b ≤ e.est + e.sofar
                by_cases hi : e.index = it
                · rw [hi] at hb1 ⊢
                  rw [hb] at hb1
                  cases hb1
                  exact ⟨_, hrd_it, by omega⟩
                · exact ⟨b, by rw [hrd_ne _ hi]; exact hb1, hb2⟩
            · intro n p hnp
              change follow_set s.follow it cur n = some p at hnp
              unfold follow_set at hnp
              by_cases hn : n = it
              · rw [if_pos hn] at hnp
                cases hnp
                rw [hn]
                exact
                  { not_end := hend
                    closed := E.is_closed
                    listed := ⟨adj, E.table, hit⟩
                    pass := hpass
                    depth := ⟨_, bc, hrd_it, by
                      show rd best2 cur = some bc
                      rw [hrd_ne cur (Ne.symm hne)]; exact hbc, by omega⟩ }
              · rw [if_neg hn] at hnp
                have L := E.trail.links n p hnp
                obtain ⟨bn, bp, h1, h2, h3⟩ := L.depth
                refine
                  { not_end := L.not_end
                    closed := L.closed
                    listed := L.listed
                    pass := L.pass
                    depth := ?_ }
                show ∃ bn bp, rd best2 n = some bn ∧ rd best2 p = some bp ∧
                  bp - c.heur p + 1 ≤ bn - c.heur n
                by_cases hp : p = it
                · rw [hp] at h2 h3 ⊢
                  rw [hb] at h2
                  cases h2
                  exact ⟨bn, _, by rw [hrd_ne n hn]; exact h1, hrd_it, by omega⟩
                · exact ⟨bn, bp, by rw [hrd_ne n hn]; exact h1, by rw [hrd_ne p hp]; exact h2, h3⟩
            · intro n hn
              obtain ⟨hr, hne2⟩ := E.trail.closed n hn
              exact ⟨hr.imp id (follow_set_isSome _ _ _ _), hne2⟩
            · exact ⟨bc, by
                show rd best2 cur = some bc
                rw [hrd_ne cur (Ne.symm hne)]; exact hbc, hbcle⟩
        · cases hx; exact E

/-- Under the bookkeeping invariant the predecessor trace from a cell with a best estimate
ends within `best - estimate + 1` iterations. -/
theorem trace_start_ends {c : Call} {inv : List OpenPt → Prop} {s : Search}
    (T : Trail c inv s) :
    ∀ (fuel : Nat) (x b : Int), rd s.best_est x = some b → b - c.heur x < fuel →
      ∃ root, trace_start s.follow fuel x = some root := by
  intro fuel
  induction fuel with
  | zero =>
    intro x b hb hlt
    have := (T.best_bounds x b hb).1
    simp only [Nat.cast_zero] at hlt
    omega
  | succ fuel ih =>
    intro x b hb hlt
    rw [trace_start]
    cases hf : s.follow x with
    | none => exact ⟨x, rfl⟩
    | some p =>
      dsimp only
      obtain ⟨bn, bp, h1, h2, h3⟩ := (T.links x p hf).depth
      rw [hb] at h1
      cases h1
      apply ih p bp h2
      push_cast at hlt
      omega

theorem range_relief_zero (g : Globals) (follow : Int → Option Int) (n : Nat) (blocking : Nat)
    (current it : Int) (o : Nat)
    (h : range_relief g follow n blocking current it o = some 0) :
    ∃ st : Int, relief g st it (o &&& blocking) = 0 := by
  unfold range_relief at h
  dsimp only at h
  split at h
  · split at h
    · cases h
    · rename_i root _
      simp only [Option.some.injEq] at h
      exact ⟨root, h⟩
  · simp only [Option.some.injEq] at h
    refine ⟨0, ?_⟩
    rw [h]
    exact Nat.le_zero.mp (relief_le g 0 it 0)

/-- The loop over the neighbours keeps the bookkeeping, and its trace to the originating
start ends. -/
theorem expand_trail {c : Call} {inv : List OpenPt → Prop} (hl : HeapLaws c.h inv)
    {sofar cur : Int} {adj : List Int} :
    ∀ (l : List Int) (s : Search), (∀ m ∈ l, m ∈ adj) → TrailExp c inv sofar cur adj s →
      match expand c.g c.h c.endv c.ends c.obstaclev c.blocking cur (sofar + 1) l s with
      | .next s2 => TrailExp c inv sofar cur adj s2
      | .found sel s2 => sel ∈ c.ends ∧ sel ∈ adj ∧
          ∃ s0 : Search, TrailExp c inv sofar cur adj s0 ∧ s2 = struck s0 sel cur
      | .fault => True
      | .diverge => False := by
  intro l
  induction l with
  | nil =>
    intro s _ E
    rw [expand]
    exact E
  | cons it rest ih =>
    intro s hsub E
    have hit : it ∈ adj := hsub it (List.mem_cons_self _ _)
    have hrest : ∀ m ∈ rest, m ∈ adj := fun m hm => hsub m (List.mem_cons_of_mem _ hm)
    rw [expand]
    by_cases hend : it ∈ c.ends
    · rw [if_pos hend]
      exact ⟨hend, hit, s, E, rfl⟩
    · rw [if_neg hend]
      cases ho : rd c.obstaclev it with
      | none => trivial
      | some o =>
        dsimp only
        cases hrr : range_relief c.g s.follow c.obstaclev.length c.blocking cur it o with
        | none =>
          exfalso
          unfold range_relief at hrr
          dsimp only at hrr
          split at hrr
          · obtain ⟨bc, hbc, hbcle⟩ := E.best_cur
            have hbound := (E.trail.best_bounds cur bc hbc).2
            have hheur := c.heur_nonneg cur
            obtain ⟨root, hroot⟩ := trace_start_ends E.trail (c.obstaclev.length + 1) cur bc
              hbc (by
                have : (c.len : Int) = c.obstaclev.length := rfl
                push_cast
                omega)
            rw [hroot] at hrr
            cases hrr
          · cases hrr
        | some blocked =>
          dsimp only
          by_cases hb : blocked = 0
          · rw [if_pos hb]
            cases hrel : relax c.g c.h c.endv c.obstaclev.length cur (sofar + 1) it s with
            | none => trivial
            | some s1 =>
              dsimp only
              rw [hb] at hrr
              obtain ⟨st, hst⟩ := range_relief_zero _ _ _ _ _ _ _ hrr
              exact ih s1 hrest (relax_trail hl E it hit hend ⟨o, st, ho, hst⟩ s1 hrel)
          · rw [if_neg hb]
            exact ih s hrest E

theorem trail_potential_nonneg {c : Call} {inv : List OpenPt → Prop} {s : Search}
    (T : Trail c inv s) : 0 ≤ potential s := by
  unfold potential
  have : 0 ≤ s.best_est.sum := by
    apply List.sum_nonneg
    intro b hb
    obtain ⟨i, hi, hget⟩ := List.getElem_of_mem hb
    have hrd : rd s.best_est (i : Int) = some b := by
      unfold rd
      rw [if_pos (Int.natCast_nonneg _), Int.toNat_natCast, List.getElem?_eq_getElem hi, hget]
    have := (T.best_bounds _ _ hrd).1
    have := c.heur_nonneg i
    omega
  omega

/-- How the main loop ends from a state with the bookkeeping invariant and more fuel than its
potential: the open set runs empty, a vector is indexed outside its bounds, or an end point
is struck during an expansion. The fuel does not run out. -/
theorem search_trail {c : Call} {inv : List OpenPt → Prop} (hl : HeapLaws c.h inv) :
    ∀ (fuel : Nat) (s : Search), Trail c inv s → potential s < fuel →
      search c.g c.h c.endv c.starts c.ends c.obstaclev c.blocking fuel s = .null .noPath ∨
      search c.g c.h c.endv c.starts c.ends c.obstaclev c.blocking fuel s = .fault ∨
      ∃ (sofar cur : Int) (adj : List Int) (s0 : Search) (sel : Int),
        TrailExp c inv sofar cur adj s0 ∧ sel ∈ c.ends ∧ sel ∈ adj ∧
        search c.g c.h c.endv c.starts c.ends c.obstaclev c.blocking fuel s
          = reconstruct c.g c.starts c.len sel (struck s0 sel cur) := by
  intro fuel
  induction fuel with
  | zero =>
    intro s T hlt
    have := trail_potential_nonneg T
    simp only [Nat.cast_zero] at hlt
    omega
  | succ fuel ih =>
    intro s T hlt
    rw [search]
    cases hpop : c.h.pop s.openset with
    | none => left; rfl
    | some eq =>
      obtain ⟨e, q⟩ := eq
      dsimp only
      obtain ⟨hinvq, hperm, _⟩ := hl.pop_some _ _ _ T.heap hpop
      have hlen := hperm.length_eq
      rw [List.length_cons] at hlen
      have he : e ∈ s.openset := hperm.mem_iff.mpr (List.mem_cons_self _ _)
      have hsub : ∀ x, x ∈ q → x ∈ s.openset := fun x hx =>
        hperm.mem_iff.mpr (List.mem_cons_of_mem _ hx)
      have hpotq : potential { s with openset := q } < fuel := by
        unfold potential at hlt ⊢
        dsimp only
        push_cast at hlt
        rw [hlen] at hlt
        push_cast at hlt
        omega
      have Tq : Trail c inv { s with openset := q } :=
        { heap := hinvq
          len_closed := T.len_closed
          len_best := T.len_best
          best_bounds := T.best_bounds
          entries := fun x hx =>
            let old := T.entries x (hsub x hx)
            { est_eq := old.est_eq
              sofar_nonneg := old.sofar_nonneg
              best_le := old.best_le
              rooted := old.rooted
              not_end := old.not_end }
          links := fun n p hnp =>
            let L := T.links n p hnp
            { not_end := L.not_end
              closed := L.closed
              listed := L.listed
              pass := L.pass
              depth := L.depth }
          closed := T.closed }
      cases hcl : rd s.closedset e.index with
      | none => right; left; rfl
      | some b =>
        cases b with
        | true =>
          dsimp only
          exact ih _ Tq hpotq
        | false =>
          dsimp only
          cases hwr : wr s.closedset e.index true with
          | none => right; left; rfl
          | some cl =>
            cases hadj : rd c.g.ADJACENCY_LIST e.index with
            | none => right; left; rfl
            | some adj =>
              dsimp only
              have hq := T.entries e he
              have hrdc : ∀ n, n ≠ e.index → rd cl n = rd s.closedset n :=
                fun n hn => rd_wr_ne _ _ _ _ _ hwr hn
              have hrdce : rd cl e.index = some true := rd_wr_same _ _ _ _ hwr
              have hclmono : ∀ n, rd s.closedset n = some true → rd cl n = some true := by
                intro n hn
                by_cases h : n = e.index
                · rw [h]; exact hrdce
                · rw [hrdc n h]; exact hn
              have E : TrailExp c inv e.sofar e.index adj
                  { s with openset := q, closedset := cl } :=
                { trail :=
                    { heap := hinvq
                      len_closed := by
                        show cl.length = c.len
                        rw [wr_length _ _ _ _ hwr]; exact T.len_closed
                      len_best := T.len_best
                      best_bounds := T.best_bounds
                      entries := fun x hx =>
                        let old := T.entries x (hsub x hx)
                        { est_eq := old.est_eq
                          sofar_nonneg := old.sofar_nonneg
                          best_le := old.best_le
                          rooted := old.rooted
                          not_end := old.not_end }
                      links := fun n p hnp =>
                        let L := T.links n p hnp
                        { not_end := L.not_end
                          closed := hclmono p L.closed
                          listed := L.listed
                          pass := L.pass
                          depth := L.depth }
                      closed := by
                        intro n hn
                        change rd cl n = some true at hn
                        by_cases hne : n = e.index
                        · rw [hne]
                          exact ⟨hq.rooted, hq.not_end⟩
                        · rw [hrdc n hne] at hn
                          exact T.closed n hn }
                  sofar_nonneg := hq.sofar_nonneg
                  is_closed := hrdce
                  best_cur := by
                    obtain ⟨b, hb1, hb2⟩ := hq.best_le
                    have := hq.est_eq
                    exact ⟨b, hb1, by omega⟩
                  table := hadj }
              have hx := expand_trail hl adj _ (fun m hm => hm) E
              have hpot := expand_potential c.g c.h hl c.endv c.ends c.obstaclev c.blocking
                e.index (e.sofar + 1) adj { s with openset := q, closedset := cl }
              revert hx hpot
              cases hexp : expand c.g c.h c.endv c.ends c.obstaclev c.blocking e.index
                  (e.sofar + 1) adj { s with openset := q, closedset := cl } with
              | next s2 =>
                intro hx hpot
                dsimp only
                apply ih s2 hx.trail
                have h2 := (hpot s2 hinvq rfl).2
                unfold potential at hpotq h2 ⊢
                dsimp only at hpotq h2
                omega
              | found sel s2 =>
                intro hx _
                dsimp only
                obtain ⟨hsel, hseladj, s0, E0, hs2⟩ := hx
                right; right
                exact ⟨e.sofar, e.index, adj, s0, sel, E0, hsel, hseladj, by rw [hs2]; rfl⟩
              | fault => intro _ _; right; left; rfl
              | diverge => intro hx _; exact absurd hx id

/-- The reconstruction loop along the predecessors of a closed cell ends, whatever the layer
ranges. -/
theorem trace_path_ends {c : Call} {inv : List OpenPt → Prop}
    {sofar cur : Int} {adj : List Int} {s0 : Search}
    (E : TrailExp c inv sofar cur adj s0) (sel : Int) (hsel : sel ∈ c.ends) :
    ∀ (fuel : Nat) (x b : Int) (path : List Int), rd s0.closedset x = some true →
      rd s0.best_est x = some b → b - c.heur x < fuel →
      ∃ r, trace_path c.starts (follow_set s0.follow sel cur) fuel x path = some r := by
  intro fuel
  induction fuel with
  | zero =>
    intro x b path _ hb hlt
    have := (E.trail.best_bounds x b hb).1
    simp only [Nat.cast_zero] at hlt
    omega
  | succ fuel ih =>
    intro x b path hcl hb hlt
    rw [trace_path]
    by_cases hst : x ∈ c.starts
    · rw [if_pos hst]
      exact ⟨_, rfl⟩
    · rw [if_neg hst]
      have hne : x ≠ sel := fun h => (E.trail.closed x hcl).2 (h ▸ hsel)
      have hfs : follow_set s0.follow sel cur x = s0.follow x := by
        unfold follow_set
        rw [if_neg hne]
      rw [hfs]
      cases hf : s0.follow x with
      | none => exact ⟨_, rfl⟩
      | some p =>
        dsimp only
        have hL := E.trail.links x p hf
        obtain ⟨bn, bp, h1, h2, h3⟩ := hL.depth
        rw [hb] at h1
        cases h1
        apply ih p bp _ hL.closed h2
        push_cast at hlt
        omega

/-- Along the trace from a closed cell: every step goes to a cell that lists the previous one
as a neighbour, the cells are closed and pairwise distinct, and every cell with a successor
passed the blocked test. -/
theorem chain_trail {c : Call} {inv : List OpenPt → Prop}
    {sofar cur : Int} {adj : List Int} {s0 : Search}
    (E : TrailExp c inv sofar cur adj s0) (sel : Int) (hsel : sel ∈ c.ends) :
    ∀ (l : List Int) (x bx : Int), rd s0.closedset x = some true →
      rd s0.best_est x = some bx →
      List.Chain (fun a b => a ∉ c.starts ∧ follow_set s0.follow sel cur a = some b) x l →
      List.Chain (fun a b => ∃ adjb, rd c.g.ADJACENCY_LIST b = some adjb ∧ a ∈ adjb) x l ∧
      (∀ y ∈ l, rd s0.closedset y = some true) ∧
      (∀ y ∈ l, ∃ b, rd s0.best_est y = some b ∧ b - c.heur y < bx - c.heur x) ∧
      (x :: l).Nodup ∧
      (∀ y ∈ (x :: l).dropLast, ∃ (o : Nat) (st : Int), rd c.obstaclev y = some o ∧
        relief c.g st y (o &&& c.blocking) = 0) := by
  intro l
  induction l with
  | nil =>
    intro x bx _ _ _
    refine ⟨List.Chain.nil, ?_, ?_, List.nodup_singleton x, ?_⟩
    · intro y hy; cases hy
    · intro y hy; cases hy
    · intro y hy; simp at hy
  | cons y l ih =>
    intro x bx hcl hbx hch
    rw [List.chain_cons] at hch
    obtain ⟨⟨_, hfol⟩, hrest⟩ := hch
    have hne : x ≠ sel := fun h => (E.trail.closed x hcl).2 (h ▸ hsel)
    unfold follow_set at hfol
    rw [if_neg hne] at hfol
    have L := E.trail.links x y hfol
    obtain ⟨bn, bp, h1, h2, h3⟩ := L.depth
    rw [hbx] at h1
    cases h1
    obtain ⟨i1, i2, i3, i4, i5⟩ := ih y bp L.closed h2 hrest
    have hdepth : ∀ z ∈ y :: l, ∃ b, rd s0.best_est z = some b ∧
        b - c.heur z < bx - c.heur x := by
      intro z hz
      rcases List.mem_cons.mp hz with h | h
      · rw [h]
        exact ⟨bp, h2, by omega⟩
      · obtain ⟨b, hb1, hb2⟩ := i3 z h
        exact ⟨b, hb1, by omega⟩
    refine ⟨List.Chain.cons L.listed i1, ?_, hdepth, ?_, ?_⟩
    · intro z hz
      rcases List.mem_cons.mp hz with h | h
      · rw [h]; exact L.closed
      · exact i2 z h
    · rw [List.nodup_cons]
      refine ⟨?_, i4⟩
      intro hx
      obtain ⟨b, hb1, hb2⟩ := hdepth x hx
      rw [hbx] at hb1
      cases hb1
      omega
    · intro z hz
      rw [List.dropLast_cons_of_ne_nil (List.cons_ne_nil y l)] at hz
      rcases List.mem_cons.mp hz with h | h
      · rw [h]; exact L.pass
      · exact i5 z h

/-- Once an end point is struck the reconstruction returns a result, whatever the layer
ranges: the trace `sel :: ext` from the end point ends in a start `fp`, which the result
lists twice; every cell of the trace is listed as a neighbour of the next one; the cells
after the end point are closed, the cells are pairwise distinct, and the cells between
the end point and the start passed the blocked test. -/
theorem reconstruct_trail {c : Call} {inv : List OpenPt → Prop}
    {sofar cur : Int} {adj : List Int} {s0 : Search}
    (E : TrailExp c inv sofar cur adj s0) (sel : Int) (hsel : sel ∈ c.ends)
    (hadj : sel ∈ adj) :
    ∃ (ext : List Int) (fp : Int),
      reconstruct c.g c.starts c.len sel (struck s0 sel cur)
        = .path (pack c.g.MAP_WIDTH (sel :: ext ++ [fp])) ∧
      fp ∈ c.starts ∧ (sel :: ext).getLast? = some fp ∧
      List.Chain (fun a b => ∃ adjb, rd c.g.ADJACENCY_LIST b = some adjb ∧ a ∈ adjb) sel ext ∧
      (∀ y ∈ ext, rd s0.closedset y = some true) ∧
      (sel :: ext).Nodup ∧
      (∀ y ∈ ext.dropLast, ∃ (o : Nat) (st : Int), rd c.obstaclev y = some o ∧
        relief c.g st y (o &&& c.blocking) = 0) := by
  obtain ⟨bc, hbc, hbcle⟩ := E.best_cur
  have hselcur : follow_set s0.follow sel cur sel = some cur := by
    unfold follow_set
    rw [if_pos rfl]
  have hsome : ∃ r, trace_path c.starts (follow_set s0.follow sel cur) (c.len + 2) sel
      ([] ++ [sel]) = some r := by
    rw [trace_path]
    by_cases hst : sel ∈ c.starts
    · rw [if_pos hst]
      exact ⟨_, rfl⟩
    · rw [if_neg hst, hselcur]
      dsimp only
      have hbound := (E.trail.best_bounds cur bc hbc).2
      have hheur := c.heur_nonneg cur
      apply trace_path_ends E sel hsel (c.len + 1) cur bc _ E.is_closed hbc
      push_cast
      omega
  obtain ⟨⟨fp, path⟩, hr⟩ := hsome
  obtain ⟨ext, hpath, hchain, hlast, hstop⟩ := trace_path_spec _ _ _ _ _ _ _ hr
  rw [List.nil_append] at hpath hr
  -- the shape of the trace
  have hshape : fp ∈ c.starts ∧
      List.Chain (fun a b => ∃ adjb, rd c.g.ADJACENCY_LIST b = some adjb ∧ a ∈ adjb) sel ext ∧
      (∀ y ∈ ext, rd s0.closedset y = some true) ∧
      (sel :: ext).Nodup ∧
      (∀ y ∈ ext.dropLast, ∃ (o : Nat) (st : Int), rd c.obstaclev y = some o ∧
        relief c.g st y (o &&& c.blocking) = 0) := by
    cases ext with
    | nil =>
      simp only [List.getLast?_singleton, Option.some.injEq] at hlast
      refine ⟨?_, List.Chain.nil, ?_, List.nodup_singleton sel, ?_⟩
      · rcases hstop with h | h
        · exact h
        · rw [← hlast, hselcur] at h
          cases h
      · intro y hy; cases hy
      · intro y hy; simp at hy
    | cons y l =>
      rw [List.chain_cons] at hchain
      obtain ⟨⟨_, hfol⟩, hrest⟩ := hchain
      have hy : y = cur := by
        rw [hselcur] at hfol
        cases hfol
        rfl
      subst hy
      obtain ⟨i1, i2, _, i4, i5⟩ := chain_trail E sel hsel l y bc E.is_closed hbc hrest
      have hcl : ∀ z ∈ y :: l, rd s0.closedset z = some true := by
        intro z hz
        rcases List.mem_cons.mp hz with h | h
        · rw [h]; exact E.is_closed
        · exact i2 z h
      rw [List.getLast?_cons_cons] at hlast
      have hmem : fp ∈ y :: l := List.mem_of_getLast?_eq_some hlast
      refine ⟨?_, List.Chain.cons ⟨adj, E.table, hadj⟩ i1, hcl, ?_, i5⟩
      · rcases hstop with h | h
        · exact h
        · have hC := E.trail.closed fp (hcl fp hmem)
          have hne : fp ≠ sel := fun h2 => hC.2 (h2 ▸ hsel)
          unfold follow_set at h
          rw [if_neg hne] at h
          rcases hC.1 with h3 | h3
          · exact h3
          · rw [h] at h3
            cases h3
      · rw [List.nodup_cons]
        refine ⟨?_, i4⟩
        intro hx
        exact (E.trail.closed sel (hcl sel hx)).2 hsel
  refine ⟨ext, fp, ?_, hshape.1, hlast, hshape.2⟩
  unfold reconstruct struck
  dsimp only
  rw [hr]
  dsimp only
  rw [if_pos hshape.1, hpath]

theorem position_to_index_inj (W : Int) (p q : Int × Int) (hp0 : 0 ≤ p.1) (hp1 : p.1 < W)
    (hp2 : 0 ≤ p.2) (hq0 : 0 ≤ q.1) (hq1 : q.1 < W) (hq2 : 0 ≤ q.2)
    (h : position_to_index W p.1 p.2 = position_to_index W q.1 q.2) : p = q := by
  have h1 := indextox_position W _ _ hp0 hp1 hp2
  have h2 := indextoy_position W _ _ hp0 hp1 hp2
  rw [h, indextox_position W _ _ hq0 hq1 hq2] at h1
  rw [h, indextoy_position W _ _ hq0 hq1 hq2] at h2
  exact Prod.ext h1.symm h2.symm

/-- The seeding loop establishes the bookkeeping invariant, on a grid of any shape. -/
theorem seed_trail {c : Call} {inv : List OpenPt → Prop} (W H : Int)
    (hl : HeapLaws c.h inv) (hw : c.g.MAP_WIDTH = W)
    (hs : ∀ p ∈ c.startv, in_grid W H p) (he : ∀ p ∈ c.endv, in_grid W H p) :
    ∀ (rest : List (Int × Int)) (s s2 : Search), (∀ p ∈ rest, p ∈ c.startv) →
      Trail c inv s → (∀ n, s.follow n = none) → (∀ n, rd s.closedset n ≠ some true) →
      seed c.h c.g.MAP_WIDTH (c.obstaclev.length : Int) c.endv rest s = .ok s2 →
      Trail c inv s2 := by
  intro rest
  induction rest with
  | nil =>
    intro s s2 _ T _ _ hx
    rw [seed] at hx
    cases hx
    exact T
  | cons st rest ih =>
    intro s s2 hin T hfol hclosed hx
    rw [seed] at hx
    have hstv : st ∈ c.startv := hin st (List.mem_cons_self _ _)
    have hst := hs st hstv
    have hheur : estimate (c.obstaclev.length : Int) st.1 st.2 c.endv
        = c.heur (position_to_index c.g.MAP_WIDTH st.1 st.2) := by
      unfold Call.heur
      rw [hw, indextox_position W _ _ hst.1 hst.2.1 hst.2.2.1,
        indextoy_position W _ _ hst.1 hst.2.1 hst.2.2.1]
      rfl
    by_cases hany : c.endv.any (fun e => decide (st.1 = e.1 ∧ st.2 = e.2)) = true
    · rw [if_pos hany] at hx
      cases hx
    · rw [if_neg hany] at hx
      have hnotend : st ∉ c.endv := fun h => hany ((any_eq_iff_mem st c.endv).mpr h)
      simp only [hheur] at hx
      cases hwr : wr s.best_est (position_to_index c.g.MAP_WIDTH st.1 st.2)
          (c.heur (position_to_index c.g.MAP_WIDTH st.1 st.2)) with
      | none =>
        rw [hwr] at hx
        cases hx
      | some best2 =>
        rw [hwr] at hx
        dsimp only at hx
        have hpush := hl.push s.openset
          { est := c.heur (position_to_index c.g.MAP_WIDTH st.1 st.2), sofar := 0,
            index := position_to_index c.g.MAP_WIDTH st.1 st.2 } T.heap
        have hrd_it : rd best2 (position_to_index c.g.MAP_WIDTH st.1 st.2)
            = some (c.heur (position_to_index c.g.MAP_WIDTH st.1 st.2)) :=
          rd_wr_same _ _ _ _ hwr
        have hrd_ne : ∀ n, n ≠ position_to_index c.g.MAP_WIDTH st.1 st.2 →
            rd best2 n = rd s.best_est n := fun n hn => rd_wr_ne _ _ _ _ _ hwr hn
        have hidx_start : position_to_index c.g.MAP_WIDTH st.1 st.2 ∈ c.starts := by
          unfold Call.starts
          exact List.mem_map.mpr ⟨st, hstv, rfl⟩
        have hidx_end : position_to_index c.g.MAP_WIDTH st.1 st.2 ∉ c.ends := by
          intro h
          unfold Call.ends at h
          obtain ⟨e, hev, heq⟩ := List.mem_map.mp h
          have heg := he e hev
          rw [hw] at heq
          have := position_to_index_inj W e st heg.1 heg.2.1 heg.2.2.1 hst.1 hst.2.1 hst.2.2.1 heq
          rw [this] at hev
          exact hnotend hev
        refine ih
          { s with
            best_est := best2
            openset := c.h.push s.openset
              { est := c.heur (position_to_index c.g.MAP_WIDTH st.1 st.2), sofar := 0,
                index := position_to_index c.g.MAP_WIDTH st.1 st.2 } }
          s2 (fun p hp => hin p (List.mem_cons_of_mem _ hp)) ?_ hfol hclosed hx
        refine
          { heap := hpush.1
            len_closed := T.len_closed
            len_best := by
              show best2.length = c.len
              rw [wr_length _ _ _ _ hwr]; exact T.len_best
            best_bounds := ?_
            entries := ?_
            links := fun n p hnp => by
              change s.follow n = some p at hnp
              rw [hfol n] at hnp
              cases hnp
            closed := fun n hn => absurd hn (hclosed n) }
        · intro n b hnb
          change rd best2 n = some b at hnb
          by_cases hn : n = position_to_index c.g.MAP_WIDTH st.1 st.2
          · rw [hn, hrd_it] at hnb
            cases hnb
            rw [hn]
            refine ⟨Int.le_refl _, ?_⟩
            unfold Call.heur
            exact estimate_le _ _ _ _
          · rw [hrd_ne n hn] at hnb
            exact T.best_bounds n b hnb
        · intro e hmem
          rcases List.mem_cons.mp (hpush.2.mem_iff.mp hmem) with h | h
          · rw [h]
            exact
              { est_eq := rfl
                sofar_nonneg := Int.le_refl 0
                best_le := ⟨_, hrd_it, by
                  show c.heur (position_to_index c.g.MAP_WIDTH st.1 st.2)
                    ≤ c.heur (position_to_index c.g.MAP_WIDTH st.1 st.2) + 0
                  omega⟩
                rooted := Or.inl hidx_start
                not_end := hidx_end }
          · have old := T.entries e h
            refine
              { est_eq := old.est_eq
                sofar_nonneg := old.sofar_nonneg
                best_le := ?_
                rooted := old.rooted
                not_end := old.not_end }
            obtain ⟨b, hb1, hb2⟩ := old.best_le
            show ∃ b, rd best2 e.index = some b ∧ b ≤ e.est + e.sofar
            by_cases hi : e.index = position_to_index c.g.MAP_WIDTH st.1 st.2
            · have h1 := old.est_eq
              have h2 := old.sofar_nonneg
              rw [hi] at h1 ⊢
              exact ⟨_, hrd_it, by omega⟩
            · exact ⟨b, by rw [hrd_ne _ hi]; exact hb1, hb2⟩

theorem trail_initial (c : Call) {inv : List OpenPt → Prop} (hl : HeapLaws c.h inv) :
    Trail c inv
      { openset := [], closedset := List.replicate c.obstaclev.length false,
        follow := fun _ => none,
        best_est := List.replicate c.obstaclev.length (c.obstaclev.length : Int) } :=
  { heap := hl.empty
    len_closed := List.length_replicate _ _
    len_best := List.length_replicate _ _
    best_bounds := by
      intro n b hnb
      have := rd_replicate _ _ _ _ hnb
      rw [this]
      refine ⟨?_, Int.le_refl _⟩
      unfold Call.heur
      exact estimate_le _ _ _ _
    entries := fun e he => by cases he
    links := fun n p hnp => by cases hnp
    closed := fun n hn => by
      have := rd_replicate _ _ _ _ hn
      cases this }

/-- What a call of `astar` does on a grid of any shape and with any layer ranges, for starts
and goals inside the grid and a lawful priority queue: it ends, and it returns `NULL` for a
start among the goals, returns `NULL` for an empty open set, indexes a vector outside its
bounds, or returns the trace `sel :: ext` from an end point to a start `fp`, reversed, with
the start listed twice. -/
theorem astar_shape {c : Call} {inv : List OpenPt → Prop} (W H : Int)
    (hl : HeapLaws c.h inv) (hw : c.g.MAP_WIDTH = W)
    (hs : ∀ p ∈ c.startv, in_grid W H p) (he : ∀ p ∈ c.endv, in_grid W H p) :
    (c.run = .null .startInEnds ∧ ∃ p ∈ c.startv, p ∈ c.endv) ∨ c.run = .null .noPath ∨
    c.run = .fault ∨
    ∃ (sel : Int) (ext : List Int) (fp : Int),
      c.run = .path (pack W (sel :: ext ++ [fp])) ∧
      sel ∈ c.ends ∧ fp ∈ c.starts ∧ (sel :: ext).getLast? = some fp ∧
      List.Chain (fun a b => ∃ adjb, rd c.g.ADJACENCY_LIST b = some adjb ∧ a ∈ adjb) sel ext ∧
      (∀ y ∈ ext, 0 ≤ y ∧ y < c.len ∧ y ∉ c.ends) ∧
      (sel :: ext).Nodup ∧
      (∀ y ∈ ext.dropLast, ∃ (o : Nat) (st : Int), rd c.obstaclev y = some o ∧
        relief c.g st y (o &&& c.blocking) = 0) := by
  unfold Call.run astar
  dsimp only
  cases hseed : seed c.h c.g.MAP_WIDTH (c.obstaclev.length : Int) c.endv c.startv
      { openset := [], closedset := List.replicate c.obstaclev.length false,
        follow := fun _ => none,
        best_est := List.replicate c.obstaclev.length (c.obstaclev.length : Int) } with
  | error o =>
    dsimp only
    rcases seed_error _ _ _ _ _ _ _ hseed with h | h
    · left
      rw [h] at hseed
      exact ⟨h, seed_error_shared _ _ _ _ _ _ hseed⟩
    · right; right; left; exact h
  | ok s0 =>
    dsimp only
    have T : Trail c inv s0 := seed_trail W H hl hw hs he c.startv _ s0 (fun p hp => hp)
      (trail_initial c hl) (fun _ => rfl) (fun n hn => by
        have := rd_replicate _ _ _ _ hn
        cases this) hseed
    have hpot : potential s0 < search_fuel c.startv c.obstaclev.length := by
      have hlen := seed_length c.h hl _ _ _ c.startv _ s0 hl.empty hseed
      have hsum : s0.best_est.sum ≤ s0.best_est.length • (c.len : Int) := by
        apply List.sum_le_card_nsmul
        intro b hb
        obtain ⟨i, hi, hget⟩ := List.getElem_of_mem hb
        have hrd : rd s0.best_est (i : Int) = some b := by
          unfold rd
          rw [if_pos (Int.natCast_nonneg _), Int.toNat_natCast, List.getElem?_eq_getElem hi,
            hget]
        exact (T.best_bounds _ _ hrd).2
      rw [T.len_best] at hsum
      unfold potential search_fuel
      rw [hlen]
      simp only [List.length_nil, Nat.zero_add, smul_eq_mul, nsmul_eq_mul] at hsum ⊢
      have : (c.len : Int) = c.obstaclev.length := rfl
      push_cast
      rw [this] at hsum
      omega
    rcases search_trail hl _ s0 T hpot with h | h | ⟨sofar, cur, adj, s1, sel, E, hsel, hadj, h⟩
    · right; left; exact h
    · right; right; left; exact h
    · right; right; right
      obtain ⟨ext, fp, hrec, hfp, hlast, hchain, hcl, hnd, hpass⟩ :=
        reconstruct_trail E sel hsel hadj
      refine ⟨sel, ext, fp, ?_, hsel, hfp, hlast, hchain, ?_, hnd, hpass⟩
      · have hfin := h.trans hrec
        rw [hw] at hfin
        exact hfin
      · intro y hy
        have hc := hcl y hy
        have hr := rd_some_range _ _ _ hc
        rw [E.trail.len_closed] at hr
        exact ⟨hr.1, hr.2, (E.trail.closed y hc).2⟩

/-! ## Indices and coordinates -/

theorem position_range_grid (W H x y : Int) (hx : 0 ≤ x) (hxW : x < W) (hy : 0 ≤ y)
    (hyH : y < H) :
    0 ≤ position_to_index W x y ∧ position_to_index W x y < W * H := by
  unfold position_to_index
  have h1 : 0 ≤ y * W := Int.mul_nonneg hy (by omega)
  have h2 : (y + 1) * W ≤ H * W := Int.mul_le_mul_of_nonneg_right (by omega) (by omega)
  have h3 : (y + 1) * W = y * W + W := by ring
  have h4 : H * W = W * H := Int.mul_comm H W
  omega

theorem cell_coords_grid (W H n : Int) (hW : 1 ≤ W) (h0 : 0 ≤ n) (h1 : n < W * H) :
    0 ≤ indextox W n ∧ indextox W n < W ∧ 0 ≤ indextoy W n ∧ indextoy W n < H ∧
      position_to_index W (indextox W n) (indextoy W n) = n := by
  unfold indextox indextoy position_to_index
  have hW0 : (0 : Int) ≤ W := by omega
  rw [Int.tmod_eq_emod h0 hW0, Int.tdiv_eq_ediv h0 hW0]
  have hm := Int.emod_nonneg n (show W ≠ 0 by omega)
  have hm2 := Int.emod_lt_of_pos n (show 0 < W by omega)
  have hd := Int.ediv_nonneg h0 hW0
  have hd2 : n / W < H := Int.ediv_lt_of_lt_mul (by omega) (by rw [Int.mul_comm]; exact h1)
  have hsum := Int.emod_add_ediv n W
  have hcomm : n / W * W = W * (n / W) := Int.mul_comm _ _
  omega

/-- C11. Index/coordinate round trip: for `W, H >= 1`, a cell `(x, y)` of the grid has an
index `p = position_to_index(x, y)` with `0 <= p < W*H`, `indextox(p) = x` and
`indextoy(p) = y`; and an index `p` with `0 <= p < W*H` has coordinates inside the grid whose
index is `p`. -/
theorem index_round_trip (W H : Int) (hW : 1 ≤ W) (_hH : 1 ≤ H) :
    (∀ x y : Int, 0 ≤ x → x < W → 0 ≤ y → y < H →
      0 ≤ position_to_index W x y ∧ position_to_index W x y < W * H ∧
      indextox W (position_to_index W x y) = x ∧
      indextoy W (position_to_index W x y) = y) ∧
    (∀ p : Int, 0 ≤ p → p < W * H →
      position_to_index W (indextox W p) (indextoy W p) = p ∧
      0 ≤ indextox W p ∧ indextox W p < W ∧ 0 ≤ indextoy W p ∧ indextoy W p < H) := by
  constructor
  · intro x y hx hxW hy hyH
    obtain ⟨h1, h2⟩ := position_range_grid W H x y hx hxW hy hyH
    exact ⟨h1, h2, indextox_position W x y hx hxW hy, indextoy_position W x y hx hxW hy⟩
  · intro p h0 h1
    obtain ⟨a, b, c, d, e⟩ := cell_coords_grid W H p hW h0 h1
    exact ⟨e, a, b, c, d⟩

theorem index_round_trip_witness :
    (1 : Int) ≤ 3 ∧ (1 : Int) ≤ 2 ∧
    (0 ≤ position_to_index 3 2 1 ∧ position_to_index 3 2 1 < 3 * 2 ∧
      indextox 3 (position_to_index 3 2 1) = 2 ∧ indextoy 3 (position_to_index 3 2 1) = 1) ∧
    (position_to_index 3 (indextox 3 5) (indextoy 3 5) = 5 ∧
      0 ≤ indextox 3 5 ∧ indextox 3 5 < 3 ∧ 0 ≤ indextoy 3 5 ∧ indextoy 3 5 < 2) :=
  ⟨by decide, by decide,
    (index_round_trip 3 2 (by decide) (by decide)).1 2 1 (by decide) (by decide) (by decide)
      (by decide),
    (index_round_trip 3 2 (by decide) (by decide)).2 5 (by decide) (by decide)⟩

/-! ## The layer registry after `init_astar` -/

theorem relief_layers_congr (g : Globals) (ld : Nat → Int)
    (hld : ∀ i ∈ LAYER_BITS, ld i = g.LAYER_DISTANCE i) (start n : Int) (b : Nat) :
    relief { g with LAYER_DISTANCE := ld } start n b = relief g start n b := by
  unfold relief
  apply List.foldl_ext
  intro a i hi
  show (if ld i ≠ g.MAP_WIDTH * g.MAP_HEIGHT ∧ indexdistance g.MAP_WIDTH start n > ld i then
      a &&& lnot64 i else a) = _
  rw [hld i hi]

theorem range_relief_layers_congr (g : Globals) (ld : Nat → Int)
    (hld : ∀ i ∈ LAYER_BITS, ld i = g.LAYER_DISTANCE i) (follow : Int → Option Int)
    (n blocking : Nat) (current it : Int) (o : Nat) :
    range_relief { g with LAYER_DISTANCE := ld } follow n blocking current it o
      = range_relief g follow n blocking current it o := by
  unfold range_relief
  simp only [relief_layers_congr g ld hld]

theorem expand_layers_congr (g : Globals) (ld : Nat → Int)
    (hld : ∀ i ∈ LAYER_BITS, ld i = g.LAYER_DISTANCE i) (h : HeapOps)
    (endv : List (Int × Int)) (ends : List Int) (obstaclev : List Nat) (blocking : Nat)
    (current traveled : Int) :
    ∀ (l : List Int) (s : Search),
      expand { g with LAYER_DISTANCE := ld } h endv ends obstaclev blocking current traveled l s
        = expand g h endv ends obstaclev blocking current traveled l s := by
  intro l
  induction l with
  | nil => intro s; rfl
  | cons it rest ih =>
    intro s
    rw [expand, expand]
    simp only [range_relief_layers_congr g ld hld, ih]
    rfl

theorem search_layers_congr (g : Globals) (ld : Nat → Int)
    (hld : ∀ i ∈ LAYER_BITS, ld i = g.LAYER_DISTANCE i) (h : HeapOps)
    (endv : List (Int × Int)) (starts ends : List Int) (obstaclev : List Nat)
    (blocking : Nat) :
    ∀ (fuel : Nat) (s : Search),
      search { g with LAYER_DISTANCE := ld } h endv starts ends obstaclev blocking fuel s
        = search g h endv starts ends obstaclev blocking fuel s := by
  intro fuel
  induction fuel with
  | zero => intro s; rfl
  | succ fuel ih =>
    intro s
    rw [search, search]
    simp only [expand_layers_congr g ld hld, ih]
    rfl

/-- A call of `astar` reads the layer registry at the 64 single-bit keys only. -/
theorem astar_layers_congr (g : Globals) (ld : Nat → Int)
    (hld : ∀ i ∈ LAYER_BITS, ld i = g.LAYER_DISTANCE i) (h : HeapOps)
    (startv endv : List (Int × Int)) (obstaclev : List Nat) (blocking : Nat) :
    astar { g with LAYER_DISTANCE := ld } h startv endv obstaclev blocking
      = astar g h startv endv obstaclev blocking := by
  unfold astar
  simp only [search_layers_congr g ld hld]

/-- C13. Initialisation resets the layer registry: whatever the registry `ld` was before,
after `init_astar(W, H)` every single-bit layer `2^k`, `k < 64`, has the range `W * H`, which
is `MAP_WIDTH * MAP_HEIGHT`, the value the layer loop treats as unlimited; and every call of
`astar` returns the same as after `init_astar(W, H)` from any other registry. -/
theorem init_astar_resets_layers (g0 : Globals) (W H : Int) (ld : Nat → Int) :
    (∀ k : Fin 64,
      (init_astar { g0 with LAYER_DISTANCE := ld } W H).LAYER_DISTANCE (2 ^ k.val) = W * H) ∧
    (init_astar { g0 with LAYER_DISTANCE := ld } W H).MAP_WIDTH *
      (init_astar { g0 with LAYER_DISTANCE := ld } W H).MAP_HEIGHT = W * H ∧
    unlimited (init_astar { g0 with LAYER_DISTANCE := ld } W H) ∧
    ∀ (h : HeapOps) (startv endv : List (Int × Int)) (obstaclev : List Nat) (blocking : Nat),
      astar (init_astar { g0 with LAYER_DISTANCE := ld } W H) h startv endv obstaclev blocking
        = astar (init_astar g0 W H) h startv endv obstaclev blocking := by
  have hu := unlimited_init_astar { g0 with LAYER_DISTANCE := ld } W H
  have hu0 := unlimited_init_astar g0 W H
  refine ⟨?_, rfl, hu, ?_⟩
  · intro k
    apply hu
    rw [LAYER_BITS_eq, List.mem_map]
    exact ⟨k.val, List.mem_range.mpr k.isLt, rfl⟩
  · intro h startv endv obstaclev blocking
    exact astar_layers_congr (init_astar g0 W H) (init_layers ld (W * H))
      (fun i hi => by
        have h1 := hu i hi
        have h2 := hu0 i hi
        exact h1.trans h2.symm) h startv endv obstaclev blocking

/-! ## The shape of a non-null result -/

theorem cell_at_index (W n : Int) :
    position_to_index W (indextox W n) (indextoy W n) = n := by
  unfold position_to_index indextox indextoy
  have := Int.tmod_add_tdiv n W
  have hc : n.tdiv W * W = W * n.tdiv W := Int.mul_comm _ _
  omega

theorem cell_at_injective (W : Int) : Function.Injective (cell_at W) := by
  intro a b hab
  have ha := cell_at_index W a
  have hb := cell_at_index W b
  unfold cell_at at hab
  have h1 := congrArg Prod.fst hab
  have h2 := congrArg Prod.snd hab
  simp only at h1 h2
  rw [h1, h2] at ha
  exact ha.symm.trans hb

theorem cell_at_position (W : Int) (p : Int × Int) (h0 : 0 ≤ p.1) (h1 : p.1 < W)
    (h2 : 0 ≤ p.2) : cell_at W (position_to_index W p.1 p.2) = p := by
  unfold cell_at
  rw [indextox_position W _ _ h0 h1 h2, indextoy_position W _ _ h0 h1 h2]

/-- The coordinate pairs of the result built from the trace `sel :: ext` and the last cell
`fp`: the cell of `fp`, then the cells of the trace from its last cell back to `sel`. -/
theorem pairs_result (W sel fp : Int) (ext : List Int) :
    pairs (pack W (sel :: ext ++ [fp]))
      = cell_at W fp :: (sel :: ext).reverse.map (cell_at W) := by
  rw [pairs_pack]
  simp

theorem flatten_pairs_length (W : Int) (l : List Int) :
    ((l.map (fun p => [indextox W p, indextoy W p])).flatten).length = 2 * l.length := by
  induction l with
  | nil => rfl
  | cons a l ih =>
    simp only [List.map_cons, List.flatten_cons, List.length_append, List.length_cons,
      List.length_nil, ih]
    omega

theorem flatten_pairs_nonneg (W : Int) (hW : 0 ≤ W) (l : List Int) (hl : ∀ p ∈ l, 0 ≤ p) :
    ∀ v ∈ (l.map (fun p => [indextox W p, indextoy W p])).flatten, 0 ≤ v := by
  intro v hv
  rw [List.mem_flatten] at hv
  obtain ⟨xs, hxs, hvx⟩ := hv
  rw [List.mem_map] at hxs
  obtain ⟨p, hp, hpe⟩ := hxs
  rw [← hpe] at hvx
  have hp0 := hl p hp
  rcases List.mem_cons.mp hvx with h | h
  · rw [h]
    exact Int.tmod_nonneg W hp0
  · rw [List.mem_singleton] at h
    rw [h]
    exact Int.tdiv_nonneg hp0 hW

theorem chain_targets {α : Type} (R : α → α → Prop) :
    ∀ (l : List α) (a : α), List.Chain R a l → ∀ b ∈ l, ∃ x, R x b := by
  intro l
  induction l with
  | nil => intro a _ b hb; cases hb
  | cons y l ih =>
    intro a hch b hb
    rw [List.chain_cons] at hch
    rcases List.mem_cons.mp hb with h | h
    · rw [h]; exact ⟨a, hch.1⟩
    · exact ih y hch.2 b h

/-- A non-null result of `astar`, on a grid of any shape and with any layer ranges: it packs
the trace `sel :: ext` from an end point `sel` to a start `fp`, with `fp` once more. -/
theorem astar_path_shape (g : Globals) (W H : Int) (h : HeapOps)
    (startv endv : List (Int × Int)) (obstaclev : List Nat) (blocking : Nat)
    (result : List Int) (hh : h.Lawful) (hw : g.MAP_WIDTH = W)
    (hs : ∀ p ∈ startv, in_grid W H p) (he : ∀ p ∈ endv, in_grid W H p)
    (hres : astar g h startv endv obstaclev blocking = .path result) :
    ∃ (sel : Int) (ext : List Int) (fp : Int),
      result = pack W (sel :: ext ++ [fp]) ∧
      (∃ e ∈ endv, sel = position_to_index W e.1 e.2) ∧
      (∃ a ∈ startv, fp = position_to_index W a.1 a.2) ∧
      (sel :: ext).getLast? = some fp ∧
      List.Chain (fun a b => ∃ adjb, rd g.ADJACENCY_LIST b = some adjb ∧ a ∈ adjb) sel ext ∧
      (∀ y ∈ ext, 0 ≤ y ∧ y < (obstaclev.length : Int)) ∧
      (sel :: ext).Nodup ∧
      (∀ y ∈ ext.dropLast, ∃ (o : Nat) (st : Int), rd obstaclev y = some o ∧
        relief g st y (o &&& blocking) = 0) := by
  obtain ⟨inv, hl⟩ := hh
  have hrun : Call.run ⟨g, h, startv, endv, obstaclev, blocking⟩ = .path result := hres
  have hshape := astar_shape (c := ⟨g, h, startv, endv, obstaclev, blocking⟩) W H hl hw hs he
  rcases hshape with h1 | h1 | h1 | ⟨sel, ext, fp, h1, hsel, hfp, hlast, hchain, hrange, hnd,
    hpass⟩
  · rw [hrun] at h1; cases h1.1
  · rw [hrun] at h1; cases h1
  · rw [hrun] at h1; cases h1
  · rw [hrun] at h1
    cases h1
    refine ⟨sel, ext, fp, rfl, ?_, ?_, hlast, hchain, ?_, hnd, hpass⟩
    · unfold Call.ends at hsel
      obtain ⟨e, hev, heq⟩ := List.mem_map.mp hsel
      exact ⟨e, hev, by rw [← hw]; exact heq.symm⟩
    · unfold Call.starts at hfp
      obtain ⟨a, hav, haq⟩ := List.mem_map.mp hfp
      exact ⟨a, hav, by rw [← hw]; exact haq.symm⟩
    · intro y hy
      exact ⟨(hrange y hy).1, (hrange y hy).2.1⟩

theorem position_nonneg (W : Int) (p : Int × Int) (h0 : 0 ≤ p.1) (h1 : p.1 < W)
    (h2 : 0 ≤ p.2) : 0 ≤ position_to_index W p.1 p.2 := by
  unfold position_to_index
  have : 0 ≤ p.2 * W := Int.mul_nonneg h2 (by omega)
  omega

/-- C14. Terminator: for globals of width `W` (as `init_astar(W, H)` sets it), whatever the
table and the layer ranges, with a lawful priority queue and starts and goals inside the
`W` by `H` grid, a non-null result of `astar` has `2k + 1` entries for its `k >= 2`
coordinate pairs, its last entry is `-1` and every entry before the last is `>= 0`. -/
theorem astar_result_terminated (g : Globals) (W H : Int) (h : HeapOps)
    (startv endv : List (Int × Int)) (obstaclev : List Nat) (blocking : Nat)
    (result : List Int) (hh : h.Lawful)
    (hw : g.MAP_WIDTH = W)
    (hs : ∀ p ∈ startv, in_grid W H p) (he : ∀ p ∈ endv, in_grid W H p)
    (hres : astar g h startv endv obstaclev blocking = .path result) :
    ∃ k : Nat, 2 ≤ k ∧ result.length = 2 * k + 1 ∧ (pairs result).length = k ∧
      result.getLast? = some (-1) ∧ ∀ v ∈ result.dropLast, 0 ≤ v := by
  obtain ⟨sel, ext, fp, hr, ⟨e, hev, hsel⟩, ⟨a, hav, hfp⟩, _, _, hrange, _, _⟩ :=
    astar_path_shape g W H h startv endv obstaclev blocking result hh hw hs he hres
  have hag := hs a hav
  have heg := he e hev
  have hW : 0 ≤ W := by have := hag.1; have := hag.2.1; omega
  refine ⟨(sel :: ext ++ [fp]).length, ?_, ?_, ?_, ?_, ?_⟩
  · simp
  · rw [hr]
    unfold pack
    rw [List.length_append, flatten_pairs_length, List.length_reverse]
    rfl
  · rw [hr, pairs_pack, List.length_map, List.length_reverse]
  · rw [hr]
    unfold pack
    exact List.getLast?_concat _
  · rw [hr]
    unfold pack
    rw [List.dropLast_concat]
    apply flatten_pairs_nonneg W hW
    intro p hp
    rw [List.mem_reverse] at hp
    rcases List.mem_cons.mp hp with h1 | h1
    · rw [h1, hsel]
      exact position_nonneg W e heg.1 heg.2.1 heg.2.2.1
    · rcases List.mem_append.mp h1 with h2 | h2
      · exact (hrange p h2).1
      · rw [List.mem_singleton] at h2
        rw [h2, hfp]
        exact position_nonneg W a hag.1 hag.2.1 hag.2.2.1

theorem astar_result_terminated_witness :
    astar (set_layer_distance (init_astar Globals.initial 2 2) 1 1) stdHeap
      [(0, 0)] [(1, 0)] [0, 0, 0, 0] 0 = .path [0, 0, 0, 0, 1, 0, -1] ∧
    ∃ k : Nat, 2 ≤ k ∧ ([0, 0, 0, 0, 1, 0, -1] : List Int).length = 2 * k + 1 ∧
      (pairs [0, 0, 0, 0, 1, 0, -1]).length = k ∧
      ([0, 0, 0, 0, 1, 0, -1] : List Int).getLast? = some (-1) ∧
      ∀ v ∈ ([0, 0, 0, 0, 1, 0, -1] : List Int).dropLast, 0 ≤ v :=
  ⟨by decide!,
    astar_result_terminated (set_layer_distance (init_astar Globals.initial 2 2) 1 1) 2 2
      stdHeap [(0, 0)] [(1, 0)] [0, 0, 0, 0] 0 [0, 0, 0, 0, 1, 0, -1] stdHeap_lawful rfl
      (by decide) (by decide) (by decide!)⟩

/-- C19. Start emitted twice: for globals of width `W`, whatever the table and the layer
ranges, with a lawful priority queue and starts and goals inside the `W` by `H` grid, the
coordinate pairs of a non-null result are a provided start `a` followed by a list `r` of
pairwise distinct cells that begins with `a` again; so the result has one pair more than it
has distinct cells. -/
theorem astar_start_listed_twice (g : Globals) (W H : Int) (h : HeapOps)
    (startv endv : List (Int × Int)) (obstaclev : List Nat) (blocking : Nat)
    (result : List Int) (hh : h.Lawful) (hw : g.MAP_WIDTH = W)
    (hs : ∀ p ∈ startv, in_grid W H p) (he : ∀ p ∈ endv, in_grid W H p)
    (hres : astar g h startv endv obstaclev blocking = .path result) :
    ∃ (a : Int × Int) (r : List (Int × Int)), pairs result = a :: r ∧ r.head? = some a ∧
      a ∈ startv ∧ r.Nodup ∧ (pairs result).length = (pairs result).dedup.length + 1 := by
  obtain ⟨sel, ext, fp, hr, _, ⟨a, hav, hfp⟩, hlast, _, _, hnd, _⟩ :=
    astar_path_shape g W H h startv endv obstaclev blocking result hh hw hs he hres
  have hag := hs a hav
  have hcell : cell_at W fp = a := by
    rw [hfp]
    exact cell_at_position W a hag.1 hag.2.1 hag.2.2.1
  have hpairs : pairs result = a :: (sel :: ext).reverse.map (cell_at W) := by
    rw [hr, pairs_result, hcell]
  have hhead : ((sel :: ext).reverse.map (cell_at W)).head? = some a := by
    rw [List.head?_map, List.head?_reverse, hlast]
    exact congrArg some hcell
  have hnodup : ((sel :: ext).reverse.map (cell_at W)).Nodup :=
    List.Nodup.map (cell_at_injective W) (List.nodup_reverse.mpr hnd)
  refine ⟨a, _, hpairs, hhead, hav, hnodup, ?_⟩
  rw [hpairs, List.dedup_cons_of_mem (List.mem_of_mem_head? hhead), hnodup.dedup,
    List.length_cons]

theorem astar_start_listed_twice_witness :
    astar (set_layer_distance (init_astar Globals.initial 2 2) 1 1) stdHeap
      [(0, 0)] [(1, 0)] [0, 0, 0, 0] 0 = .path [0, 0, 0, 0, 1, 0, -1] ∧
    ∃ (a : Int × Int) (r : List (Int × Int)), pairs [0, 0, 0, 0, 1, 0, -1] = a :: r ∧
      r.head? = some a ∧ a ∈ [((0 : Int), (0 : Int))] ∧ r.Nodup ∧
      (pairs [0, 0, 0, 0, 1, 0, -1]).length = (pairs [0, 0, 0, 0, 1, 0, -1]).dedup.length + 1 :=
  ⟨by decide!,
    astar_start_listed_twice (set_layer_distance (init_astar Globals.initial 2 2) 1 1) 2 2
      stdHeap [(0, 0)] [(1, 0)] [0, 0, 0, 0] 0 [0, 0, 0, 0, 1, 0, -1] stdHeap_lawful rfl
      (by decide) (by decide) (by decide!)⟩

/-- C12. Reconstruction never fails: for globals of width `W`, whatever the table and the
layer ranges, with a lawful priority queue and starts and goals inside the `W` by `H` grid,
a call of `astar` ends in one of four ways: `NULL` because a start is among the goals (and
then the lists do share a pair), `NULL` because the open set ran empty, an index outside a
vector, or a non-null result. Once an end point is selected the predecessor trace reaches a
start within its bound of links and the branch "PATHING BUG" is not taken. -/
theorem astar_never_pathing_bug (g : Globals) (W H : Int) (h : HeapOps)
    (startv endv : List (Int × Int)) (obstaclev : List Nat) (blocking : Nat)
    (hh : h.Lawful) (hw : g.MAP_WIDTH = W)
    (hs : ∀ p ∈ startv, in_grid W H p) (he : ∀ p ∈ endv, in_grid W H p) :
    (astar g h startv endv obstaclev blocking = .null .startInEnds ∧
      ∃ p ∈ startv, p ∈ endv) ∨
    astar g h startv endv obstaclev blocking = .null .noPath ∨
    astar g h startv endv obstaclev blocking = .fault ∨
    ∃ result, astar g h startv endv obstaclev blocking = .path result := by
  obtain ⟨inv, hl⟩ := hh
  have hshape := astar_shape (c := ⟨g, h, startv, endv, obstaclev, blocking⟩) W H hl hw hs he
  rcases hshape with h1 | h1 | h1 | ⟨sel, ext, fp, h1, _⟩
  · left; exact h1
  · right; left; exact h1
  · right; right; left; exact h1
  · right; right; right; exact ⟨_, h1⟩

theorem astar_never_pathing_bug_witness :
    stdHeap.Lawful ∧
    (∀ p ∈ [((0 : Int), (0 : Int))], in_grid 2 2 p) ∧
    (∀ p ∈ [((1 : Int), (1 : Int))], in_grid 2 2 p) ∧
    ((astar (set_layer_distance (init_astar Globals.initial 2 2) 1 0) stdHeap
        [(0, 0)] [(1, 1)] [0, 1, 1, 0] 1 = .null .startInEnds ∧
      ∃ p ∈ [((0 : Int), (0 : Int))], p ∈ [((1 : Int), (1 : Int))]) ∨
    astar (set_layer_distance (init_astar Globals.initial 2 2) 1 0) stdHeap
      [(0, 0)] [(1, 1)] [0, 1, 1, 0] 1 = .null .noPath ∨
    astar (set_layer_distance (init_astar Globals.initial 2 2) 1 0) stdHeap
      [(0, 0)] [(1, 1)] [0, 1, 1, 0] 1 = .fault ∨
    ∃ result, astar (set_layer_distance (init_astar Globals.initial 2 2) 1 0) stdHeap
      [(0, 0)] [(1, 1)] [0, 1, 1, 0] 1 = .path result) :=
  ⟨stdHeap_lawful, by decide, by decide,
    astar_never_pathing_bug (set_layer_distance (init_astar Globals.initial 2 2) 1 0) 2 2
      stdHeap [(0, 0)] [(1, 1)] [0, 1, 1, 0] 1 stdHeap_lawful rfl (by decide) (by decide)⟩

/-- C17. Termination: for globals of width `W`, whatever the table and the layer ranges, a
bitmap of any length `obstaclec`, with a lawful priority queue and starts and goals inside
the `W` by `H` grid, the loops of `astar` end: the main loop within
`startc / 2 + obstaclec * obstaclec + 1` iterations, the trace to the originating start
within `obstaclec + 1` and the reconstruction within `obstaclec + 2`. -/
theorem astar_terminates (g : Globals) (W H : Int) (h : HeapOps)
    (startv endv : List (Int × Int)) (obstaclev : List Nat) (blocking : Nat)
    (hh : h.Lawful) (hw : g.MAP_WIDTH = W)
    (hs : ∀ p ∈ startv, in_grid W H p) (he : ∀ p ∈ endv, in_grid W H p) :
    astar g h startv endv obstaclev blocking ≠ .diverge := by
  obtain ⟨inv, hl⟩ := hh
  have hshape := astar_shape (c := ⟨g, h, startv, endv, obstaclev, blocking⟩) W H hl hw hs he
  intro hx
  have hrun : Call.run ⟨g, h, startv, endv, obstaclev, blocking⟩ = .diverge := hx
  rcases hshape with h1 | h1 | h1 | ⟨sel, ext, fp, h1, _⟩
  · rw [hrun] at h1; cases h1.1
  · rw [hrun] at h1; cases h1
  · rw [hrun] at h1; cases h1
  · rw [hrun] at h1; cases h1

theorem astar_terminates_witness :
    stdHeap.Lawful ∧
    (∀ p ∈ [((0 : Int), (0 : Int)), (2, 2)], in_grid 3 3 p) ∧
    (∀ p ∈ [((2 : Int), (0 : Int))], in_grid 3 3 p) ∧
    astar (set_layer_distance (init_astar Globals.initial 3 3) 2 1) stdHeap
      [(0, 0), (2, 2)] [(2, 0)] [0, 2, 0, 0, 2, 0, 0, 0, 0] 3 ≠ .diverge :=
  ⟨stdHeap_lawful, by decide, by decide,
    astar_terminates (set_layer_distance (init_astar Globals.initial 3 3) 2 1) 3 3 stdHeap
      [(0, 0), (2, 2)] [(2, 0)] [0, 2, 0, 0, 2, 0, 0, 0, 0] 3 stdHeap_lawful rfl (by decide)
      (by decide)⟩

/-- In the table `init_astar(N, N)` builds, a cell with an entry is a cell of the grid, and
the cells its entry lists are at distance one of it. -/
theorem listed_adjacent (g0 g : Globals) (N : Int) (hN : 1 ≤ N)
    (ht : g.ADJACENCY_LIST = (init_astar g0 N N).ADJACENCY_LIST) (a b : Int)
    (adjb : List Int) (hadj : rd g.ADJACENCY_LIST b = some adjb) (ha : a ∈ adjb) :
    in_grid N N (cell_at N b) ∧ adjacent4 (cell_at N b) (cell_at N a) := by
  obtain ⟨hlen, htab⟩ := init_astar_table g0 N N (by omega) (by omega)
  rw [ht] at hadj
  have hr := rd_some_range _ _ _ hadj
  rw [hlen] at hr
  have hNN : 0 ≤ N * N := by nlinarith
  have hb1 : b < N * N := by
    have := hr.2
    rw [Int.toNat_of_nonneg hNN] at this
    exact this
  obtain ⟨c1, c2, c3, c4, c5⟩ := cell_coords N b hN hr.1 hb1
  have h2 := htab _ _ c1 c2 c3 c4
  rw [c5, hadj] at h2
  cases h2
  have hd := adjacent_cells_distance N _ _ a ha
  refine ⟨⟨c1, c2, c3, c4⟩, ?_⟩
  unfold adjacent4 cell_at
  rw [distance_comm]
  exact hd

/-- C20. Path connectivity: with the table `init_astar(N, N)` builds, `N >= 1`, any layer
ranges, any bitmap, a lawful priority queue and starts and goals inside the grid, in a
non-null result every two consecutive coordinate pairs from the second pair on are at
Manhattan distance 1, and every pair is a cell of the grid. -/
theorem astar_path_connected (g0 g : Globals) (N : Int) (h : HeapOps)
    (startv endv : List (Int × Int)) (obstaclev : List Nat) (blocking : Nat)
    (result : List Int) (hh : h.Lawful) (hN : 1 ≤ N) (hw : g.MAP_WIDTH = N)
    (ht : g.ADJACENCY_LIST = (init_astar g0 N N).ADJACENCY_LIST)
    (hs : ∀ p ∈ startv, in_grid N N p) (he : ∀ p ∈ endv, in_grid N N p)
    (hres : astar g h startv endv obstaclev blocking = .path result) :
    List.Chain' adjacent4 (pairs result).tail ∧ ∀ p ∈ pairs result, in_grid N N p := by
  obtain ⟨sel, ext, fp, hr, ⟨e, hev, hsel⟩, _, hlast, hchain, _, _, _⟩ :=
    astar_path_shape g N N h startv endv obstaclev blocking result hh hw hs he hres
  have heg := he e hev
  have hpairs : pairs result = cell_at N fp :: (sel :: ext).reverse.map (cell_at N) := by
    rw [hr, pairs_result]
  have hgrid : ∀ x ∈ sel :: ext, in_grid N N (cell_at N x) := by
    intro x hx
    rcases List.mem_cons.mp hx with h1 | h1
    · rw [h1, hsel, cell_at_position N e heg.1 heg.2.1 heg.2.2.1]
      exact heg
    · obtain ⟨a, adjb, hadj, ha⟩ := chain_targets _ ext sel hchain x h1
      exact (listed_adjacent g0 g N hN ht a x adjb hadj ha).1
  constructor
  · rw [hpairs, List.tail_cons, List.chain'_map, List.chain'_reverse]
    have hc : List.Chain' (fun a b => ∃ adjb, rd g.ADJACENCY_LIST b = some adjb ∧ a ∈ adjb)
        (sel :: ext) := hchain
    refine hc.imp ?_
    rintro a b ⟨adjb, hadj, ha⟩
    exact (listed_adjacent g0 g N hN ht a b adjb hadj ha).2
  · intro p hp
    rw [hpairs] at hp
    rcases List.mem_cons.mp hp with h1 | h1
    · rw [h1]
      exact hgrid fp (List.mem_of_getLast?_eq_some hlast)
    · obtain ⟨x, hx, hxe⟩ := List.mem_map.mp h1
      rw [← hxe]
      exact hgrid x (List.mem_reverse.mp hx)

theorem astar_path_connected_witness :
    astar (set_layer_distance (init_astar Globals.initial 3 3) 1 0) stdHeap
      [(0, 0)] [(2, 0)] [0, 1, 0, 0, 0, 0, 0, 0, 0] 1
      = .path [0, 0, 0, 0, 1, 0, 2, 0, -1] ∧
    List.Chain' adjacent4 (pairs [0, 0, 0, 0, 1, 0, 2, 0, -1]).tail ∧
    ∀ p ∈ pairs [0, 0, 0, 0, 1, 0, 2, 0, -1], in_grid 3 3 p :=
  ⟨by decide!,
    astar_path_connected Globals.initial
      (set_layer_distance (init_astar Globals.initial 3 3) 1 0) 3 stdHeap [(0, 0)] [(2, 0)]
      [0, 1, 0, 0, 0, 0, 0, 0, 0] 1 [0, 0, 0, 0, 1, 0, 2, 0, -1] stdHeap_lawful
      (by decide) rfl rfl (by decide) (by decide) (by decide!)⟩

theorem dropLast_tail_cons {α : Type} (a : α) (l : List α) :
    (a :: l).dropLast.tail = l.dropLast := by
  cases l with
  | nil => rfl
  | cons b l => rfl

/-- C16. Returned path avoids active obstacles: for globals of width `W` with every
single-bit layer range unlimited (as after `init_astar`), whatever the table and the bitmap,
with a lawful priority queue and starts and goals inside the `W` by `H` grid, in a non-null
result every coordinate pair strictly between the two leading pairs of the start and the
last pair, the goal, is a cell whose obstacle bits do not meet the blocking mask. -/
theorem astar_path_avoids_obstacles (g : Globals) (W H : Int) (h : HeapOps)
    (startv endv : List (Int × Int)) (obstaclev : List Nat) (blocking : Nat)
    (result : List Int) (hh : h.Lawful) (hw : g.MAP_WIDTH = W) (hu : unlimited g)
    (hs : ∀ p ∈ startv, in_grid W H p) (he : ∀ p ∈ endv, in_grid W H p)
    (hres : astar g h startv endv obstaclev blocking = .path result) :
    ∀ p ∈ inner_cells (pairs result).tail, obstacle_bits W obstaclev blocking p = 0 := by
  obtain ⟨sel, ext, fp, hr, _, _, _, _, _, _, hpass⟩ :=
    astar_path_shape g W H h startv endv obstaclev blocking result hh hw hs he hres
  intro p hp
  have hinner : inner_cells (pairs result).tail = ext.dropLast.reverse.map (cell_at W) := by
    rw [hr, pairs_result, List.tail_cons]
    unfold inner_cells
    rw [← List.map_tail, ← List.map_dropLast, List.tail_reverse, List.dropLast_reverse,
      dropLast_tail_cons]
  rw [hinner] at hp
  obtain ⟨y, hy, hye⟩ := List.mem_map.mp hp
  obtain ⟨o, st, ho, hz⟩ := hpass y (List.mem_reverse.mp hy)
  rw [relief_unlimited g hu] at hz
  rw [← hye]
  unfold obstacle_bits cell_at
  rw [cell_at_index, ho]
  exact hz

theorem astar_path_avoids_obstacles_witness :
    unlimited (init_astar Globals.initial 3 3) ∧
    astar (init_astar Globals.initial 3 3) stdHeap [(0, 0)] [(2, 0)]
      [0, 1, 0, 0, 0, 0, 0, 0, 0] 1 = .path [0, 0, 0, 0, 0, 1, 1, 1, 2, 1, 2, 0, -1] ∧
    ∀ p ∈ inner_cells (pairs [0, 0, 0, 0, 0, 1, 1, 1, 2, 1, 2, 0, -1]).tail,
      obstacle_bits 3 [0, 1, 0, 0, 0, 0, 0, 0, 0] 1 p = 0 :=
  ⟨unlimited_init_astar Globals.initial 3 3, by decide!,
    astar_path_avoids_obstacles (init_astar Globals.initial 3 3) 3 3 stdHeap [(0, 0)] [(2, 0)]
      [0, 1, 0, 0, 0, 0, 0, 0, 0] 1 [0, 0, 0, 0, 0, 1, 1, 1, 2, 1, 2, 0, -1] stdHeap_lawful
      rfl (unlimited_init_astar Globals.initial 3 3) (by decide) (by decide) (by decide!)⟩

/-- C15. On the 3x3 grid without obstacles, after `init_astar(3, 3)`, the start `(0,2)` of
the top row and the goal `(2,0)` are joined by the route down the left column and along the
bottom row, whose inner cells carry no obstacle bit; the call examines the neighbour above
the start, index 9, indexes the bitmap outside its bounds and returns no path. -/
theorem astar_open_route_top_row_start :
    is_route 3 3 [(0, 2)] [(2, 0)] [(0, 2), (0, 1), (0, 0), (1, 0), (2, 0)] ∧
    (∀ p ∈ inner_cells [((0 : Int), (2 : Int)), (0, 1), (0, 0), (1, 0), (2, 0)],
      obstacle_bits 3 [0, 0, 0, 0, 0, 0, 0, 0, 0] 0 p = 0) ∧
    unlimited (init_astar Globals.initial 3 3) ∧
    rd (init_astar Globals.initial 3 3).ADJACENCY_LIST 6 = some [7, 9, 3] ∧
    rd ([0, 0, 0, 0, 0, 0, 0, 0, 0] : List Nat) 9 = none ∧
    astar (init_astar Globals.initial 3 3) stdHeap [(0, 2)] [(2, 0)]
      [0, 0, 0, 0, 0, 0, 0, 0, 0] 0 = Outcome.fault := by
  refine ⟨⟨by decide, ?_, ⟨(0, 2), by decide, rfl⟩, ⟨(2, 0), by decide, rfl⟩⟩, by decide,
    unlimited_init_astar Globals.initial 3 3, by decide, by decide, by decide!⟩
  exact List.Chain'.cons (by decide) (List.Chain'.cons (by decide) (List.Chain'.cons
    (by decide) (List.Chain'.cons (by decide) (List.chain'_singleton _))))

/-- C18. After `init_astar(2, 1)` the table is `[[2], [0]]`: the cell `(0,0)` lists the index
2, outside the two cells of the grid, and not its right neighbour. The call from `(0,0)` to
`(1,0)` reads `obstaclev[2]` in a bitmap of two entries. After `init_astar(3, 3)` the cell
`(1,2)` of the top row lists the index 10, and the call from `(1,2)` to `(1,0)` reads
`obstaclev[10]` in a bitmap of nine entries. -/
theorem astar_reads_outside_bitmap :
    (init_astar Globals.initial 2 1).ADJACENCY_LIST = [[2], [0]] ∧
    rd ([0, 0] : List Nat) 2 = none ∧
    astar (init_astar Globals.initial 2 1) stdHeap [(0, 0)] [(1, 0)] [0, 0] 0
      = Outcome.fault ∧
    rd (init_astar Globals.initial 3 3).ADJACENCY_LIST 7 = some [8, 6, 10, 4] ∧
    rd ([0, 0, 0, 0, 0, 0, 0, 0, 0] : List Nat) 10 = none ∧
    astar (init_astar Globals.initial 3 3) stdHeap [(1, 2)] [(1, 0)]
      [0, 0, 0, 0, 0, 0, 0, 0, 0] 0 = Outcome.fault := by
  refine ⟨by decide, by decide, by decide!, by decide, by decide, by decide!⟩

end Seastar
